import Mathlib

/-!
CODY (legion-hpcg / lgncg): dot-product reduction and halo exchange.

A shallow embedding of `ComputeDotProduct` (explicit-spmd/ComputeDotProduct.hpp)
and `ExchangeHalo` (lgncg/v3/ExchangeHalo.hpp), with the properties of the
design document stated and proved over it.
-/

set_option exponentiation.threshold 9000

namespace CODY

/-! ## Element arithmetic

`floatType` is declared in a header outside these sources, so the embedding is
generic in the element type `α` and its `0`, `+`, `*`.  `Binary64` is the IEEE
double-precision instance used for concrete evaluations. -/

/-- IEEE-754 binary64 values, up to the sign of zero.  A finite value is stored
as the integer `k` with value `k * 2^(-1074)`; every finite binary64 number is such
a multiple.  `nonFinite` stands for the infinities and NaN, which absorb under
addition and multiplication. -/
inductive Binary64 where
  | finite (k : Int)
  | nonFinite
  deriving DecidableEq, Repr

namespace Binary64

/-- Index of the leading bit of `a` (for `0 < a < 2^8192`), by binary search. -/
def leadingBit (a : Nat) : Nat :=
  [4096, 2048, 1024, 512, 256, 128, 64, 32, 16, 8, 4, 2, 1].foldl
    (fun e s => if 2 ^ (e + s) ≤ a then e + s else e) 0

/-- Number of low bits to drop so that at most 53 significant bits remain. -/
def excessBits (a : Nat) : Nat := (leadingBit a + 1) - 53

/-- Round the magnitude `a` (in units of `2^(-1074 - minShift)`) to the nearest
binary64 magnitude, ties to even; the result is in units of `2^(-1074)`. -/
def roundMag (a minShift : Nat) : Nat :=
  let shift := max (excessBits a) minShift
  let q := a / 2 ^ shift
  let r := a % 2 ^ shift
  let up := if 2 * r > 2 ^ shift ∨ (2 * r = 2 ^ shift ∧ q % 2 = 1) then 1 else 0
  (q + up) * 2 ^ (shift - minShift)

/-- Round an exact result `n * 2^(-1074 - minShift)` to binary64. -/
def ofExact (n : Int) (minShift : Nat) : Binary64 :=
  let m := roundMag n.natAbs minShift
  if 2 ^ 2098 ≤ m then nonFinite
  else finite (if n < 0 then -(m : Int) else (m : Int))

/-- Binary64 addition, round to nearest even. -/
def add : Binary64 → Binary64 → Binary64
  | finite a, finite b => ofExact (a + b) 0
  | _, _ => nonFinite

/-- Binary64 multiplication, round to nearest even. -/
def mul : Binary64 → Binary64 → Binary64
  | finite a, finite b => ofExact (a * b) 1074
  | _, _ => nonFinite

/-- Binary64 subtraction, round to nearest even. -/
def sub : Binary64 → Binary64 → Binary64
  | finite a, finite b => ofExact (a - b) 0
  | _, _ => nonFinite

instance : Zero Binary64 := ⟨finite 0⟩
instance : Add Binary64 := ⟨add⟩
instance : Sub Binary64 := ⟨sub⟩
instance : Mul Binary64 := ⟨mul⟩

/-- Whether a value is a binary64 number: finite, and left as it is by rounding. -/
def isDouble : Binary64 → Bool
  | finite k => decide (ofExact k 0 = finite k)
  | nonFinite => false

/-- Whether a value is a time in seconds: a binary64 number, not negative and below
`2^926`. -/
def isTime : Binary64 → Bool
  | finite k => decide (0 ≤ k) && decide (k < ((2 ^ 2000 : Nat) : Int)) && isDouble (finite k)
  | nonFinite => false

/-- The comparison `a <= b` of accumulator values.  Finite values compare as
numbers; `nonFinite` on the right is an accumulator that has left the finite range,
which for a sum of a finite value and a non-negative increment is an overflow to
`+∞`, and `+∞` stays `+∞` under further such additions. -/
def le : Binary64 → Binary64 → Prop
  | finite a, finite b => a ≤ b
  | finite _, nonFinite => True
  | nonFinite, nonFinite => True
  | nonFinite, finite _ => False

instance : (a b : Binary64) → Decidable (le a b)
  | finite a, finite b => inferInstanceAs (Decidable (a ≤ b))
  | finite _, nonFinite => isTrue trivial
  | nonFinite, nonFinite => isTrue trivial
  | nonFinite, finite _ => isFalse (fun h => h)

/-- The binary64 value of a small integer `m` (exact when `|m| < 2^53` or `m` has at
most 53 significant bits). -/
def ofInt (m : Int) : Binary64 := finite (m * ((2 ^ 1074 : Nat) : Int))

end Binary64

/-! ## Arrays -/

/-- `local_int_t`: the signed integer type of local indices and counts. -/
abbrev local_int_t := Int

/-- The conversion `size_t(n)` of a signed count (64-bit `size_t`). -/
def size_t (n : local_int_t) : Nat := (n % 2 ^ 64).toNat

/-- `LogicalArray<T>`: a handle on a logical region holding an array. -/
structure LogicalArray where
  /-- Identity of the logical region. -/
  logicalRegion : Nat
  /-- The parent logical region, when one is recorded. -/
  parentLogicalRegion : Option Nat
  /-- Field id of the stored values. -/
  fid : Nat
  /-- Number of elements the region holds. -/
  length : Nat
  deriving DecidableEq, Repr

/-- The method `hasParentLogicalRegion()`. -/
def LogicalArray.hasParentLogicalRegion (a : LogicalArray) : Bool :=
  a.parentLogicalRegion.isSome

/-- `Array<T>`: a mapped array.  `data` is the address `data()` returns (`0` is the
null pointer), `elems` the values stored there (`elems.length` is `length()`),
`ghosts` the shadow containers and `ghostsSet` the flag behind `hasGhosts()`. -/
structure Array (α : Type) where
  data : Nat
  elems : List α
  ghosts : List LogicalArray
  ghostsSet : Bool
  deriving DecidableEq, Repr

/-- The method `length()`. -/
def Array.length {α : Type} (x : Array α) : Nat := x.elems.length

/-- Modelled from the spec: `hasGhosts()` of LegionArrays.hpp, which is not among the
sources; it reads the "has ghosts" flag that guards the creation of the shadow
containers. -/
def Array.hasGhosts {α : Type} (x : Array α) : Bool := x.ghostsSet

/-! ## ComputeDotProduct -/

section DotProduct

variable {α T : Type}

/-- The loop `for (i = 0; i < n; i++) local_result += xv[i] * yv[i]` with `k`
iterations left and loop counter `i`; a read past the end of a buffer has no
value. -/
def dotLoop [Add α] [Mul α] (xv yv : List α) : Nat → Nat → α → Option α
  | 0, _, local_result => some local_result
  | k + 1, i, local_result =>
    match xv[i]?, yv[i]? with
    | some a, some b => dotLoop xv yv k (i + 1) (local_result + a * b)
    | _, _ => none

/-- Lines 86-102 of `ComputeDotProduct`: the assertions and the local summation.
`none` is a failed assertion or an out-of-bounds read. -/
def localDotProduct [Zero α] [Add α] [Mul α] (n : local_int_t) (x y : Array α) :
    Option α :=
  if ¬ (x.length ≥ size_t n) then none
  else if ¬ (y.length ≥ size_t n) then none
  else
    let local_result : α := 0
    let xv := x.data
    if xv = 0 then none
    else
      let yv := y.data
      if yv = 0 then none
      else if yv = xv then dotLoop x.elems x.elems n.toNat 0 local_result
      else dotLoop x.elems y.elems n.toNat 0 local_result

/-- Modelled from the spec: `mytimer` of mytimer.hpp, which is not among the sources,
reads the wall clock.  A `Clock` gives the reading when the call starts, the time
the assertions and the local summation take, and the time the collective takes. -/
structure Clock (T : Type) where
  entry : T
  localWork : T
  collective : T

/-- Modelled from the spec: the wall clock `mytimer` reads, in the `double` it
returns.  The reading when the call starts and the times the local work and the
collective take are binary64 times: the clock does not run backwards. -/
def WallClock (c : Clock Binary64) : Prop :=
  c.entry.isTime = true ∧ c.localWork.isTime = true ∧ c.collective.isTime = true

instance (c : Clock Binary64) : Decidable (WallClock c) :=
  inferInstanceAs (Decidable (_ ∧ _))

/-- What a call leaves behind: the returned status and the two reference
parameters `result` and `timeAllreduce`. -/
structure DotOut (α T : Type) where
  ret : Int
  result : α
  timeAllreduce : T
  deriving DecidableEq, Repr

/-- `ComputeDotProduct(n, x, y, result, timeAllreduce, dcReduceSum, ctx, runtime)`.
`allReduce` stands for `allReduce(·, dcReduceSum, ctx, runtime)`; `clock` supplies
the readings of `mytimer()`. -/
def ComputeDotProduct [Zero α] [Add α] [Mul α] [Add T] [Sub T]
    (n : local_int_t) (x y : Array α) (_result : α) (timeAllreduce : T)
    (allReduce : α → α) (clock : Clock T) : Option (DotOut α T) :=
  match localDotProduct n x y with
  | none => none
  | some local_result =>
    let t0 := clock.entry + clock.localWork
    let result := allReduce local_result
    let t1 := clock.entry + clock.localWork + clock.collective
    some { ret := 0, result := result, timeAllreduce := timeAllreduce + (t1 - t0) }

/-- The preconditions of one call: a count within both arrays, mapped arrays, and
arrays at one address holding the same values. -/
def DotCallOk (n : Int) (x y : Array α) : Prop :=
  0 ≤ n ∧ n ≤ x.length ∧ n ≤ y.length ∧ x.data ≠ 0 ∧ y.data ≠ 0 ∧
    (y.data = x.data → y.elems = x.elems)

instance [DecidableEq α] (n : Int) (x y : Array α) : Decidable (DotCallOk n x y) :=
  inferInstanceAs (Decidable (_ ∧ _))

/-- The sum written out in the design document:
`((0 + x[0]*y[0]) + x[1]*y[1]) + ...` over the paired entries. -/
def seqDot [Zero α] [Add α] [Mul α] (xs ys : List α) : α :=
  (List.zipWith (· * ·) xs ys).foldl (· + ·) 0

/-- Modelled from the spec: `allReduce` of CollectiveOps.hpp, which is not among the
sources.  The dynamic collective is bound to the sum operator: it adds up the
contributions of all partitions, and every partition receives that sum. -/
def allReduceSum [Zero α] [Add α] (contributions : List α) : α :=
  contributions.foldl (· + ·) 0

/-- One partition's call of `ComputeDotProduct`. -/
structure DotCall (α T : Type) where
  n : local_int_t
  x : Array α
  y : Array α
  clock : Clock T

/-- The local partial sums of the partitions, in rank order. -/
def localDotProducts [Zero α] [Add α] [Mul α] :
    List (DotCall α T) → Option (List α)
  | [] => some []
  | p :: ps =>
    match localDotProduct p.n p.x p.y with
    | none => none
    | some v =>
      match localDotProducts ps with
      | none => none
      | some vs => some (v :: vs)

/-- The calls of the partitions from rank `rank` on, `locals` being the
contributions of all partitions: the partition of rank `rank` hands its local
partial sum `v` to the collective and receives the sum of all contributions. -/
def dotCalls [Zero α] [Add α] [Mul α] [Add T] [Sub T]
    (locals : List α) (result : α) (timeAllreduce : T) :
    Nat → List (DotCall α T) → Option (List (DotOut α T))
  | _, [] => some []
  | rank, p :: ps =>
    match ComputeDotProduct p.n p.x p.y result timeAllreduce
        (fun v => allReduceSum (locals.set rank v)) p.clock with
    | none => none
    | some out =>
      match dotCalls locals result timeAllreduce (rank + 1) ps with
      | none => none
      | some outs => some (out :: outs)

/-- Modelled from the spec: all partitions calling `ComputeDotProduct` on their share
of a vector pair, the collective being the sum of the partitions' local partial
sums. -/
def ComputeDotProductAll [Zero α] [Add α] [Mul α] [Add T] [Sub T]
    (parts : List (DotCall α T)) (result : α) (timeAllreduce : T) :
    Option (List (DotOut α T)) :=
  match localDotProducts parts with
  | none => none
  | some locals => dotCalls locals result timeAllreduce 0 parts

/-- The first `n` entries of every partition's `x`, concatenated in rank order. -/
def concatX (parts : List (DotCall α T)) : List α :=
  parts.flatMap (fun p => p.x.elems.take p.n.toNat)

/-- The first `n` entries of every partition's `y`, concatenated in rank order. -/
def concatY (parts : List (DotCall α T)) : List α :=
  parts.flatMap (fun p => p.y.elems.take p.n.toNat)

/-- The local partial sum the design document assigns to a partition. -/
def localValue [Zero α] [Add α] [Mul α] (p : DotCall α T) : α :=
  seqDot (p.x.elems.take p.n.toNat) (p.y.elems.take p.n.toNat)

/-- The accumulator values the design document prescribes for repeated calls: each
call adds the reading after the collective minus the reading just before it. -/
def accumulated [Add T] [Sub T] : T → List (DotCall α T) → List T
  | _, [] => []
  | acc, c :: cs =>
    let t0 := c.clock.entry + c.clock.localWork
    let t1 := c.clock.entry + c.clock.localWork + c.clock.collective
    (acc + (t1 - t0)) :: accumulated (acc + (t1 - t0)) cs

/-- Repeated calls threading the accumulator `timeAllreduce`: the list of its values
after each call. -/
def timeAllreduceAfter [Zero α] [Add α] [Mul α] [Add T] [Sub T]
    (allReduce : α → α) (result : α) :
    T → List (DotCall α T) → Option (List T)
  | _, [] => some []
  | acc, c :: cs =>
    match ComputeDotProduct c.n c.x c.y result acc allReduce c.clock with
    | none => none
    | some out =>
      match timeAllreduceAfter allReduce out.result out.timeAllreduce cs with
      | none => none
      | some rest => some (out.timeAllreduce :: rest)

end DotProduct

/-! ## ExchangeHalo -/

/-- A phase barrier handle: the barrier it belongs to and the generation it names. -/
structure PhaseBarrier where
  id : Nat
  gen : Int
  deriving DecidableEq, Repr

/-- `PhaseBarriers`: the ready/done pair of one pull buffer. -/
structure PhaseBarriers where
  ready : PhaseBarrier
  done : PhaseBarrier
  deriving DecidableEq, Repr

/-- `Synchronizers`: this partition's own pair and one pair per neighbor. -/
structure Synchronizers where
  mine : PhaseBarriers
  neighbors : List PhaseBarriers
  deriving DecidableEq, Repr

/-- `SparseMatrixScalars`: the scalar fields `ExchangeHalo` reads. -/
structure SparseMatrixScalars where
  numberOfSendNeighbors : Int
  totalToBeSent : local_int_t
  deriving DecidableEq, Repr

/-- `SparseMatrix`: the parts of the matrix `ExchangeHalo` uses.  `elementsToSend` is
a raw pointer (`none` is null); `ghostArrays` is the map from neighbor id to the
region of that neighbor's pull buffer exposed to this partition. -/
structure SparseMatrix (α : Type) where
  sclrs : SparseMatrixScalars
  synchronizers : Synchronizers
  neighbors : List Int
  elementsToSend : Option (List local_int_t)
  pullBuffer : Array α
  ghostArrays : List (Int × LogicalArray)
  deriving DecidableEq, Repr

/-- Privileges of a region requirement. -/
inductive Privilege where
  | READ_ONLY
  | WRITE_DISCARD
  deriving DecidableEq, Repr

/-- Coherence modes of a region requirement. -/
inductive Coherence where
  | EXCLUSIVE
  deriving DecidableEq, Repr

/-- `RegionRequirement(region, privilege, coherence, parent)` with its fields. -/
structure RegionRequirement where
  region : Nat
  privilege : Privilege
  coherence : Coherence
  parent : Option Nat
  fields : List Nat
  deriving DecidableEq, Repr

/-- Task ids. -/
inductive TaskId where
  | REGION_TO_REGION_COPY_TID
  deriving DecidableEq, Repr

/-- `TaskLauncher`: the task, its region requirements in the order added, and the
barriers it waits on and arrives at. -/
structure TaskLauncher where
  tid : TaskId
  regionRequirements : List RegionRequirement
  waitBarriers : List PhaseBarrier
  arrivalBarriers : List PhaseBarrier
  deriving DecidableEq, Repr

/-- The runtime state `ExchangeHalo` can change: the next unused region id. -/
structure Runtime where
  nextRegion : Nat
  deriving DecidableEq, Repr

/-- `lrt->advance_phase_barrier(ctx, pb)` of the Legion runtime: the handle of the
next generation of the same barrier. -/
def advance_phase_barrier (pb : PhaseBarrier) : PhaseBarrier :=
  { pb with gen := pb.gen + 1 }

/-- The handle after `j` calls of `advance_phase_barrier`. -/
def advanceBy (j : Nat) (pb : PhaseBarrier) : PhaseBarrier :=
  { pb with gen := pb.gen + j }

/-- The generation an arrival on a handle counts towards (`arrive` and
`add_arrival_barrier` of the Legion runtime): the one the handle names. -/
def PhaseBarrier.arrivalGeneration (pb : PhaseBarrier) : Int := pb.gen

/-- The generation a wait on a handle is for: in the Legion runtime `wait()` and
`add_wait_barrier` block until the phase before the one the handle names has
completed, which is why the loop advances a ready handle before it waits on it. -/
def PhaseBarrier.awaitedGeneration (pb : PhaseBarrier) : Int := pb.gen - 1

/-- What one call does to the runtime and to the pull buffer, in program order. -/
inductive Event where
  /-- `SetupGhostArrays(A, x, ctx, lrt)`. -/
  | setupGhostArrays
  /-- `pb.wait()`. -/
  | wait (pb : PhaseBarrier)
  /-- `lrt->advance_phase_barrier(ctx, pb)`. -/
  | advance (pb : PhaseBarrier)
  /-- `pullBuffer[i] = xv[elementsToSend[i]]`. -/
  | pack (i : Nat)
  /-- `pb.arrive(count)`. -/
  | arrive (pb : PhaseBarrier) (count : Nat)
  /-- `lrt->execute_task(ctx, tl)`. -/
  | executeTask (tl : TaskLauncher)
  deriving DecidableEq, Repr

section Exchange

variable {α : Type}

/-- Modelled from the spec: the allocation loop of `SetupGhostArrays`.  For each
neighbor id in turn it allocates a new shadow container (a fresh region, its own
parent) of the size of that neighbor's contribution, the size of the source region
registered for the neighbor; `n` counts the containers allocated so far. -/
def setupLoop (A : SparseMatrix α) (nextRegion : Nat) :
    List Int → Nat → Option (List LogicalArray)
  | [], _ => some []
  | nid :: nids, n =>
    match A.ghostArrays.lookup nid with
    | none => none
    | some srcArray =>
      match setupLoop A nextRegion nids (n + 1) with
      | none => none
      | some ghosts =>
        some ({ logicalRegion := nextRegion + n
                parentLogicalRegion := some (nextRegion + n)
                fid := srcArray.fid
                length := srcArray.length } :: ghosts)

/-- Modelled from the spec: `SetupGhostArrays`, which is not among the sources.  For
every neighbor of the matrix descriptor it allocates a new shadow container of the
size of that neighbor's contribution and marks the array as having ghosts; it fails
on a neighbor list with a duplicate or unknown identifier. -/
def SetupGhostArrays (A : SparseMatrix α) (x : Array α) (lrt : Runtime) :
    Option (Array α × Runtime) :=
  let nids := A.neighbors.take A.sclrs.numberOfSendNeighbors.toNat
  if nids.length < A.sclrs.numberOfSendNeighbors.toNat then none
  else if ¬ nids.Nodup then none
  else
    match setupLoop A lrt.nextRegion nids 0 with
    | none => none
    | some ghosts =>
      some ({ x with ghosts := ghosts, ghostsSet := true },
            { nextRegion := lrt.nextRegion + ghosts.length })

/-- What a call of `ExchangeHalo` needs to complete: a send list covering
`totalToBeSent` entries that index `x`, a pull buffer of at least that size, mapped
buffers, `nNeighbors` neighbor ids and barrier pairs, a source region with a parent
for every neighbor, and either shadow containers with parents for every neighbor
or, when they are still to be created, neighbor ids without duplicates. -/
def ExchangeReady (A : SparseMatrix α) (x : Array α) : Prop :=
  (∃ es ∈ A.elementsToSend, ∀ j, j < A.sclrs.totalToBeSent.toNat →
    ∃ e ∈ es[j]?, 0 ≤ e ∧ e.toNat < x.length) ∧
  x.data ≠ 0 ∧ A.pullBuffer.data ≠ 0 ∧
  A.sclrs.totalToBeSent.toNat ≤ A.pullBuffer.length ∧
  A.sclrs.numberOfSendNeighbors.toNat ≤ A.synchronizers.neighbors.length ∧
  (∀ n, n < A.sclrs.numberOfSendNeighbors.toNat →
    ∃ nid ∈ A.neighbors[n]?, ∃ srcArray ∈ A.ghostArrays.lookup nid,
      srcArray.hasParentLogicalRegion = true) ∧
  (if x.hasGhosts then
      ∀ n, n < A.sclrs.numberOfSendNeighbors.toNat →
        ∃ dstArray ∈ x.ghosts[n]?, dstArray.hasParentLogicalRegion = true
    else (A.neighbors.take A.sclrs.numberOfSendNeighbors.toNat).Nodup)

instance (A : SparseMatrix α) (x : Array α) : Decidable (ExchangeReady A x) :=
  inferInstanceAs (Decidable (_ ∧ _))

/-- The pack loop `for (i = 0; i < totalToBeSent; i++) pullBuffer[i] =
xv[elementsToSend[i]]` with `k` iterations left and loop counter `i`; an access
outside a buffer has no value. -/
def packLoop (xv : List α) (elementsToSend : List local_int_t) :
    Nat → Nat → List α → Option (List α)
  | 0, _, pullBuffer => some pullBuffer
  | k + 1, i, pullBuffer =>
    match elementsToSend[i]? with
    | none => none
    | some e =>
      if e < 0 then none
      else
        match xv[e.toNat]? with
        | none => none
        | some v =>
          if i < pullBuffer.length then
            packLoop xv elementsToSend k (i + 1) (pullBuffer.set i v)
          else none

/-- The launcher the loop body builds for one neighbor: source and destination
requirements, the advanced ready handle to wait on and the done handle to arrive
at. -/
def copyLauncher (srcArray dstArray : LogicalArray) (nb : PhaseBarriers) :
    TaskLauncher :=
  let srcrr : RegionRequirement :=
    { region := srcArray.logicalRegion, privilege := Privilege.READ_ONLY,
      coherence := Coherence.EXCLUSIVE, parent := srcArray.parentLogicalRegion,
      fields := [srcArray.fid] }
  let dstrr : RegionRequirement :=
    { region := dstArray.logicalRegion, privilege := Privilege.WRITE_DISCARD,
      coherence := Coherence.EXCLUSIVE, parent := dstArray.parentLogicalRegion,
      fields := [dstArray.fid] }
  { tid := TaskId.REGION_TO_REGION_COPY_TID
    regionRequirements := [srcrr, dstrr]
    waitBarriers := [advance_phase_barrier nb.ready]
    arrivalBarriers := [nb.done] }

/-- The loop `for (int n = 0; n < nNeighbors; ++n)` with `k` iterations left and
loop counter `n`: the per-neighbor barrier pairs after the loop and the events it
produced.  `none` is a failed assertion or an access outside a container. -/
def neighborLoop (A : SparseMatrix α) (x : Array α) :
    Nat → Nat → List PhaseBarriers → Option (List PhaseBarriers × List Event)
  | 0, _, nbs => some (nbs, [])
  | k + 1, n, nbs =>
    match A.neighbors[n]? with
    | none => none
    | some nid =>
      match A.ghostArrays.lookup nid with
      | none => none
      | some srcArray =>
        if ¬ srcArray.hasParentLogicalRegion then none
        else
          match x.ghosts[n]? with
          | none => none
          | some dstArray =>
            if ¬ dstArray.hasParentLogicalRegion then none
            else
              match nbs[n]? with
              | none => none
              | some nb =>
                let tl := copyLauncher srcArray dstArray nb
                let nb1 : PhaseBarriers :=
                  { ready := advance_phase_barrier nb.ready
                    done := advance_phase_barrier nb.done }
                match neighborLoop A x k (n + 1) (nbs.set n nb1) with
                | none => none
                | some (nbs1, evs) =>
                  some (nbs1, Event.advance nb.ready :: Event.advance nb.done ::
                    Event.executeTask tl :: evs)

/-- The events of the loop body for neighbor slot `n`, `nbs` being the per-neighbor
barrier pairs before the loop. -/
def neighborEvents (A : SparseMatrix α) (x : Array α) (nbs : List PhaseBarriers)
    (n : Nat) : List Event :=
  match A.neighbors[n]?, x.ghosts[n]?, nbs[n]? with
  | some nid, some dstArray, some nb =>
    match A.ghostArrays.lookup nid with
    | some srcArray =>
      [Event.advance nb.ready, Event.advance nb.done,
        Event.executeTask (copyLauncher srcArray dstArray nb)]
    | none => []
  | _, _, _ => []

/-- What a call of `ExchangeHalo` leaves behind, and what it did. -/
structure ExchangeOut (α : Type) where
  A : SparseMatrix α
  x : Array α
  lrt : Runtime
  trace : List Event
  deriving DecidableEq, Repr

/-- `ExchangeHalo(A, x, ctx, lrt)`.  `none` is a failed assertion or an access
outside a container. -/
def ExchangeHalo (A : SparseMatrix α) (x : Array α) (lrt : Runtime) :
    Option (ExchangeOut α) :=
  let syncs := A.synchronizers
  let myPBs := syncs.mine
  let nNeighbors := A.sclrs.numberOfSendNeighbors
  let totalToBeSent := A.sclrs.totalToBeSent
  match A.elementsToSend with
  | none => none
  | some elementsToSend =>
    -- Setup ghost regions if not already there.
    let ghostStep : Option (Array α × Runtime × List Event) :=
      if ¬ x.hasGhosts then
        match SetupGhostArrays A x lrt with
        | none => none
        | some (x1, lrt1) => some (x1, lrt1, [Event.setupGhostArrays])
      else some (x, lrt, [])
    match ghostStep with
    | none => none
    | some (x1, lrt1, evSetup) =>
      if x1.data = 0 then none
      else if A.pullBuffer.data = 0 then none
      else
        let done1 := advance_phase_barrier myPBs.done
        match packLoop x1.elems elementsToSend totalToBeSent.toNat 0
            A.pullBuffer.elems with
        | none => none
        | some pulled =>
          let ready1 := advance_phase_barrier myPBs.ready
          match neighborLoop A x1 nNeighbors.toNat 0 syncs.neighbors with
          | none => none
          | some (nbs1, evCopies) =>
            some
              { A := { A with
                  pullBuffer := { A.pullBuffer with elems := pulled }
                  synchronizers :=
                    { mine := { ready := ready1, done := done1 }, neighbors := nbs1 } }
                x := x1
                lrt := lrt1
                trace := evSetup ++
                  [Event.wait myPBs.done, Event.advance myPBs.done] ++
                  (List.range totalToBeSent.toNat).map Event.pack ++
                  [Event.arrive myPBs.ready 1, Event.advance myPBs.ready] ++
                  evCopies }

/-- Successive calls of `ExchangeHalo` by one partition on one array `x`, the
caller having stored the values `vals` in `x` before each call: the final matrix,
array and runtime, and the trace of each round. -/
def exchangeRounds : SparseMatrix α → Array α → Runtime → List (List α) →
    Option (SparseMatrix α × Array α × Runtime × List (List Event))
  | A, x, lrt, [] => some (A, x, lrt, [])
  | A, x, lrt, vals :: rest =>
    match ExchangeHalo A { x with elems := vals } lrt with
    | none => none
    | some out =>
      match exchangeRounds out.A out.x out.lrt rest with
      | none => none
      | some (A1, x1, lrt1, traces) => some (A1, x1, lrt1, out.trace :: traces)

/-- The handles waited on directly (`wait()`) in a trace. -/
def waitsOf : List Event → List PhaseBarrier
  | [] => []
  | Event.wait pb :: evs => pb :: waitsOf evs
  | _ :: evs => waitsOf evs

/-- The handles arrived at directly (`arrive(count)`) in a trace. -/
def arrivalsOf : List Event → List (PhaseBarrier × Nat)
  | [] => []
  | Event.arrive pb c :: evs => (pb, c) :: arrivalsOf evs
  | _ :: evs => arrivalsOf evs

/-- The handles advanced in a trace. -/
def advancesOf : List Event → List PhaseBarrier
  | [] => []
  | Event.advance pb :: evs => pb :: advancesOf evs
  | _ :: evs => advancesOf evs

/-- The tasks launched in a trace. -/
def tasksOf : List Event → List TaskLauncher
  | [] => []
  | Event.executeTask tl :: evs => tl :: tasksOf evs
  | _ :: evs => tasksOf evs

/-! ## One exchange round over all partitions -/

/-- One partition: its matrix and the vector it exchanges. -/
structure Partition (α : Type) where
  A : SparseMatrix α
  x : Array α
  deriving DecidableEq, Repr

/-- The part of a partition's pull buffer that a source region exposes to a
neighbor. -/
structure Segment where
  owner : Nat
  offset : Nat
  length : Nat
  deriving DecidableEq, Repr

/-- Modelled from the spec: the partitions and what the runtime holds for them during
one exchange round, none of which is among the sources.  `segments` resolves a
source region to the part of a pull buffer it exposes, `shadows` holds the contents
of the shadow containers by region, `arrivals` the arrivals registered on barrier
handles, and `pending` the copy tasks launched and not yet run. -/
structure System (α : Type) where
  parts : List (Partition α)
  lrt : Runtime
  segments : List (Nat × Segment)
  shadows : List (Nat × List α)
  arrivals : List (PhaseBarrier × Nat)
  pending : List TaskLauncher
  deriving DecidableEq, Repr

/-- What can happen next: partition `p` calls `ExchangeHalo`, or the runtime runs
the pending task at position `i`. -/
inductive Action where
  | call (p : Nat)
  | run (i : Nat)
  deriving DecidableEq, Repr

/-- Modelled from the spec: a wait on handle `h` is over once an arrival has been
registered on the generation it is for (a ready barrier expects the one arrival of
its owner). -/
def triggered (arrivals : List (PhaseBarrier × Nat)) (h : PhaseBarrier) : Bool :=
  arrivals.any (fun a =>
    a.1.id == h.id && a.1.arrivalGeneration == h.awaitedGeneration && decide (0 < a.2))

/-- Modelled from the spec: the region-to-region copy task (RegionToRegionCopy.hpp is
not among the sources).  It copies the values of its first (source) region, a part
of the owner's pull buffer, into its second (destination) region. -/
def regionToRegionCopy (sys : System α) (tl : TaskLauncher) : Option (System α) :=
  match tl.regionRequirements with
  | [srcrr, dstrr] =>
    match sys.segments.lookup srcrr.region with
    | none => none
    | some seg =>
      match sys.parts[seg.owner]? with
      | none => none
      | some owner =>
        some { sys with
          shadows := (dstrr.region,
            (owner.A.pullBuffer.elems.drop seg.offset).take seg.length) :: sys.shadows }
  | _ => none

/-- Modelled from the spec: one step of the round.  A call runs `ExchangeHalo` to
completion (the round starts with no reader active, so `mine.done.wait()` returns
at once), registers its arrivals and queues the tasks it launched; a pending task
runs only when every barrier it waits on has been triggered, and registers its
arrivals when it completes. -/
def step (sys : System α) : Action → Option (System α)
  | Action.call p =>
    match sys.parts[p]? with
    | none => none
    | some part =>
      match ExchangeHalo part.A part.x sys.lrt with
      | none => none
      | some out =>
        some { sys with
          parts := sys.parts.set p { A := out.A, x := out.x }
          lrt := out.lrt
          arrivals := sys.arrivals ++ arrivalsOf out.trace
          pending := sys.pending ++ tasksOf out.trace }
  | Action.run i =>
    match sys.pending[i]? with
    | none => none
    | some tl =>
      if tl.waitBarriers.all (triggered sys.arrivals) then
        match regionToRegionCopy sys tl with
        | none => none
        | some sys1 =>
          some { sys1 with
            arrivals := sys1.arrivals ++ tl.arrivalBarriers.map (fun pb => (pb, 1))
            pending := sys1.pending.eraseIdx i }
      else none

/-- A schedule: the steps taken in order. -/
def runSchedule : System α → List Action → Option (System α)
  | sys, [] => some sys
  | sys, a :: acts =>
    match step sys a with
    | none => none
    | some sys1 => runSchedule sys1 acts

/-- Neighbor slot `n` of `part` is wired to its owner: the neighbor id names a
partition, the slot's ready handle is that partition's own ready handle, and the
slot's source region is a part of that partition's pull buffer. -/
def slotWired (sys : System α) (part : Partition α) (n : Nat) : Bool :=
  match part.A.neighbors[n]?, part.A.synchronizers.neighbors[n]? with
  | some nid, some nb =>
    match sys.parts[nid.toNat]?, part.A.ghostArrays.lookup nid with
    | some owner, some srcArray =>
      match sys.segments.lookup srcArray.logicalRegion with
      | some seg =>
        decide (0 ≤ nid) && decide (nb.ready = owner.A.synchronizers.mine.ready) &&
          decide (seg.owner = nid.toNat)
      | none => false
    | _, _ => false
  | _, _ => false

/-- The state setup leaves before a round: no task pending, no arrival registered,
ready barriers distinct from each other and from every done barrier, and every
neighbor slot wired to its owner. -/
def Wired (sys : System α) : Prop :=
  sys.pending = [] ∧ sys.arrivals = [] ∧
  (sys.parts.map (fun p => p.A.synchronizers.mine.ready.id)).Nodup ∧
  (∀ part ∈ sys.parts, ∀ nb ∈ part.A.synchronizers.neighbors, ∀ owner ∈ sys.parts,
    nb.done.id ≠ owner.A.synchronizers.mine.ready.id) ∧
  (∀ part ∈ sys.parts, ∀ n < part.A.sclrs.numberOfSendNeighbors.toNat,
    slotWired sys part n = true)

instance (sys : System α) : Decidable (Wired sys) :=
  inferInstanceAs (Decidable (_ ∧ _))

/-- The partitions that call `ExchangeHalo` in a schedule, in order. -/
def callsOf : List Action → List Nat
  | [] => []
  | Action.call p :: acts => p :: callsOf acts
  | Action.run _ :: acts => callsOf acts

/-- The copy task of neighbor slot `n` of a partition that has called: `part0` is
the partition before its call, `part` after it. -/
def slotLauncher (part0 part : Partition α) (n : Nat) : Option TaskLauncher :=
  match part0.A.neighbors[n]?, part.x.ghosts[n]?, part0.A.synchronizers.neighbors[n]? with
  | some nid, some dstArray, some nb =>
    match part0.A.ghostArrays.lookup nid with
    | some srcArray => some (copyLauncher srcArray dstArray nb)
    | none => none
  | _, _, _ => none

/-- The part of a neighbor's pull buffer that neighbor slot `n` of matrix `A`
reads. -/
def slotSegment (segments : List (Nat × Segment)) (A : SparseMatrix α) (n : Nat) :
    Option Segment :=
  match A.neighbors[n]? with
  | none => none
  | some nid =>
    match A.ghostArrays.lookup nid with
    | none => none
    | some srcArray => segments.lookup srcArray.logicalRegion

/-- The values a segment exposes in the current state: the owner's pull buffer
from `offset`, `length` entries. -/
def segmentValues (sys : System α) (seg : Segment) : Option (List α) :=
  match sys.parts[seg.owner]? with
  | none => none
  | some owner => some ((owner.A.pullBuffer.elems.drop seg.offset).take seg.length)

/-- The invariant of a round started in `sys0`, `called` being the partitions that
have called so far: the other partitions are untouched, a partition that has
called is in the state its call left, an arrival on a ready barrier comes from its
owner's call, every pending task is the copy task of a slot of a partition that
has called, and every such slot either still has its task pending or has received
the values its owner exposes. -/
def RoundInv (sys0 sys : System α) (called : List Nat) : Prop :=
  sys.segments = sys0.segments ∧
  (∀ p, p ∉ called → sys.parts[p]? = sys0.parts[p]?) ∧
  (∀ p ∈ called, ∃ part0 lrt out, sys0.parts[p]? = some part0 ∧
    ExchangeHalo part0.A part0.x lrt = some out ∧
    sys.parts[p]? = some { A := out.A, x := out.x }) ∧
  (∀ a ∈ sys.arrivals, ∀ p part0, sys0.parts[p]? = some part0 →
    a.1.id = part0.A.synchronizers.mine.ready.id → p ∈ called) ∧
  (∀ tl ∈ sys.pending, ∃ q part0 part n, q ∈ called ∧ sys0.parts[q]? = some part0 ∧
    sys.parts[q]? = some part ∧ n < part0.A.sclrs.numberOfSendNeighbors.toNat ∧
    slotLauncher part0 part n = some tl) ∧
  (∀ q ∈ called, ∀ part0 part, sys0.parts[q]? = some part0 → sys.parts[q]? = some part →
    ∀ n, n < part0.A.sclrs.numberOfSendNeighbors.toNat →
      ∃ tl dstArray seg, slotLauncher part0 part n = some tl ∧
        part.x.ghosts[n]? = some dstArray ∧
        slotSegment sys0.segments part0.A n = some seg ∧
        (tl ∈ sys.pending ∨
          (seg.owner ∈ called ∧
            (sys.shadows.lookup dstArray.logicalRegion).isSome = true ∧
            sys.shadows.lookup dstArray.logicalRegion = segmentValues sys seg)))

/-- The regions of the shadow containers a partition's vector has, none before they
are created. -/
def ghostRegions (p : Partition α) : List Nat :=
  if p.x.hasGhosts then
    (p.x.ghosts.take p.A.sclrs.numberOfSendNeighbors.toNat).map (fun g => g.logicalRegion)
  else []

/-- The shadow containers that exist are distinct regions, all below the next region
the runtime will allocate. -/
def Fresh (sys : System α) : Prop :=
  (sys.parts.flatMap ghostRegions).Nodup ∧
  ∀ r ∈ sys.parts.flatMap ghostRegions, r < sys.lrt.nextRegion

instance (sys : System α) : Decidable (Fresh sys) :=
  inferInstanceAs (Decidable (_ ∧ _))

/-- The regions of the shadow containers in use, partition by partition. -/
def shadowRegions (sys : System α) : List Nat :=
  sys.parts.flatMap (fun p =>
    (p.x.ghosts.take p.A.sclrs.numberOfSendNeighbors.toNat).map (fun g => g.logicalRegion))

end Exchange

/-! ## Concrete inputs -/

namespace Example

open Binary64

/-- The array `[1.0, 2.0, 3.0]`. -/
def x3 : Array Binary64 :=
  { data := 4096, elems := [ofInt 1, ofInt 2, ofInt 3], ghosts := [], ghostsSet := false }

/-- A second array holding `[1.0, 2.0, 3.0]`. -/
def y3 : Array Binary64 :=
  { data := 8192, elems := [ofInt 1, ofInt 2, ofInt 3], ghosts := [], ghostsSet := false }

/-- The array `[4.0, 5.0, 6.0, 7.0]`. -/
def y4 : Array Binary64 :=
  { data := 8192, elems := [ofInt 4, ofInt 5, ofInt 6, ofInt 7], ghosts := [],
    ghostsSet := false }

/-- A clock: the call starts at 10, works locally for 5 and reduces for 7. -/
def clock : Clock Int := { entry := 10, localWork := 5, collective := 7 }

/-- Partition 0 of a split vector pair: `x = [2^53]`, `y = [1.0]`. -/
def big0 : DotCall Binary64 Int :=
  { n := 1
    x := { data := 4096, elems := [ofInt (2 ^ 53)], ghosts := [], ghostsSet := false }
    y := { data := 8192, elems := [ofInt 1], ghosts := [], ghostsSet := false }
    clock := clock }

/-- Partition 1 of a split vector pair: `x = [1.0, 1.0]`, `y = [1.0, 1.0]`. -/
def big1 : DotCall Binary64 Int :=
  { n := 2
    x := { data := 4096, elems := [ofInt 1, ofInt 1], ghosts := [], ghostsSet := false }
    y := { data := 8192, elems := [ofInt 1, ofInt 1], ghosts := [], ghostsSet := false }
    clock := clock }

/-- An integer-valued array `[1, 2, 3, 4]`. -/
def xi : Array Int := { data := 4096, elems := [1, 2, 3, 4], ghosts := [], ghostsSet := false }

/-- An integer-valued array `[5, 6, 7, 8]`. -/
def yi : Array Int := { data := 8192, elems := [5, 6, 7, 8], ghosts := [], ghostsSet := false }

/-- Two partitions of an integer-valued vector pair. -/
def intParts : List (DotCall Int Int) :=
  [{ n := 2, x := xi, y := yi, clock := clock }, { n := 3, x := yi, y := xi, clock := clock }]

/-- A binary64 clock: the call starts at 10.0, works locally for 5.0 and reduces for
7.0. -/
def wall : Clock Binary64 := { entry := ofInt 10, localWork := ofInt 5, collective := ofInt 7 }

/-- A binary64 clock whose collective takes 1.0. -/
def wallOne : Clock Binary64 := { entry := ofInt 0, localWork := ofInt 0, collective := ofInt 1 }

/-- Two successive calls timed by `wall`. -/
def timedCalls : List (DotCall Binary64 Binary64) :=
  [{ n := 3, x := x3, y := y4, clock := wall }, { n := 3, x := x3, y := y3, clock := wall }]

/-- One call timed by `wallOne`. -/
def timedOne : List (DotCall Binary64 Binary64) :=
  [{ n := 3, x := x3, y := y4, clock := wallOne }]

/-- A ready/done pair with barrier ids `r`, `d` at generation `g`. -/
def pbs (r d : Nat) (g : Int) : PhaseBarriers :=
  { ready := { id := r, gen := g }, done := { id := d, gen := g } }

/-- Partition 0 of a two-partition ring: it owns `[1, 2, 3, 4]` (`xi`) and sends
entries 2 and 3, that is `[3, 4]`, to partition 1. -/
def A0 : SparseMatrix Int :=
  { sclrs := { numberOfSendNeighbors := 1, totalToBeSent := 2 }
    synchronizers := { mine := pbs 0 1 1, neighbors := [pbs 2 3 1] }
    neighbors := [1]
    elementsToSend := some [2, 3]
    pullBuffer := { data := 12288, elems := [0, 0], ghosts := [], ghostsSet := false }
    ghostArrays :=
      [(1, { logicalRegion := 201, parentLogicalRegion := some 200, fid := 0, length := 2 })] }

/-- Partition 1 of the ring: it owns `[5, 6, 7, 8]` (`yi`) and sends entries 0 and 1
to partition 0. -/
def A1 : SparseMatrix Int :=
  { sclrs := { numberOfSendNeighbors := 1, totalToBeSent := 2 }
    synchronizers := { mine := pbs 2 3 1, neighbors := [pbs 0 1 1] }
    neighbors := [0]
    elementsToSend := some [0, 1]
    pullBuffer := { data := 16384, elems := [0, 0], ghosts := [], ghostsSet := false }
    ghostArrays :=
      [(0, { logicalRegion := 101, parentLogicalRegion := some 100, fid := 0, length := 2 })] }

/-- The runtime before any shadow container exists. -/
def lrt0 : Runtime := { nextRegion := 1000 }

/-- The shadow container partition 0 gets for its neighbor. -/
def ghost0 : LogicalArray :=
  { logicalRegion := 1000, parentLogicalRegion := some 1000, fid := 0, length := 2 }

/-- The copy task partition 0 launches in its first exchange. -/
def task0 : TaskLauncher :=
  { tid := TaskId.REGION_TO_REGION_COPY_TID
    regionRequirements :=
      [{ region := 201, privilege := Privilege.READ_ONLY, coherence := Coherence.EXCLUSIVE,
         parent := some 200, fields := [0] },
       { region := 1000, privilege := Privilege.WRITE_DISCARD,
         coherence := Coherence.EXCLUSIVE, parent := some 1000, fields := [0] }]
    waitBarriers := [{ id := 2, gen := 2 }]
    arrivalBarriers := [{ id := 3, gen := 1 }] }

/-- What the first `ExchangeHalo(A0, xi)` leaves behind. -/
def out0 : ExchangeOut Int :=
  { A := { A0 with
      synchronizers := { mine := pbs 0 1 2, neighbors := [pbs 2 3 2] }
      pullBuffer := { data := 12288, elems := [3, 4], ghosts := [], ghostsSet := false } }
    x := { xi with ghosts := [ghost0], ghostsSet := true }
    lrt := { nextRegion := 1001 }
    trace :=
      [Event.setupGhostArrays,
       Event.wait { id := 1, gen := 1 }, Event.advance { id := 1, gen := 1 },
       Event.pack 0, Event.pack 1,
       Event.arrive { id := 0, gen := 1 } 1, Event.advance { id := 0, gen := 1 },
       Event.advance { id := 2, gen := 1 }, Event.advance { id := 3, gen := 1 },
       Event.executeTask task0] }

/-- The two-partition ring before its first exchange: partition 0 exposes its whole
pull buffer to partition 1 through region 101, and partition 1 its own to
partition 0 through region 201. -/
def ring : System Int :=
  { parts := [{ A := A0, x := xi }, { A := A1, x := yi }]
    lrt := lrt0
    segments := [(101, { owner := 0, offset := 0, length := 2 }),
                 (201, { owner := 1, offset := 0, length := 2 })]
    shadows := []
    arrivals := []
    pending := [] }

/-- A schedule of the ring: both partitions call, then both copies run. -/
def ringSchedule : List Action :=
  [Action.call 0, Action.call 1, Action.run 1, Action.run 0]

/-- The ring after that schedule. -/
def ringAfter : System Int := (runSchedule ring ringSchedule).getD ring

/-- The values partition 0 exchanges in two successive rounds. -/
def vals0 : List (List Int) := [[1, 2, 3, 4], [10, 20, 30, 40]]

/-- The values partition 1 exchanges in one round. -/
def vals1 : List (List Int) := [[5, 6, 7, 8]]

end Example

end CODY

namespace CODY

/-! ## Rounding to binary64 -/

section RoundingProofs

open Binary64

theorem leadingBit_fold (a : Nat) :
    ∀ (steps : List Nat) (e w : Nat), List.Chain (fun u s => u = s + s) w steps →
      2 ^ e ≤ a → a < 2 ^ (e + w) →
      2 ^ (steps.foldl (fun e s => if 2 ^ (e + s) ≤ a then e + s else e) e) ≤ a ∧
        a < 2 ^ (steps.foldl (fun e s => if 2 ^ (e + s) ≤ a then e + s else e) e +
          (w :: steps).getLast (List.cons_ne_nil _ _))
  | [], e, w, _, h1, h2 => ⟨h1, h2⟩
  | s :: rest, e, w, hc, h1, h2 => by
    obtain ⟨hw, hrest⟩ := List.chain_cons.mp hc
    rw [List.foldl_cons, List.getLast_cons (List.cons_ne_nil _ _)]
    by_cases h : 2 ^ (e + s) ≤ a
    · rw [if_pos h]
      exact leadingBit_fold a rest (e + s) s hrest h (by rw [hw, ← Nat.add_assoc] at h2; exact h2)
    · rw [if_neg h]
      exact leadingBit_fold a rest e s hrest h1 (Nat.lt_of_not_le h)

theorem leadingBit_spec (a : Nat) (h0 : 0 < a) (h1 : a < 2 ^ 8192) :
    2 ^ leadingBit a ≤ a ∧ a < 2 ^ (leadingBit a + 1) := by
  have h := leadingBit_fold a [4096, 2048, 1024, 512, 256, 128, 64, 32, 16, 8, 4, 2, 1] 0 8192
    (by simp) (by simpa using h0) (by simpa using h1)
  exact h

theorem leadingBit_unique (a k : Nat) (h1 : a < 2 ^ 8192) (hk : 2 ^ k ≤ a)
    (hk1 : a < 2 ^ (k + 1)) : leadingBit a = k := by
  have h0 : 0 < a := Nat.lt_of_lt_of_le (Nat.pow_pos (by norm_num)) hk
  obtain ⟨s1, s2⟩ := leadingBit_spec a h0 h1
  have a1 : leadingBit a < k + 1 :=
    (Nat.pow_lt_pow_iff_right (by norm_num : 1 < 2)).mp (Nat.lt_of_le_of_lt s1 hk1)
  have a2 : k < leadingBit a + 1 :=
    (Nat.pow_lt_pow_iff_right (by norm_num : 1 < 2)).mp (Nat.lt_of_le_of_lt hk s2)
  omega

theorem leadingBit_zero : leadingBit 0 = 0 := by decide

theorem leadingBit_mono (a b : Nat) (hab : a ≤ b) (hb : b < 2 ^ 8192) :
    leadingBit a ≤ leadingBit b := by
  by_cases h0 : a = 0
  · rw [h0, leadingBit_zero]; exact Nat.zero_le _
  · obtain ⟨s1, _⟩ := leadingBit_spec a (Nat.pos_of_ne_zero h0) (Nat.lt_of_le_of_lt hab hb)
    obtain ⟨_, t2⟩ := leadingBit_spec b (by omega) hb
    have : leadingBit a < leadingBit b + 1 :=
      (Nat.pow_lt_pow_iff_right (by norm_num : 1 < 2)).mp (by omega)
    omega

theorem excessBits_le (a : Nat) : excessBits a ≤ leadingBit a := by
  unfold excessBits
  omega

theorem roundMag_shift_zero (a : Nat) :
    roundMag a 0 = (a / 2 ^ excessBits a +
      (if 2 * (a % 2 ^ excessBits a) > 2 ^ excessBits a ∨
          (2 * (a % 2 ^ excessBits a) = 2 ^ excessBits a ∧
            a / 2 ^ excessBits a % 2 = 1) then 1 else 0)) * 2 ^ excessBits a := by
  simp only [roundMag, Nat.max_zero, Nat.sub_zero]

theorem roundMag_of_dvd (a : Nat) (h : a % 2 ^ excessBits a = 0) : roundMag a 0 = a := by
  have hp : 0 < 2 ^ excessBits a := Nat.pow_pos (by norm_num)
  rw [roundMag_shift_zero, h, if_neg (by omega), Nat.add_zero]
  exact Nat.div_mul_cancel (Nat.dvd_of_mod_eq_zero h)

theorem roundMag_lower (a : Nat) :
    a / 2 ^ excessBits a * 2 ^ excessBits a ≤ roundMag a 0 := by
  rw [roundMag_shift_zero]
  exact Nat.mul_le_mul_right _ (Nat.le_add_right _ _)

theorem roundMag_upper (a : Nat) :
    roundMag a 0 ≤ (a / 2 ^ excessBits a + 1) * 2 ^ excessBits a := by
  rw [roundMag_shift_zero]
  refine Nat.mul_le_mul_right _ (Nat.add_le_add_left ?_ _)
  split <;> omega

theorem roundMag_dvd (a : Nat) : 2 ^ excessBits a ∣ roundMag a 0 := by
  rw [roundMag_shift_zero]
  exact Dvd.intro_left _ rfl

/-- Rounding does not go below a binary64 magnitude that the exact value reaches. -/
theorem le_roundMag (a b : Nat) (hb : roundMag b 0 = b) (hab : b ≤ a) (ha : a < 2 ^ 8192) :
    b ≤ roundMag a 0 := by
  by_cases hb0 : b = 0
  · omega
  have hba : 0 < a := by omega
  obtain ⟨a1, a2⟩ := leadingBit_spec a hba ha
  obtain ⟨b1, b2⟩ := leadingBit_spec b (by omega) (by omega)
  have hs := excessBits_le a
  have hfloor : 2 ^ leadingBit a ≤ a / 2 ^ excessBits a * 2 ^ excessBits a := by
    have h1 : 2 ^ (leadingBit a - excessBits a) ≤ a / 2 ^ excessBits a := by
      rw [Nat.le_div_iff_mul_le (Nat.pow_pos (by norm_num)), ← Nat.pow_add,
        Nat.sub_add_cancel hs]
      exact a1
    calc 2 ^ leadingBit a = 2 ^ (leadingBit a - excessBits a) * 2 ^ excessBits a := by
          rw [← Nat.pow_add, Nat.sub_add_cancel hs]
      _ ≤ a / 2 ^ excessBits a * 2 ^ excessBits a := Nat.mul_le_mul_right _ h1
  rcases Nat.eq_or_lt_of_le (leadingBit_mono b a hab ha) with hL | hL
  · have hE : excessBits b = excessBits a := by unfold excessBits; rw [hL]
    obtain ⟨k, hk⟩ : 2 ^ excessBits a ∣ b := by
      have := roundMag_dvd b
      rwa [hb, hE] at this
    have hka : k ≤ a / 2 ^ excessBits a := by
      rw [Nat.le_div_iff_mul_le (Nat.pow_pos (by norm_num)), Nat.mul_comm, ← hk]
      exact hab
    calc b = k * 2 ^ excessBits a := by rw [hk, Nat.mul_comm]
      _ ≤ a / 2 ^ excessBits a * 2 ^ excessBits a := Nat.mul_le_mul_right _ hka
      _ ≤ roundMag a 0 := roundMag_lower a
  · have h2 : 2 ^ (leadingBit b + 1) ≤ 2 ^ leadingBit a :=
      Nat.pow_le_pow_right (by norm_num) hL
    have := roundMag_lower a
    omega

/-- Rounding does not go above a binary64 magnitude that bounds the exact value. -/
theorem roundMag_le (a b : Nat) (hb : roundMag b 0 = b) (hab : a ≤ b) (hlt : b < 2 ^ 8192) :
    roundMag a 0 ≤ b := by
  by_cases hr : a % 2 ^ excessBits a = 0
  · rw [roundMag_of_dvd a hr]; exact hab
  have ha0 : 0 < a := by
    rcases Nat.eq_zero_or_pos a with h | h
    · rw [h] at hr; simp at hr
    · exact h
  obtain ⟨a1, a2⟩ := leadingBit_spec a ha0 (by omega)
  obtain ⟨b1, b2⟩ := leadingBit_spec b (by omega) hlt
  have hup := roundMag_upper a
  have hp : 0 < 2 ^ excessBits a := Nat.pow_pos (by norm_num)
  rcases Nat.eq_or_lt_of_le (leadingBit_mono a b hab hlt) with hL | hL
  · have hE : excessBits b = excessBits a := by unfold excessBits; rw [hL]
    obtain ⟨k, hk⟩ : 2 ^ excessBits a ∣ b := by
      have := roundMag_dvd b
      rwa [hb, hE] at this
    have hne : a ≠ b := by
      intro h
      apply hr
      rw [h]
      have hd := roundMag_dvd b
      rw [hb] at hd
      exact Nat.mod_eq_zero_of_dvd hd
    have hq : a / 2 ^ excessBits a < k := by
      rw [Nat.div_lt_iff_lt_mul hp, Nat.mul_comm, ← hk]
      omega
    calc roundMag a 0 ≤ (a / 2 ^ excessBits a + 1) * 2 ^ excessBits a := hup
      _ ≤ k * 2 ^ excessBits a := Nat.mul_le_mul_right _ hq
      _ = b := by rw [hk, Nat.mul_comm]
  · have hs : excessBits a ≤ leadingBit a + 1 := by have := excessBits_le a; omega
    have hq : a / 2 ^ excessBits a < 2 ^ (leadingBit a + 1 - excessBits a) := by
      rw [Nat.div_lt_iff_lt_mul hp, ← Nat.pow_add, Nat.sub_add_cancel hs]
      exact a2
    have h3 : (a / 2 ^ excessBits a + 1) * 2 ^ excessBits a ≤ 2 ^ (leadingBit a + 1) := by
      calc (a / 2 ^ excessBits a + 1) * 2 ^ excessBits a
          ≤ 2 ^ (leadingBit a + 1 - excessBits a) * 2 ^ excessBits a :=
            Nat.mul_le_mul_right _ hq
        _ = 2 ^ (leadingBit a + 1) := by rw [← Nat.pow_add, Nat.sub_add_cancel hs]
    have h4 : 2 ^ (leadingBit a + 1) ≤ 2 ^ leadingBit b :=
      Nat.pow_le_pow_right (by norm_num) hL
    omega

theorem roundMag_pow (k : Nat) (hk : k < 8192) : roundMag (2 ^ k) 0 = 2 ^ k := by
  have hL : leadingBit (2 ^ k) = k := leadingBit_unique _ k
    (Nat.pow_lt_pow_right (by norm_num) hk) (Nat.le_refl _)
    (Nat.pow_lt_pow_right (by norm_num) (Nat.lt_succ_self k))
  apply roundMag_of_dvd
  apply Nat.mod_eq_zero_of_dvd
  apply Nat.pow_dvd_pow
  have := excessBits_le (2 ^ k)
  omega

theorem roundMag_le_pow (a k : Nat) (hk : k < 8192) (ha : a ≤ 2 ^ k) :
    roundMag a 0 ≤ 2 ^ k :=
  roundMag_le a (2 ^ k) (roundMag_pow k hk) ha (Nat.pow_lt_pow_right (by norm_num) hk)

/-- A rounded magnitude is a binary64 magnitude: rounding it again changes nothing. -/
theorem roundMag_idem (a : Nat) (ha : a < 2 ^ 8191) :
    roundMag (roundMag a 0) 0 = roundMag a 0 := by
  by_cases hs : excessBits a = 0
  · have h : roundMag a 0 = a := roundMag_of_dvd a (by rw [hs]; simp [Nat.mod_one])
    rw [h, h]
  have ha0 : 0 < a := by
    rcases Nat.eq_zero_or_pos a with h | h
    · exfalso; apply hs; rw [h]; decide
    · exact h
  obtain ⟨a1, a2⟩ := leadingBit_spec a ha0
    (Nat.lt_trans ha (Nat.pow_lt_pow_right (by norm_num) (by norm_num)))
  have hLs : leadingBit a = excessBits a + 52 := by
    unfold excessBits at hs ⊢
    omega
  have hL8 : leadingBit a < 8191 :=
    (Nat.pow_lt_pow_iff_right (by norm_num : 1 < 2)).mp (Nat.lt_of_le_of_lt a1 ha)
  have hp : 0 < 2 ^ excessBits a := Nat.pow_pos (by norm_num)
  have hq1 : 2 ^ 52 ≤ a / 2 ^ excessBits a := by
    rw [Nat.le_div_iff_mul_le hp, ← Nat.pow_add, Nat.add_comm, ← hLs]
    exact a1
  have hq2 : a / 2 ^ excessBits a < 2 ^ 53 := by
    rw [Nat.div_lt_iff_lt_mul hp, ← Nat.pow_add,
      show 53 + excessBits a = leadingBit a + 1 by omega]
    exact a2
  have hlo : 2 ^ (52 + excessBits a) ≤ roundMag a 0 := by
    calc 2 ^ (52 + excessBits a) = 2 ^ 52 * 2 ^ excessBits a := Nat.pow_add _ _ _
      _ ≤ a / 2 ^ excessBits a * 2 ^ excessBits a := Nat.mul_le_mul_right _ hq1
      _ ≤ roundMag a 0 := roundMag_lower a
  have hhi : roundMag a 0 ≤ 2 ^ (53 + excessBits a) := by
    calc roundMag a 0 ≤ (a / 2 ^ excessBits a + 1) * 2 ^ excessBits a := roundMag_upper a
      _ ≤ 2 ^ 53 * 2 ^ excessBits a := Nat.mul_le_mul_right _ hq2
      _ = 2 ^ (53 + excessBits a) := (Nat.pow_add _ _ _).symm
  have h8 : 2 ^ (53 + excessBits a) < 2 ^ 8192 :=
    Nat.pow_lt_pow_right (by norm_num) (by omega)
  rcases Nat.eq_or_lt_of_le hhi with he | hlt
  · rw [he]
    exact roundMag_pow _ (by omega)
  · have hLR : leadingBit (roundMag a 0) = 52 + excessBits a :=
      leadingBit_unique _ _ (by omega) hlo (by rw [Nat.add_right_comm]; exact hlt)
    apply roundMag_of_dvd
    apply Nat.mod_eq_zero_of_dvd
    have hER : excessBits (roundMag a 0) = excessBits a := by
      show leadingBit (roundMag a 0) + 1 - 53 = excessBits a
      rw [hLR]; omega
    rw [hER]
    exact roundMag_dvd a

theorem ofExact_cases (n : Int) :
    (roundMag n.natAbs 0 < 2 ^ 2098 ∧
        ofExact n 0 = finite (if n < 0 then -(roundMag n.natAbs 0 : Int)
          else (roundMag n.natAbs 0 : Int))) ∨
      (2 ^ 2098 ≤ roundMag n.natAbs 0 ∧ ofExact n 0 = nonFinite) := by
  by_cases h : 2 ^ 2098 ≤ roundMag n.natAbs 0
  · exact Or.inr ⟨h, by simp only [ofExact, h, if_true]⟩
  · exact Or.inl ⟨Nat.lt_of_not_le h, by simp only [ofExact, h, if_false]⟩

theorem isDouble_spec (a : Binary64) (h : a.isDouble = true) :
    ∃ k : Int, a = finite k ∧ roundMag k.natAbs 0 = k.natAbs ∧ k.natAbs < 2 ^ 2098 := by
  cases a with
  | nonFinite => exact absurd h (by simp [isDouble])
  | finite k =>
    refine ⟨k, rfl, ?_⟩
    simp only [isDouble, decide_eq_true_eq] at h
    rcases ofExact_cases k with ⟨h1, h2⟩ | ⟨_, h2⟩
    · rw [h2, finite.injEq] at h
      have : (roundMag k.natAbs 0 : Int) = k.natAbs := by
        split at h <;> omega
      have h3 : roundMag k.natAbs 0 = k.natAbs := by exact_mod_cast this
      exact ⟨h3, by rw [← h3]; exact h1⟩
    · rw [h2] at h
      exact absurd h (by simp)

theorem isDouble_of (k : Int) (h1 : roundMag k.natAbs 0 = k.natAbs)
    (h2 : k.natAbs < 2 ^ 2098) : (finite k).isDouble = true := by
  simp only [isDouble, decide_eq_true_eq]
  rcases ofExact_cases k with ⟨_, h4⟩ | ⟨h3, _⟩
  · rw [h4, h1, finite.injEq]
    split <;> omega
  · rw [h1] at h3
    omega

/-- A finite rounded result is a binary64 number. -/
theorem ofExact_isDouble (n r : Int) (hn : n.natAbs < 2 ^ 8191) (h : ofExact n 0 = finite r) :
    (finite r).isDouble = true := by
  rcases ofExact_cases n with ⟨h1, h2⟩ | ⟨_, h2⟩
  · rw [h2, finite.injEq] at h
    have hr : r.natAbs = roundMag n.natAbs 0 := by
      split at h <;> omega
    exact isDouble_of r (by rw [hr]; exact roundMag_idem _ hn) (by rw [hr]; exact h1)
  · rw [h2] at h
    exact absurd h (by simp)

/-- Rounding an exact value that is at least a binary64 number `kb` gives at least
`kb`, or overflows upwards. -/
theorem ofExact_ge (kb n : Int) (hb : (finite kb).isDouble = true) (hle : kb ≤ n)
    (hn : n.natAbs < 2 ^ 8192) :
    (∀ r, ofExact n 0 = finite r → kb ≤ r) ∧ (ofExact n 0 = nonFinite → 0 < n) := by
  obtain ⟨k, hk, hrep, hfin⟩ := isDouble_spec _ hb
  rw [finite.injEq] at hk
  subst hk
  have h0 : roundMag 0 0 = 0 := by decide
  rcases ofExact_cases n with ⟨h1, h2⟩ | ⟨h1, h2⟩
  · refine ⟨?_, fun h => by rw [h2] at h; exact absurd h (by simp)⟩
    intro r hr
    rw [h2, finite.injEq] at hr
    by_cases hneg : n < 0
    · rw [if_pos hneg] at hr
      have := roundMag_le n.natAbs kb.natAbs hrep (by omega)
        (Nat.lt_trans hfin (Nat.pow_lt_pow_right (by norm_num) (by norm_num)))
      omega
    · rw [if_neg hneg] at hr
      by_cases hkb : kb ≤ 0
      · omega
      · have := le_roundMag n.natAbs kb.natAbs hrep (by omega) hn
        omega
  · refine ⟨fun r hr => by rw [h2] at hr; exact absurd hr (by simp), fun _ => ?_⟩
    by_contra hneg
    have hle2 : n.natAbs ≤ kb.natAbs := by omega
    have := roundMag_le n.natAbs kb.natAbs hrep hle2
      (Nat.lt_trans hfin (Nat.pow_lt_pow_right (by norm_num) (by norm_num)))
    omega

/-- Rounding an exact value below `2^k` in magnitude stays finite and within `2^k`. -/
theorem ofExact_bounded (n : Int) (k : Nat) (hk : k < 2098) (hn : n.natAbs ≤ 2 ^ k) :
    ∃ r : Int, ofExact n 0 = finite r ∧ r.natAbs ≤ 2 ^ k ∧ (0 ≤ n → 0 ≤ r) ∧
      (finite r).isDouble = true := by
  have hb := roundMag_le_pow n.natAbs k (by omega) hn
  have hk2 : 2 ^ k < 2 ^ 2098 := Nat.pow_lt_pow_right (by norm_num) hk
  have hk3 : 2 ^ k < 2 ^ 8191 := Nat.pow_lt_pow_right (by norm_num) (by omega)
  rcases ofExact_cases n with ⟨h1, h2⟩ | ⟨h1, _⟩
  · refine ⟨_, h2, ?_, ?_, ofExact_isDouble n _ (by omega) h2⟩
    · split <;> omega
    · intro h0
      rw [if_neg (by omega)]
      omega
  · omega

theorem add_finite (a b : Int) : finite a + finite b = ofExact (a + b) 0 := by
  show Binary64.add (finite a) (finite b) = ofExact (a + b) 0
  simp only [Binary64.add]

theorem sub_finite (a b : Int) : finite a - finite b = ofExact (a - b) 0 := by
  show Binary64.sub (finite a) (finite b) = ofExact (a - b) 0
  simp only [Binary64.sub]

theorem nonFinite_add (a : Binary64) : nonFinite + a = nonFinite := by
  show Binary64.add nonFinite a = nonFinite
  simp only [Binary64.add]

end RoundingProofs

end CODY

namespace CODY

/-! ## Properties of ComputeDotProduct -/

section DotProductProofs

variable {α T : Type}

theorem dotLoop_eq [Add α] [Mul α] (xv yv : List α) :
    ∀ (k i : Nat) (acc : α), i + k ≤ xv.length → i + k ≤ yv.length →
      dotLoop xv yv k i acc =
        some ((List.zipWith (· * ·) ((xv.drop i).take k) ((yv.drop i).take k)).foldl
          (· + ·) acc)
  | 0, i, acc, _, _ => by simp [dotLoop]
  | k + 1, i, acc, hx, hy => by
    have hix : i < xv.length := by omega
    have hiy : i < yv.length := by omega
    have ih := dotLoop_eq xv yv k (i + 1) (acc + xv[i] * yv[i]) (by omega) (by omega)
    rw [dotLoop, List.getElem?_eq_getElem hix, List.getElem?_eq_getElem hiy]
    simp only
    rw [ih, List.drop_eq_getElem_cons hix, List.drop_eq_getElem_cons hiy]
    simp only [List.take_succ_cons, List.zipWith_cons_cons, List.foldl_cons]

theorem size_t_le (n : Int) (h0 : 0 ≤ n) : size_t n ≤ n.toNat := by
  unfold size_t
  have h1 : n % 2 ^ 64 ≤ n := by
    have := Int.emod_nonneg n (show (2:Int) ^ 64 ≠ 0 by norm_num)
    have h2 := Int.emod_add_ediv n (2 ^ 64)
    have h3 : 0 ≤ n / 2 ^ 64 := Int.ediv_nonneg h0 (by norm_num)
    nlinarith
  omega

theorem localDotProduct_eq [Zero α] [Add α] [Mul α] (n : Int) (x y : Array α)
    (h : DotCallOk n x y) :
    localDotProduct n x y =
      some (seqDot (x.elems.take n.toNat) (y.elems.take n.toNat)) := by
  obtain ⟨hn, hx, hy, hxv, hyv, halias⟩ := h
  have hs := size_t_le n hn
  have hxl : n.toNat ≤ x.elems.length := by unfold Array.length at hx; omega
  have hyl : n.toNat ≤ y.elems.length := by unfold Array.length at hy; omega
  have h1 : x.length ≥ size_t n := by unfold Array.length; omega
  have h2 : y.length ≥ size_t n := by unfold Array.length; omega
  unfold localDotProduct
  simp only [h1, h2, not_true_eq_false, if_false, hxv, hyv]
  by_cases hal : y.data = x.data
  · rw [if_pos hal, dotLoop_eq _ _ _ _ _ (by omega) (by omega), halias hal]
    simp [seqDot]
  · rw [if_neg hal, dotLoop_eq _ _ _ _ _ (by omega) (by omega)]
    simp [seqDot]

theorem ComputeDotProduct_eq [Zero α] [Add α] [Mul α] [Add T] [Sub T]
    (n : Int) (x y : Array α) (result : α) (timeAllreduce : T) (allReduce : α → α)
    (clock : Clock T) (h : DotCallOk n x y) :
    ComputeDotProduct n x y result timeAllreduce allReduce clock =
      some { ret := 0
             result := allReduce (seqDot (x.elems.take n.toNat) (y.elems.take n.toNat))
             timeAllreduce := timeAllreduce +
               ((clock.entry + clock.localWork + clock.collective) -
                 (clock.entry + clock.localWork)) } := by
  unfold ComputeDotProduct
  rw [localDotProduct_eq n x y h]

/-- C1: for a count `n ≥ 0` within both arrays, `ComputeDotProduct` returns 0 and
sets `result` to `allReduce` of the local partial sum, which is the left-to-right
sum `((0 + x[0]*y[0]) + x[1]*y[1]) + ...` over the first `n` entries of `x` and `y`;
arrays that agree with `x` and `y` on those entries give the same local partial
sum, and it is `0` when `n = 0`. -/
theorem ComputeDotProduct_result [Zero α] [Add α] [Mul α] [Add T] [Sub T]
    (n : Int) (x y : Array α) (result : α) (timeAllreduce : T) (allReduce : α → α)
    (clock : Clock T) (hn : 0 ≤ n) (hx : n ≤ x.length) (hy : n ≤ y.length)
    (hxv : x.data ≠ 0) (hyv : y.data ≠ 0)
    (halias : y.data = x.data → y.elems = x.elems) :
    localDotProduct n x y =
        some (seqDot (x.elems.take n.toNat) (y.elems.take n.toNat)) ∧
      (∃ out, ComputeDotProduct n x y result timeAllreduce allReduce clock = some out ∧
        out.ret = 0 ∧
        out.result =
          allReduce (seqDot (x.elems.take n.toNat) (y.elems.take n.toNat))) ∧
      (∀ x2 y2 : Array α, DotCallOk n x2 y2 →
        x2.elems.take n.toNat = x.elems.take n.toNat →
        y2.elems.take n.toNat = y.elems.take n.toNat →
        localDotProduct n x2 y2 = localDotProduct n x y) ∧
      (n = 0 → localDotProduct n x y = some 0) := by
  have h : DotCallOk n x y := ⟨hn, hx, hy, hxv, hyv, halias⟩
  refine ⟨localDotProduct_eq n x y h, ⟨_, ComputeDotProduct_eq n x y result timeAllreduce
    allReduce clock h, rfl, rfl⟩, ?_, ?_⟩
  · intro x2 y2 h2 ex ey
    rw [localDotProduct_eq n x y h, localDotProduct_eq n x2 y2 h2, ex, ey]
  · intro h0
    rw [localDotProduct_eq n x y h, h0]
    simp [seqDot]

/-- C1 at `x = [1.0, 2.0, 3.0]`, `y = [4.0, 5.0, 6.0, 7.0]`, `n = 3` in binary64:
the local partial sum is 32.0. -/
theorem ComputeDotProduct_result_witness :
    ((0 : Int) ≤ 3 ∧ (3 : Int) ≤ Example.x3.length ∧ (3 : Int) ≤ Example.y4.length ∧
      Example.x3.data ≠ 0 ∧ Example.y4.data ≠ 0 ∧
      (Example.y4.data = Example.x3.data → Example.y4.elems = Example.x3.elems)) ∧
    (localDotProduct 3 Example.x3 Example.y4 =
        some (seqDot (Example.x3.elems.take 3) (Example.y4.elems.take 3)) ∧
      (∃ out, ComputeDotProduct 3 Example.x3 Example.y4 0 (0 : Int) id Example.clock =
          some out ∧ out.ret = 0 ∧
        out.result = id (seqDot (Example.x3.elems.take 3) (Example.y4.elems.take 3))) ∧
      (∀ x2 y2 : Array Binary64, DotCallOk 3 x2 y2 →
        x2.elems.take 3 = Example.x3.elems.take 3 →
        y2.elems.take 3 = Example.y4.elems.take 3 →
        localDotProduct 3 x2 y2 = localDotProduct 3 Example.x3 Example.y4) ∧
      ((3 : Int) = 0 → localDotProduct 3 Example.x3 Example.y4 = some 0)) ∧
    localDotProduct 3 Example.x3 Example.y4 = some (Binary64.ofInt 32) :=
  ⟨⟨by decide, by decide, by decide, by decide, by decide, by decide⟩,
    ComputeDotProduct_result 3 Example.x3 Example.y4 0 (0 : Int) id Example.clock
      (by decide) (by decide) (by decide) (by decide) (by decide) (by decide),
    by decide⟩

/-- C3: the same-array branch (`y.data() == x.data()`, summing `x[i]*x[i]`) produces
exactly what the general branch produces for an array `y` at another address
holding the values of `x`; for `0 ≤ n ≤ x.length()` that value is the
left-to-right sum of squares of the first `n` entries. -/
theorem ComputeDotProduct_same_array [Zero α] [Add α] [Mul α] [Add T] [Sub T]
    (n : Int) (x y : Array α) (result : α) (timeAllreduce : T) (allReduce : α → α)
    (clock : Clock T) (hyv : y.data ≠ 0) (hne : y.data ≠ x.data)
    (hvals : y.elems = x.elems) :
    localDotProduct n x x = localDotProduct n x y ∧
      ComputeDotProduct n x x result timeAllreduce allReduce clock =
        ComputeDotProduct n x y result timeAllreduce allReduce clock ∧
      (0 ≤ n → n ≤ x.length → x.data ≠ 0 →
        localDotProduct n x x =
          some (seqDot (x.elems.take n.toNat) (x.elems.take n.toNat))) := by
  have h1 : localDotProduct n x x = localDotProduct n x y := by
    unfold localDotProduct
    simp only [Array.length, hvals, hyv, hne, if_true, if_false]
    by_cases h1 : x.elems.length ≥ size_t n <;> by_cases h2 : x.data = 0 <;> simp [h1, h2]
  refine ⟨h1, ?_, ?_⟩
  · unfold ComputeDotProduct
    rw [h1]
  · intro hn hx hxv
    exact localDotProduct_eq n x x ⟨hn, hx, hx, hxv, hxv, fun _ => rfl⟩

/-- C3 at `x = [1.0, 2.0, 3.0]`, `n = 3` in binary64: the local partial sum is 14.0
on both branches and, with a single partition, so is the global result. -/
theorem ComputeDotProduct_same_array_witness :
    (localDotProduct 3 Example.x3 Example.x3 = localDotProduct 3 Example.x3 Example.y3 ∧
      ComputeDotProduct 3 Example.x3 Example.x3 0 (0 : Int)
          (fun v => allReduceSum [v]) Example.clock =
        ComputeDotProduct 3 Example.x3 Example.y3 0 (0 : Int)
          (fun v => allReduceSum [v]) Example.clock ∧
      ((0 : Int) ≤ 3 → (3 : Int) ≤ Example.x3.length → Example.x3.data ≠ 0 →
        localDotProduct 3 Example.x3 Example.x3 =
          some (seqDot (Example.x3.elems.take 3) (Example.x3.elems.take 3)))) ∧
    localDotProduct 3 Example.x3 Example.x3 = some (Binary64.ofInt 14) ∧
    (ComputeDotProduct 3 Example.x3 Example.x3 0 (0 : Int)
        (fun v => allReduceSum [v]) Example.clock).map DotOut.result =
      some (Binary64.ofInt 14) :=
  ⟨ComputeDotProduct_same_array 3 Example.x3 Example.y3 0 (0 : Int)
    (fun v => allReduceSum [v]) Example.clock (by decide) (by decide) (by decide),
    by decide, by decide⟩

theorem set_eq_self_of_getElem? (l : List α) (i : Nat) (v : α) (h : l[i]? = some v) :
    l.set i v = l := by
  apply List.ext_getElem?
  intro j
  rw [List.getElem?_set]
  by_cases hij : i = j
  · subst hij
    have hi : i < l.length := (List.getElem?_eq_some.mp h).1
    simp [hi, h]
  · simp [hij]

theorem localDotProducts_eq [Zero α] [Add α] [Mul α] :
    ∀ (parts : List (DotCall α T)), (∀ p ∈ parts, DotCallOk p.n p.x p.y) →
      localDotProducts parts = some (parts.map localValue)
  | [], _ => rfl
  | p :: ps, h => by
    have hp := localDotProduct_eq p.n p.x p.y (h p (List.mem_cons_self _ _))
    have ih := localDotProducts_eq ps (fun q hq => h q (List.mem_cons_of_mem _ hq))
    simp only [localDotProducts, hp, ih, List.map_cons, localValue]

theorem dotCalls_eq [Zero α] [Add α] [Mul α] [Add T] [Sub T]
    (locals : List α) (result : α) (timeAllreduce : T) :
    ∀ (ps : List (DotCall α T)) (rank : Nat),
      (∀ p ∈ ps, DotCallOk p.n p.x p.y) →
      (∀ j (hj : j < ps.length), locals[rank + j]? = some (localValue ps[j])) →
      ∃ outs, dotCalls locals result timeAllreduce rank ps = some outs ∧
        outs.length = ps.length ∧ ∀ out ∈ outs, out.result = allReduceSum locals
  | [], _, _, _ => ⟨[], rfl, rfl, by simp⟩
  | p :: ps, rank, hok, hloc => by
    have hp := ComputeDotProduct_eq p.n p.x p.y result timeAllreduce
      (fun v => allReduceSum (locals.set rank v)) p.clock (hok p (List.mem_cons_self _ _))
    obtain ⟨outs, h1, h2, h3⟩ := dotCalls_eq locals result timeAllreduce ps (rank + 1)
      (fun q hq => hok q (List.mem_cons_of_mem _ hq))
      (fun j hj => by
        have := hloc (j + 1) (by simp; omega)
        simpa [Nat.add_assoc, Nat.add_comm 1 j] using this)
    have h0 : locals[rank]? = some (localValue p) := by
      simpa using hloc 0 (by simp)
    have hd : dotCalls locals result timeAllreduce rank (p :: ps) =
        some ({ ret := 0
                result := allReduceSum (locals.set rank (localValue p))
                timeAllreduce := timeAllreduce +
                  ((p.clock.entry + p.clock.localWork + p.clock.collective) -
                    (p.clock.entry + p.clock.localWork)) } :: outs) := by
      simp only [dotCalls, hp, h1, localValue]
    refine ⟨_, hd, by simp [h2], ?_⟩
    intro out hout
    rcases List.mem_cons.mp hout with rfl | hmem
    · simp only [set_eq_self_of_getElem? locals rank _ h0]
    · exact h3 out hmem

theorem foldl_add_left [Add α] (hassoc : ∀ a b c : α, a + b + c = a + (b + c)) :
    ∀ (l : List α) (a b : α), l.foldl (· + ·) (a + b) = a + l.foldl (· + ·) b
  | [], _, _ => rfl
  | c :: l, a, b => by
    simp only [List.foldl_cons]
    rw [hassoc, foldl_add_left hassoc l a (b + c)]

theorem seqDot_append [Zero α] [Add α] [Mul α]
    (hassoc : ∀ a b c : α, a + b + c = a + (b + c)) (hadd_zero : ∀ a : α, a + 0 = a)
    (xs ys xs1 ys1 : List α) (hlen : xs.length = ys.length) :
    seqDot (xs ++ xs1) (ys ++ ys1) = seqDot xs ys + seqDot xs1 ys1 := by
  unfold seqDot
  rw [List.zipWith_append _ _ _ _ _ hlen, List.foldl_append]
  conv_lhs => rw [← hadd_zero (List.foldl (· + ·) 0 (List.zipWith (· * ·) xs ys))]
  exact foldl_add_left hassoc _ _ _

theorem allReduceSum_cons [Zero α] [Add α]
    (hassoc : ∀ a b c : α, a + b + c = a + (b + c)) (hzero_add : ∀ a : α, 0 + a = a)
    (hadd_zero : ∀ a : α, a + 0 = a) (v : α) (vs : List α) :
    allReduceSum (v :: vs) = v + allReduceSum vs := by
  unfold allReduceSum
  simp only [List.foldl_cons]
  rw [hzero_add]
  conv_lhs => rw [← hadd_zero v]
  exact foldl_add_left hassoc _ _ _

theorem allReduceSum_eq_seqDot [Zero α] [Add α] [Mul α]
    (hassoc : ∀ a b c : α, a + b + c = a + (b + c)) (hzero_add : ∀ a : α, 0 + a = a)
    (hadd_zero : ∀ a : α, a + 0 = a) :
    ∀ (parts : List (DotCall α T)), (∀ p ∈ parts, DotCallOk p.n p.x p.y) →
      allReduceSum (parts.map localValue) = seqDot (concatX parts) (concatY parts)
  | [], _ => by simp [allReduceSum, seqDot, concatX, concatY]
  | p :: ps, h => by
    have ih := allReduceSum_eq_seqDot hassoc hzero_add hadd_zero ps
      (fun q hq => h q (List.mem_cons_of_mem _ hq))
    obtain ⟨hn, hx, hy, _, _, _⟩ := h p (List.mem_cons_self _ _)
    have hlen : (p.x.elems.take p.n.toNat).length = (p.y.elems.take p.n.toNat).length := by
      unfold Array.length at hx hy
      simp only [List.length_take]
      omega
    rw [List.map_cons, allReduceSum_cons hassoc hzero_add hadd_zero, ih]
    simp only [concatX, concatY, List.flatMap_cons]
    rw [seqDot_append hassoc hadd_zero _ _ _ _ hlen]
    rfl

/-- C4 (as amended): on every partition `ComputeDotProduct` succeeds and delivers
the same value, the collective's sum of the local partial sums; when the addition
of the element type is associative with `0` neutral, that value is the sequential
dot product of the concatenation of all partitions' first `n` entries; with a
single partition `0 + v = v` is enough. -/
theorem ComputeDotProductAll_additive [Zero α] [Add α] [Mul α] [Add T] [Sub T]
    (parts : List (DotCall α T)) (result : α) (timeAllreduce : T)
    (hok : ∀ p ∈ parts, DotCallOk p.n p.x p.y) :
    ∃ outs, ComputeDotProductAll parts result timeAllreduce = some outs ∧
      outs.length = parts.length ∧
      (∀ out ∈ outs, out.result = allReduceSum (parts.map localValue)) ∧
      ((∀ a b c : α, a + b + c = a + (b + c)) → (∀ a : α, 0 + a = a) →
        (∀ a : α, a + 0 = a) →
        ∀ out ∈ outs, out.result = seqDot (concatX parts) (concatY parts)) ∧
      (parts.length = 1 → (∀ a : α, 0 + a = a) →
        ∀ out ∈ outs, out.result = seqDot (concatX parts) (concatY parts)) := by
  obtain ⟨outs, h1, h2, h3⟩ := dotCalls_eq (parts.map localValue) result timeAllreduce
    parts 0 hok (fun j hj => by simp [List.getElem?_eq_getElem, hj])
  refine ⟨outs, ?_, h2, h3, ?_, ?_⟩
  · unfold ComputeDotProductAll
    rw [localDotProducts_eq parts hok]
    exact h1
  · intro hassoc hz1 hz2 out hout
    rw [h3 out hout, allReduceSum_eq_seqDot hassoc hz1 hz2 parts hok]
  · intro hlen hz1 out hout
    rw [h3 out hout]
    match parts, hlen with
    | [p], _ =>
      simp only [List.map_cons, List.map_nil, allReduceSum, List.foldl_cons, List.foldl_nil,
        hz1, concatX, concatY, List.flatMap_cons, List.flatMap_nil, List.append_nil, localValue]

/-- C4 (as amended) on a two-partition integer-valued vector pair. -/
theorem ComputeDotProductAll_additive_witness :
    (∀ p ∈ Example.intParts, DotCallOk p.n p.x p.y) ∧
    (∃ outs, ComputeDotProductAll Example.intParts 0 (0 : Int) = some outs ∧
      outs.length = Example.intParts.length ∧
      (∀ out ∈ outs, out.result = allReduceSum (Example.intParts.map localValue)) ∧
      ((∀ a b c : Int, a + b + c = a + (b + c)) → (∀ a : Int, 0 + a = a) →
        (∀ a : Int, a + 0 = a) →
        ∀ out ∈ outs, out.result =
          seqDot (concatX Example.intParts) (concatY Example.intParts)) ∧
      (Example.intParts.length = 1 → (∀ a : Int, 0 + a = a) →
        ∀ out ∈ outs, out.result =
          seqDot (concatX Example.intParts) (concatY Example.intParts))) ∧
    (ComputeDotProductAll Example.intParts 0 (0 : Int)).map (List.map DotOut.result) =
      some [55, 55] ∧
    seqDot (concatX Example.intParts) (concatY Example.intParts) = 55 :=
  ⟨by decide, ComputeDotProductAll_additive Example.intParts 0 (0 : Int) (by decide),
    by decide, by decide⟩

/-- C4 fails as stated in binary64: with `x = [2^53 | 1.0, 1.0]` and
`y = [1.0 | 1.0, 1.0]` split over two partitions, both partitions receive
`2^53 + 2`, while the sequential dot product of the concatenated data is `2^53`. -/
theorem ComputeDotProductAll_not_sequential :
    (ComputeDotProductAll [Example.big0, Example.big1] 0 0).map (List.map DotOut.result) =
        some [Binary64.ofInt (2 ^ 53 + 2), Binary64.ofInt (2 ^ 53 + 2)] ∧
      seqDot (concatX [Example.big0, Example.big1]) (concatY [Example.big0, Example.big1]) =
        Binary64.ofInt (2 ^ 53) ∧
      Binary64.ofInt (2 ^ 53 + 2) ≠ Binary64.ofInt (2 ^ 53) ∧
      (∀ p ∈ [Example.big0, Example.big1], DotCallOk p.n p.x p.y) := by
  decide

theorem timeAllreduceAfter_eq [Zero α] [Add α] [Mul α] [Add T] [Sub T]
    (allReduce : α → α) :
    ∀ (calls : List (DotCall α T)) (result : α) (acc : T),
      (∀ c ∈ calls, DotCallOk c.n c.x c.y) →
      timeAllreduceAfter allReduce result acc calls = some (accumulated acc calls)
  | [], _, _, _ => rfl
  | c :: cs, result, acc, hok => by
    have hc := ComputeDotProduct_eq c.n c.x c.y result acc allReduce c.clock
      (hok c (List.mem_cons_self _ _))
    simp only [timeAllreduceAfter, hc, accumulated]
    rw [timeAllreduceAfter_eq allReduce cs _ _ (fun q hq => hok q (List.mem_cons_of_mem _ hq))]

theorem isTime_spec (a : Binary64) (h : a.isTime = true) :
    ∃ k : Int, a = Binary64.finite k ∧ 0 ≤ k ∧ k.natAbs < 2 ^ 2000 ∧
      (Binary64.finite k).isDouble = true := by
  cases a with
  | nonFinite => exact absurd h (by simp [Binary64.isTime])
  | finite k =>
    simp only [Binary64.isTime, Bool.and_eq_true, decide_eq_true_eq] at h
    obtain ⟨⟨h1, h2⟩, h3⟩ := h
    refine ⟨k, rfl, h1, ?_, h3⟩
    have : ((k.natAbs : Nat) : Int) < ((2 ^ 2000 : Nat) : Int) := by
      rw [Int.natAbs_of_nonneg h1]; exact h2
    exact_mod_cast this

/-- What the two readings of a wall clock give: `t0` after the local work, `t1`
after the collective, never before `t0`, and their rounded difference, which is a
binary64 number, not negative, and zero when the collective takes no time. -/
theorem WallClock_increment (c : Clock Binary64) (h : WallClock c) :
    ∃ t0 t1 kinc : Int, c.entry + c.localWork = Binary64.finite t0 ∧
      c.entry + c.localWork + c.collective = Binary64.finite t1 ∧ t0 ≤ t1 ∧
      (c.entry + c.localWork + c.collective) - (c.entry + c.localWork) =
        Binary64.finite kinc ∧
      0 ≤ kinc ∧ kinc.natAbs ≤ 2 ^ 2002 ∧ (Binary64.finite kinc).isDouble = true ∧
      (c.collective = 0 → kinc = 0) := by
  obtain ⟨he, hl, hd⟩ := h
  obtain ⟨e, e1, e2, e3, _⟩ := isTime_spec _ he
  obtain ⟨l, l1, l2, l3, _⟩ := isTime_spec _ hl
  obtain ⟨d, d1, d2, d3, _⟩ := isTime_spec _ hd
  have p1 : (2 : Nat) ^ 2001 = 2 * 2 ^ 2000 := Nat.pow_succ'
  have p2 : (2 : Nat) ^ 2002 = 2 * 2 ^ 2001 := Nat.pow_succ'
  obtain ⟨t0, a1, a2, a3, a4⟩ := ofExact_bounded (e + l) 2001 (by norm_num) (by omega)
  obtain ⟨t1, b1, b2, b3, b4⟩ := ofExact_bounded (t0 + d) 2002 (by norm_num) (by omega)
  have a5 := a3 (by omega)
  have b5 := b3 (by omega)
  have hle : t0 ≤ t1 := (ofExact_ge t0 (t0 + d) a4 (by omega) (by
    have : (2 : Nat) ^ 2002 < 2 ^ 8192 := Nat.pow_lt_pow_right (by norm_num) (by norm_num)
    omega)).1 t1 b1
  obtain ⟨kinc, c1, c2, c3, c4⟩ := ofExact_bounded (t1 - t0) 2002 (by norm_num) (by omega)
  have h0 : c.entry + c.localWork = Binary64.finite t0 := by
    rw [e1, l1, add_finite]; exact a1
  have h1 : c.entry + c.localWork + c.collective = Binary64.finite t1 := by
    rw [h0, d1, add_finite]; exact b1
  refine ⟨t0, t1, kinc, h0, h1, hle, by rw [h1, h0, sub_finite]; exact c1, c3 (by omega), c2, c4, ?_⟩
  intro hz
  rw [d1] at hz
  have hd0 : d = 0 := Binary64.finite.inj hz
  rw [hd0, Int.add_zero] at b1
  have hself : Binary64.ofExact t0 0 = Binary64.finite t0 := by
    simpa only [Binary64.isDouble, decide_eq_true_eq] using a4
  rw [hself] at b1
  have ht : t1 = t0 := (Binary64.finite.inj b1).symm
  rw [ht, Int.sub_self] at c1
  have hz0 : Binary64.ofExact 0 0 = Binary64.finite 0 := by decide
  rw [hz0] at c1
  exact (Binary64.finite.inj c1).symm

/-- Adding a non-negative increment to a binary64 accumulator: the rounded sum is a
binary64 number not below the accumulator, or the exact sum is beyond `2^1023`. -/
theorem accumulate_spec (kb kinc : Int) (hb : (Binary64.finite kb).isDouble = true)
    (h0 : 0 ≤ kinc) (h1 : kinc.natAbs ≤ 2 ^ 2002) :
    Binary64.finite kb + Binary64.finite kinc = Binary64.ofExact (kb + kinc) 0 ∧
      (∀ k, Binary64.finite kb + Binary64.finite kinc = Binary64.finite k →
        kb ≤ k ∧ (Binary64.finite k).isDouble = true) ∧
      (Binary64.finite kb + Binary64.finite kinc = Binary64.nonFinite →
        ((2 ^ 2097 : Nat) : Int) ≤ kb + kinc) := by
  obtain ⟨k0, hk0, _, hfin⟩ := isDouble_spec _ hb
  rw [Binary64.finite.injEq] at hk0
  subst hk0
  have q1 : (2 : Nat) ^ 2002 < 2 ^ 2098 := Nat.pow_lt_pow_right (by norm_num) (by norm_num)
  have q2 : (2 : Nat) ^ 2098 + 2 ^ 2098 < 2 ^ 8191 := by
    have : (2 : Nat) ^ 2099 = 2 * 2 ^ 2098 := Nat.pow_succ'
    have : (2 : Nat) ^ 2099 < 2 ^ 8191 := Nat.pow_lt_pow_right (by norm_num) (by norm_num)
    omega
  have q3 : (2 : Nat) ^ 8191 < 2 ^ 8192 := Nat.pow_lt_pow_right (by norm_num) (by norm_num)
  have hsum : Binary64.finite kb + Binary64.finite kinc = Binary64.ofExact (kb + kinc) 0 :=
    add_finite kb kinc
  obtain ⟨g1, g2⟩ := ofExact_ge kb (kb + kinc) hb (by omega) (by omega)
  refine ⟨hsum, fun k hk => ?_, fun hn => ?_⟩
  · rw [hsum] at hk
    exact ⟨g1 k hk, ofExact_isDouble _ _ (by omega) hk⟩
  · rw [hsum] at hn
    have hpos := g2 hn
    by_contra hlt
    obtain ⟨r, hr, _⟩ := ofExact_bounded (kb + kinc) 2097 (by norm_num) (by
      have : ((kb + kinc).natAbs : Int) = kb + kinc := Int.natAbs_of_nonneg (by omega)
      have h3 : ((kb + kinc).natAbs : Int) ≤ ((2 ^ 2097 : Nat) : Int) := by omega
      exact_mod_cast h3)
    rw [hr] at hn
    exact absurd hn (by simp)

/-- Over repeated calls timed by a wall clock the accumulator never decreases. -/
theorem accumulated_chain :
    ∀ (calls : List (DotCall α Binary64)) (acc : Binary64),
      (∀ c ∈ calls, WallClock c.clock) →
      (acc.isDouble = true ∨ acc = Binary64.nonFinite) →
      List.Chain Binary64.le acc (accumulated acc calls)
  | [], _, _, _ => List.Chain.nil
  | c :: cs, acc, h, hacc => by
    obtain ⟨t0, t1, kinc, _, _, _, hinc, i1, i2, _, _⟩ :=
      WallClock_increment c.clock (h c (List.mem_cons_self _ _))
    simp only [accumulated]
    rw [hinc]
    have hrest := fun hx => accumulated_chain cs (acc + Binary64.finite kinc)
      (fun q hq => h q (List.mem_cons_of_mem _ hq)) hx
    rcases hacc with hd | hn
    · obtain ⟨kb, hkb, _, _⟩ := isDouble_spec _ hd
      subst hkb
      obtain ⟨_, s2, _⟩ := accumulate_spec kb kinc hd i1 i2
      cases hsum : Binary64.finite kb + Binary64.finite kinc with
      | finite k =>
        obtain ⟨u1, u2⟩ := s2 k hsum
        rw [hsum] at hrest
        exact List.Chain.cons u1 (hrest (Or.inl u2))
      | nonFinite =>
        rw [hsum] at hrest
        exact List.Chain.cons trivial (hrest (Or.inr rfl))
    · subst hn
      have hsum : Binary64.nonFinite + Binary64.finite kinc = Binary64.nonFinite :=
        nonFinite_add _
      rw [hsum] at hrest ⊢
      exact List.Chain.cons trivial (hrest (Or.inr rfl))

/-- C8: every call of `ComputeDotProduct` leaves in the `double` accumulator
`timeAllreduce` its previous value plus, in binary64 arithmetic, the reading of the
timer after `allReduce` minus the reading just before it.  With a wall clock that
increment is a binary64 number `≥ 0`; it spans the collective alone, being `0`
whenever the collective takes no time, whatever the local summation took.  The
rounded sum is not below the previous value (it overflows only upwards), so over
any sequence of calls the accumulator never decreases. -/
theorem timeAllreduce_monotone [Zero α] [Add α] [Mul α]
    (allReduce : α → α) (calls : List (DotCall α Binary64)) (result : α) (acc : Binary64)
    (hok : ∀ c ∈ calls, DotCallOk c.n c.x c.y)
    (hclock : ∀ c ∈ calls, WallClock c.clock)
    (hacc : acc.isDouble = true) :
    timeAllreduceAfter allReduce result acc calls = some (accumulated acc calls) ∧
      List.Chain Binary64.le acc (accumulated acc calls) ∧
      ∀ c ∈ calls, ∀ (before : Binary64) (r : α), before.isDouble = true →
        ∃ out kb kinc,
          ComputeDotProduct c.n c.x c.y r before allReduce c.clock = some out ∧
          out.timeAllreduce = before +
            ((c.clock.entry + c.clock.localWork + c.clock.collective) -
              (c.clock.entry + c.clock.localWork)) ∧
          before = Binary64.finite kb ∧
          (c.clock.entry + c.clock.localWork + c.clock.collective) -
              (c.clock.entry + c.clock.localWork) = Binary64.finite kinc ∧
          0 ≤ kinc ∧ (Binary64.finite kinc).isDouble = true ∧
          (c.clock.collective = 0 → kinc = 0) ∧
          out.timeAllreduce = Binary64.ofExact (kb + kinc) 0 ∧
          (∀ k, out.timeAllreduce = Binary64.finite k → kb ≤ k) ∧
          (out.timeAllreduce = Binary64.nonFinite → ((2 ^ 2097 : Nat) : Int) ≤ kb + kinc) ∧
          Binary64.le before out.timeAllreduce := by
  refine ⟨timeAllreduceAfter_eq allReduce calls result acc hok,
    accumulated_chain calls acc hclock (Or.inl hacc), ?_⟩
  intro c hc before r hb
  obtain ⟨t0, t1, kinc, _, _, _, hinc, i1, i2, i3, i4⟩ :=
    WallClock_increment c.clock (hclock c hc)
  obtain ⟨kb, hkb, _, _⟩ := isDouble_spec _ hb
  subst hkb
  obtain ⟨s1, s2, s3⟩ := accumulate_spec kb kinc hb i1 i2
  refine ⟨_, kb, kinc, ComputeDotProduct_eq c.n c.x c.y r _ allReduce c.clock (hok c hc),
    rfl, rfl, hinc, i1, i3, i4, ?_, ?_, ?_, ?_⟩
  · show Binary64.finite kb + _ = _
    rw [hinc]; exact s1
  · intro k hk
    have hk2 : Binary64.finite kb + Binary64.finite kinc = Binary64.finite k := by
      rw [← hinc]; exact hk
    exact (s2 k hk2).1
  · intro hn
    have hn2 : Binary64.finite kb + Binary64.finite kinc = Binary64.nonFinite := by
      rw [← hinc]; exact hn
    exact s3 hn2
  · show Binary64.le (Binary64.finite kb) (Binary64.finite kb + _)
    rw [hinc]
    cases hsum : Binary64.finite kb + Binary64.finite kinc with
    | finite k => exact (s2 k hsum).1
    | nonFinite => exact trivial

/-- C8 in binary64 on two successive calls, each reducing for 7.0: from 3.0 the
accumulator goes to 10.0 and then 17.0; and from `2^53` a call that reduces for 1.0
leaves `2^53`, the rounded sum. -/
theorem timeAllreduce_monotone_witness :
    ((∀ c ∈ Example.timedCalls, DotCallOk c.n c.x c.y) ∧
      (∀ c ∈ Example.timedCalls, WallClock c.clock) ∧
      (Binary64.ofInt 3).isDouble = true) ∧
    (timeAllreduceAfter id 0 (Binary64.ofInt 3) Example.timedCalls =
        some (accumulated (Binary64.ofInt 3) Example.timedCalls) ∧
      List.Chain Binary64.le (Binary64.ofInt 3)
        (accumulated (Binary64.ofInt 3) Example.timedCalls) ∧
      ∀ c ∈ Example.timedCalls, ∀ (before : Binary64) (r : Binary64),
        before.isDouble = true →
        ∃ out kb kinc,
          ComputeDotProduct c.n c.x c.y r before id c.clock = some out ∧
          out.timeAllreduce = before +
            ((c.clock.entry + c.clock.localWork + c.clock.collective) -
              (c.clock.entry + c.clock.localWork)) ∧
          before = Binary64.finite kb ∧
          (c.clock.entry + c.clock.localWork + c.clock.collective) -
              (c.clock.entry + c.clock.localWork) = Binary64.finite kinc ∧
          0 ≤ kinc ∧ (Binary64.finite kinc).isDouble = true ∧
          (c.clock.collective = 0 → kinc = 0) ∧
          out.timeAllreduce = Binary64.ofExact (kb + kinc) 0 ∧
          (∀ k, out.timeAllreduce = Binary64.finite k → kb ≤ k) ∧
          (out.timeAllreduce = Binary64.nonFinite → ((2 ^ 2097 : Nat) : Int) ≤ kb + kinc) ∧
          Binary64.le before out.timeAllreduce) ∧
    accumulated (Binary64.ofInt 3) Example.timedCalls =
      [Binary64.ofInt 10, Binary64.ofInt 17] ∧
    timeAllreduceAfter id 0 (Binary64.ofInt (2 ^ 53)) Example.timedOne =
      some [Binary64.ofInt (2 ^ 53)] :=
  ⟨⟨by decide, by decide, by decide⟩,
    timeAllreduce_monotone id Example.timedCalls 0 (Binary64.ofInt 3) (by decide) (by decide)
      (by decide),
    by decide, by decide⟩

end DotProductProofs

end CODY

namespace CODY

/-! ## Properties of ExchangeHalo -/

section ExchangeProofs

variable {α : Type}

theorem ExchangeHalo_inv (A : SparseMatrix α) (x : Array α) (lrt : Runtime)
    (out : ExchangeOut α) (h : ExchangeHalo A x lrt = some out) :
    ∃ es x1 lrt1 evSetup pulled nbs1 evCopies,
      A.elementsToSend = some es ∧
      ((x.hasGhosts = true ∧ x1 = x ∧ lrt1 = lrt ∧ evSetup = []) ∨
        (x.hasGhosts = false ∧ SetupGhostArrays A x lrt = some (x1, lrt1) ∧
          evSetup = [Event.setupGhostArrays])) ∧
      x1.data ≠ 0 ∧ A.pullBuffer.data ≠ 0 ∧
      packLoop x1.elems es A.sclrs.totalToBeSent.toNat 0 A.pullBuffer.elems = some pulled ∧
      neighborLoop A x1 A.sclrs.numberOfSendNeighbors.toNat 0 A.synchronizers.neighbors =
        some (nbs1, evCopies) ∧
      out =
        { A := { A with
            pullBuffer := { A.pullBuffer with elems := pulled }
            synchronizers :=
              { mine := { ready := advance_phase_barrier A.synchronizers.mine.ready,
                          done := advance_phase_barrier A.synchronizers.mine.done },
                neighbors := nbs1 } }
          x := x1
          lrt := lrt1
          trace := evSetup ++
            [Event.wait A.synchronizers.mine.done, Event.advance A.synchronizers.mine.done] ++
            (List.range A.sclrs.totalToBeSent.toNat).map Event.pack ++
            [Event.arrive A.synchronizers.mine.ready 1,
              Event.advance A.synchronizers.mine.ready] ++
            evCopies } := by
  unfold ExchangeHalo at h
  simp only at h
  split at h
  · exact absurd h (by simp)
  · rename_i es hes
    split at h
    · exact absurd h (by simp)
    · rename_i x1 lrt1 evSetup hstep
      split at h
      · exact absurd h (by simp)
      · rename_i hx1
        split at h
        · exact absurd h (by simp)
        · rename_i hpb
          split at h
          · exact absurd h (by simp)
          · rename_i pulled hpack
            split at h
            · exact absurd h (by simp)
            · rename_i nbs1 evCopies hloop
              refine ⟨es, x1, lrt1, evSetup, pulled, nbs1, evCopies, hes, ?_, hx1, hpb, hpack,
                hloop, (Option.some.inj h).symm⟩
              by_cases hg : x.hasGhosts = true
              · rw [if_neg (not_not.mpr hg)] at hstep
                simp only [Option.some.injEq, Prod.mk.injEq] at hstep
                exact Or.inl ⟨hg, hstep.1.symm, hstep.2.1.symm, hstep.2.2.symm⟩
              · rw [if_pos hg] at hstep
                right
                split at hstep
                · exact absurd hstep (by simp)
                · rename_i x2 lrt2 hs
                  simp only [Option.some.injEq, Prod.mk.injEq] at hstep
                  obtain ⟨rfl, rfl, rfl⟩ := hstep
                  exact ⟨by simpa using hg, hs, rfl⟩

theorem flatMap_congr_mem {β γ : Type} (l : List β) (f g : β → List γ)
    (h : ∀ b ∈ l, f b = g b) : l.flatMap f = l.flatMap g := by
  induction l with
  | nil => rfl
  | cons b l ih =>
    simp only [List.flatMap_cons]
    rw [h b (List.mem_cons_self _ _), ih (fun c hc => h c (List.mem_cons_of_mem _ hc))]

theorem neighborEvents_congr (A : SparseMatrix α) (x : Array α)
    (nbs nbs1 : List PhaseBarriers) (j : Nat) (h : nbs1[j]? = nbs[j]?) :
    neighborEvents A x nbs1 j = neighborEvents A x nbs j := by
  unfold neighborEvents
  rw [h]

theorem neighborLoop_spec (A : SparseMatrix α) (x : Array α) :
    ∀ (k n : Nat) (nbs nbs1 : List PhaseBarriers) (evs : List Event),
      neighborLoop A x k n nbs = some (nbs1, evs) →
      nbs1.length = nbs.length ∧
      (∀ j, n ≤ j → j < n + k →
        ∃ nid srcArray dstArray nb, A.neighbors[j]? = some nid ∧
          A.ghostArrays.lookup nid = some srcArray ∧
          srcArray.hasParentLogicalRegion = true ∧
          x.ghosts[j]? = some dstArray ∧ dstArray.hasParentLogicalRegion = true ∧
          nbs[j]? = some nb ∧
          nbs1[j]? = some { ready := advance_phase_barrier nb.ready,
                            done := advance_phase_barrier nb.done }) ∧
      (∀ j, (j < n ∨ n + k ≤ j) → nbs1[j]? = nbs[j]?) ∧
      evs = (List.range' n k).flatMap (neighborEvents A x nbs)
  | 0, n, nbs, nbs1, evs, h => by
    simp only [neighborLoop, Option.some.injEq, Prod.mk.injEq] at h
    obtain ⟨rfl, rfl⟩ := h
    refine ⟨rfl, fun j h1 h2 => by omega, fun _ _ => rfl, by simp⟩
  | k + 1, n, nbs, nbs1, evs, h => by
    unfold neighborLoop at h
    split at h
    · exact absurd h (by simp)
    · rename_i nid hnid
      split at h
      · exact absurd h (by simp)
      · rename_i srcArray hsrc
        split at h
        · exact absurd h (by simp)
        · rename_i hsp
          split at h
          · exact absurd h (by simp)
          · rename_i dstArray hdst
            split at h
            · exact absurd h (by simp)
            · rename_i hdp
              split at h
              · exact absurd h (by simp)
              · rename_i nb hnb
                simp only at h
                split at h
                · exact absurd h (by simp)
                · rename_i nbs2 evs2 hrec
                  simp only [Option.some.injEq, Prod.mk.injEq] at h
                  obtain ⟨rfl, rfl⟩ := h
                  obtain ⟨hlen, hin, hout, hevs⟩ :=
                    neighborLoop_spec A x k (n + 1) _ _ _ hrec
                  have hn : n < nbs.length := (List.getElem?_eq_some.mp hnb).1
                  have hself : nbs2[n]? = some (PhaseBarriers.mk
                      (advance_phase_barrier nb.ready) (advance_phase_barrier nb.done)) := by
                    rw [hout n (Or.inl (by omega)), List.getElem?_set_self hn]
                  refine ⟨by rw [hlen, List.length_set], ?_, ?_, ?_⟩
                  · intro j h1 h2
                    by_cases hj : j = n
                    · subst hj
                      exact ⟨nid, srcArray, dstArray, nb, hnid, hsrc, by simpa using hsp,
                        hdst, by simpa using hdp, hnb, hself⟩
                    · obtain ⟨nid1, s1, d1, nb1, e1, e2, e3, e4, e5, e6, e7⟩ :=
                        hin j (by omega) (by omega)
                      refine ⟨nid1, s1, d1, nb1, e1, e2, e3, e4, e5, ?_, e7⟩
                      rw [← e6, List.getElem?_set_ne (by omega)]
                  · intro j hj
                    rw [hout j (by omega), List.getElem?_set_ne (by omega)]
                  · rw [hevs, List.range'_succ, List.flatMap_cons]
                    have h0 : neighborEvents A x nbs n =
                        [Event.advance nb.ready, Event.advance nb.done,
                          Event.executeTask (copyLauncher srcArray dstArray nb)] := by
                      simp only [neighborEvents, hnid, hdst, hnb, hsrc]
                    rw [h0]
                    simp only [List.cons_append, List.nil_append, List.cons.injEq, true_and]
                    apply flatMap_congr_mem
                    intro j hj
                    apply neighborEvents_congr
                    have : n + 1 ≤ j := (List.mem_range'_1.mp hj).1
                    rw [List.getElem?_set_ne (by omega)]

theorem packLoop_spec (xv : List α) (es : List local_int_t) :
    ∀ (k i : Nat) (pb out : List α), packLoop xv es k i pb = some out →
      out.length = pb.length ∧
      (∀ j, i ≤ j → j < i + k →
        ∃ e v, es[j]? = some e ∧ 0 ≤ e ∧ xv[e.toNat]? = some v ∧ out[j]? = some v ∧
          j < pb.length) ∧
      (∀ j, (j < i ∨ i + k ≤ j) → out[j]? = pb[j]?)
  | 0, i, pb, out, h => by
    simp only [packLoop, Option.some.injEq] at h
    subst h
    exact ⟨rfl, fun j h1 h2 => by omega, fun _ _ => rfl⟩
  | k + 1, i, pb, out, h => by
    unfold packLoop at h
    split at h
    · exact absurd h (by simp)
    · rename_i e he
      split at h
      · exact absurd h (by simp)
      · rename_i hneg
        split at h
        · exact absurd h (by simp)
        · rename_i v hv
          split at h
          · rename_i hi
            obtain ⟨hlen, hin, hout⟩ := packLoop_spec xv es k (i + 1) _ _ h
            have hself : out[i]? = some v := by
              rw [hout i (Or.inl (by omega)), List.getElem?_set_self hi]
            refine ⟨by rw [hlen, List.length_set], ?_, ?_⟩
            · intro j h1 h2
              by_cases hj : j = i
              · subst hj
                exact ⟨e, v, he, Int.not_lt.mp hneg, hv, hself, hi⟩
              · obtain ⟨e1, v1, a1, a2, a3, a4, a5⟩ := hin j (by omega) (by omega)
                exact ⟨e1, v1, a1, a2, a3, a4, by simpa using a5⟩
            · intro j hj
              rw [hout j (by omega), List.getElem?_set_ne (by omega)]
          · exact absurd h (by simp)

theorem packLoop_total (xv : List α) (es : List local_int_t) :
    ∀ (k i : Nat) (pb : List α),
      (∀ j, i ≤ j → j < i + k → ∃ e, es[j]? = some e ∧ 0 ≤ e ∧ e.toNat < xv.length) →
      i + k ≤ pb.length → ∃ out, packLoop xv es k i pb = some out
  | 0, i, pb, _, _ => ⟨pb, rfl⟩
  | k + 1, i, pb, hidx, hlen => by
    obtain ⟨e, he, h0, hlt⟩ := hidx i (Nat.le_refl _) (by omega)
    obtain ⟨out, hout⟩ := packLoop_total xv es k (i + 1) (pb.set i xv[e.toNat])
      (fun j h1 h2 => hidx j (by omega) (by omega)) (by rw [List.length_set]; omega)
    refine ⟨out, ?_⟩
    unfold packLoop
    simp only [he, List.getElem?_eq_getElem hlt]
    rw [if_neg (Int.not_lt.mpr h0), if_pos (show i < pb.length by omega)]
    exact hout

theorem neighborLoop_total (A : SparseMatrix α) (x : Array α) :
    ∀ (k n : Nat) (nbs : List PhaseBarriers),
      (∀ j, n ≤ j → j < n + k →
        ∃ nid srcArray dstArray, A.neighbors[j]? = some nid ∧
          A.ghostArrays.lookup nid = some srcArray ∧
          srcArray.hasParentLogicalRegion = true ∧
          x.ghosts[j]? = some dstArray ∧ dstArray.hasParentLogicalRegion = true ∧
          j < nbs.length) →
      ∃ r, neighborLoop A x k n nbs = some r
  | 0, n, nbs, _ => ⟨(nbs, []), rfl⟩
  | k + 1, n, nbs, h => by
    obtain ⟨nid, src, dst, h1, h2, h3, h4, h5, h6⟩ := h n (Nat.le_refl _) (by omega)
    obtain ⟨r, hr⟩ := neighborLoop_total A x k (n + 1)
      (nbs.set n (PhaseBarriers.mk (advance_phase_barrier nbs[n].ready)
        (advance_phase_barrier nbs[n].done)))
      (fun j a b => by
        obtain ⟨nid1, s1, d1, e1, e2, e3, e4, e5, e6⟩ := h j (by omega) (by omega)
        exact ⟨nid1, s1, d1, e1, e2, e3, e4, e5, by rw [List.length_set]; exact e6⟩)
    refine ⟨(r.1, Event.advance nbs[n].ready :: Event.advance nbs[n].done ::
      Event.executeTask (copyLauncher src dst nbs[n]) :: r.2), ?_⟩
    unfold neighborLoop
    simp only [h1, h2, h3, h4, h5, List.getElem?_eq_getElem h6, not_true_eq_false, if_false]
    rw [hr]

theorem SetupGhostArrays_spec (A : SparseMatrix α) (x x1 : Array α) (lrt lrt1 : Runtime)
    (h : SetupGhostArrays A x lrt = some (x1, lrt1)) :
    x1.data = x.data ∧ x1.elems = x.elems ∧ x1.hasGhosts = true := by
  unfold SetupGhostArrays at h
  simp only at h
  split at h
  · exact absurd h (by simp)
  · split at h
    · exact absurd h (by simp)
    · split at h
      · exact absurd h (by simp)
      · simp only [Option.some.injEq, Prod.mk.injEq] at h
        obtain ⟨rfl, _⟩ := h
        exact ⟨rfl, rfl, rfl⟩

theorem setupLoop_total (A : SparseMatrix α) (nextRegion : Nat) :
    ∀ (nids : List Int) (n : Nat),
      (∀ nid ∈ nids, ∃ srcArray, A.ghostArrays.lookup nid = some srcArray) →
      ∃ ghosts, setupLoop A nextRegion nids n = some ghosts ∧
        ghosts.length = nids.length ∧
        ∀ g ∈ ghosts, g.hasParentLogicalRegion = true
  | [], _, _ => ⟨[], rfl, rfl, by simp⟩
  | nid :: nids, n, h => by
    obtain ⟨src, hsrc⟩ := h nid (List.mem_cons_self _ _)
    obtain ⟨gs, h1, h2, h3⟩ := setupLoop_total A nextRegion nids (n + 1)
      (fun m hm => h m (List.mem_cons_of_mem _ hm))
    refine ⟨(LogicalArray.mk (nextRegion + n) (some (nextRegion + n)) src.fid src.length) :: gs,
      by simp only [setupLoop, hsrc, h1], by simp [h2], ?_⟩
    intro g hg
    rcases List.mem_cons.mp hg with rfl | hg
    · rfl
    · exact h3 g hg

theorem lookup_mem {β : Type} (k : Int) (l : List (Int × β)) (v : β)
    (h : l.lookup k = some v) : (k, v) ∈ l := by
  induction l with
  | nil => simp at h
  | cons p l ih =>
    obtain ⟨k1, v1⟩ := p
    rw [List.lookup_cons] at h
    by_cases hk : k == k1
    · simp only [hk] at h
      have hk2 : k = k1 := by simpa using hk
      rw [hk2, ← Option.some.inj h]
      exact List.mem_cons_self _ _
    · simp only [hk] at h
      exact List.mem_cons_of_mem _ (ih h)

theorem waitsOf_append (a b : List Event) : waitsOf (a ++ b) = waitsOf a ++ waitsOf b := by
  induction a with
  | nil => rfl
  | cons e a ih => cases e <;> simp [waitsOf, ih]

theorem arrivalsOf_append (a b : List Event) :
    arrivalsOf (a ++ b) = arrivalsOf a ++ arrivalsOf b := by
  induction a with
  | nil => rfl
  | cons e a ih => cases e <;> simp [arrivalsOf, ih]

theorem advancesOf_append (a b : List Event) :
    advancesOf (a ++ b) = advancesOf a ++ advancesOf b := by
  induction a with
  | nil => rfl
  | cons e a ih => cases e <;> simp [advancesOf, ih]

theorem tasksOf_append (a b : List Event) : tasksOf (a ++ b) = tasksOf a ++ tasksOf b := by
  induction a with
  | nil => rfl
  | cons e a ih => cases e <;> simp [tasksOf, ih]

theorem projections_map_pack (l : List Nat) :
    waitsOf (l.map Event.pack) = [] ∧ arrivalsOf (l.map Event.pack) = [] ∧
      advancesOf (l.map Event.pack) = [] ∧ tasksOf (l.map Event.pack) = [] ∧
      Event.setupGhostArrays ∉ l.map Event.pack := by
  induction l with
  | nil => simp [waitsOf, arrivalsOf, advancesOf, tasksOf]
  | cons i l ih =>
    obtain ⟨h1, h2, h3, h4, h5⟩ := ih
    simp only [List.map_cons, waitsOf, arrivalsOf, advancesOf, tasksOf, h1, h2, h3, h4,
      List.mem_cons, not_or, true_and]
    exact ⟨by simp, h5⟩

theorem copies_projections (f : Nat → List Event) :
    ∀ (k n : Nat),
      (∀ j, n ≤ j → j < n + k →
        ∃ a b t, f j = [Event.advance a, Event.advance b, Event.executeTask t]) →
      waitsOf ((List.range' n k).flatMap f) = [] ∧
      arrivalsOf ((List.range' n k).flatMap f) = [] ∧
      Event.setupGhostArrays ∉ (List.range' n k).flatMap f ∧
      (∀ i, Event.pack i ∉ (List.range' n k).flatMap f) ∧
      (tasksOf ((List.range' n k).flatMap f)).length = k ∧
      (advancesOf ((List.range' n k).flatMap f)).length = 2 * k ∧
      (∀ j, n ≤ j → j < n + k → ∀ a b t,
        f j = [Event.advance a, Event.advance b, Event.executeTask t] →
        (tasksOf ((List.range' n k).flatMap f))[j - n]? = some t ∧
        (advancesOf ((List.range' n k).flatMap f))[2 * (j - n)]? = some a ∧
        (advancesOf ((List.range' n k).flatMap f))[2 * (j - n) + 1]? = some b)
  | 0, n, _ => by
    simp only [List.range'_zero, List.flatMap_nil, waitsOf, arrivalsOf, tasksOf, advancesOf,
      List.not_mem_nil, not_false_eq_true, List.length_nil, implies_true, true_and]
    intro j h1 h2
    omega
  | k + 1, n, h => by
    obtain ⟨a0, b0, t0, h0⟩ := h n (Nat.le_refl _) (by omega)
    obtain ⟨i1, i2, i3, i4, i5, i6, i7⟩ := copies_projections f k (n + 1)
      (fun j h1 h2 => h j (by omega) (by omega))
    have hcons : (List.range' n (k + 1)).flatMap f =
        Event.advance a0 :: Event.advance b0 :: Event.executeTask t0 ::
          (List.range' (n + 1) k).flatMap f := by
      rw [List.range'_succ, List.flatMap_cons, h0]
      rfl
    rw [hcons]
    refine ⟨by simpa [waitsOf] using i1, by simpa [arrivalsOf] using i2,
      by simpa using i3, fun i => by simpa using i4 i,
      by simp [tasksOf, i5], by simp [advancesOf, i6]; omega, ?_⟩
    simp only [tasksOf, advancesOf]
    intro j h1 h2 a b t hj
    by_cases hjn : j = n
    · subst hjn
      rw [h0] at hj
      simp only [List.cons.injEq, Event.advance.injEq, Event.executeTask.injEq, and_true] at hj
      obtain ⟨rfl, rfl, rfl⟩ := hj
      simp
    · obtain ⟨e1, e2, e3⟩ := i7 j (by omega) (by omega) a b t hj
      have hs : j - n = (j - (n + 1)) + 1 := by omega
      have hs2 : 2 * (j - n) = (2 * (j - (n + 1)) + 1) + 1 := by omega
      have hs3 : 2 * (j - n) + 1 = (2 * (j - (n + 1)) + 1 + 1) + 1 := by omega
      refine ⟨?_, ?_, ?_⟩
      · rw [hs, List.getElem?_cons_succ]; exact e1
      · rw [hs2, List.getElem?_cons_succ, List.getElem?_cons_succ]; exact e2
      · rw [hs3, List.getElem?_cons_succ, List.getElem?_cons_succ]; exact e3

/-- Everything a successful call of `ExchangeHalo` fixes: the state it leaves, its
trace in closed form, and what each iteration of the neighbor loop found. -/
theorem ExchangeHalo_shape (A : SparseMatrix α) (x : Array α) (lrt : Runtime)
    (out : ExchangeOut α) (h : ExchangeHalo A x lrt = some out) :
    ∃ es pulled,
      A.elementsToSend = some es ∧
      ((x.hasGhosts = true ∧ out.x = x ∧ out.lrt = lrt) ∨
        (x.hasGhosts = false ∧ SetupGhostArrays A x lrt = some (out.x, out.lrt))) ∧
      out.x.data ≠ 0 ∧ A.pullBuffer.data ≠ 0 ∧
      packLoop out.x.elems es A.sclrs.totalToBeSent.toNat 0 A.pullBuffer.elems =
        some pulled ∧
      neighborLoop A out.x A.sclrs.numberOfSendNeighbors.toNat 0 A.synchronizers.neighbors =
        some (out.A.synchronizers.neighbors,
          (List.range' 0 A.sclrs.numberOfSendNeighbors.toNat).flatMap
            (neighborEvents A out.x A.synchronizers.neighbors)) ∧
      out.A = { A with
        pullBuffer := { A.pullBuffer with elems := pulled }
        synchronizers :=
          { mine := PhaseBarriers.mk (advance_phase_barrier A.synchronizers.mine.ready)
              (advance_phase_barrier A.synchronizers.mine.done),
            neighbors := out.A.synchronizers.neighbors } } ∧
      out.trace = (if x.hasGhosts then [] else [Event.setupGhostArrays]) ++
        [Event.wait A.synchronizers.mine.done, Event.advance A.synchronizers.mine.done] ++
        (List.range A.sclrs.totalToBeSent.toNat).map Event.pack ++
        [Event.arrive A.synchronizers.mine.ready 1,
          Event.advance A.synchronizers.mine.ready] ++
        (List.range' 0 A.sclrs.numberOfSendNeighbors.toNat).flatMap
          (neighborEvents A out.x A.synchronizers.neighbors) := by
  obtain ⟨es, x1, lrt1, evSetup, pulled, nbs1, evCopies, h1, h2, h3, h4, h5, h6, rfl⟩ :=
    ExchangeHalo_inv A x lrt out h
  have hev := (neighborLoop_spec A x1 _ _ _ _ _ h6).2.2.2
  subst hev
  refine ⟨es, pulled, h1, ?_, h3, h4, h5, h6, rfl, ?_⟩
  · rcases h2 with ⟨a, b, c, _⟩ | ⟨a, b, _⟩
    · exact Or.inl ⟨a, b, c⟩
    · exact Or.inr ⟨a, b⟩
  · rcases h2 with ⟨a, _, _, d⟩ | ⟨a, _, d⟩
    · simp only [a, d, if_true]
    · simp [a, d]

/-- What iteration `n` of the neighbor loop does in a successful call. -/
theorem ExchangeHalo_neighbor (A : SparseMatrix α) (x : Array α) (lrt : Runtime)
    (out : ExchangeOut α) (h : ExchangeHalo A x lrt = some out) (n : Nat)
    (hn : n < A.sclrs.numberOfSendNeighbors.toNat) :
    ∃ nid srcArray dstArray nb,
      A.neighbors[n]? = some nid ∧ A.ghostArrays.lookup nid = some srcArray ∧
      srcArray.hasParentLogicalRegion = true ∧
      out.x.ghosts[n]? = some dstArray ∧ dstArray.hasParentLogicalRegion = true ∧
      A.synchronizers.neighbors[n]? = some nb ∧
      out.A.synchronizers.neighbors[n]? = some (PhaseBarriers.mk
        (advance_phase_barrier nb.ready) (advance_phase_barrier nb.done)) ∧
      neighborEvents A out.x A.synchronizers.neighbors n =
        [Event.advance nb.ready, Event.advance nb.done,
          Event.executeTask (copyLauncher srcArray dstArray nb)] := by
  obtain ⟨es, pulled, _, _, _, _, _, h6, _, _⟩ := ExchangeHalo_shape A x lrt out h
  obtain ⟨_, hin, _, _⟩ := neighborLoop_spec A out.x _ _ _ _ _ h6
  obtain ⟨nid, s, d, nb, e1, e2, e3, e4, e5, e6, e7⟩ := hin n (Nat.zero_le _) (by omega)
  exact ⟨nid, s, d, nb, e1, e2, e3, e4, e5, e6, e7, by
    simp only [neighborEvents, e1, e4, e6, e2]⟩

theorem projections_setup (g : Bool) :
    waitsOf (if g then [] else [Event.setupGhostArrays]) = [] ∧
      arrivalsOf (if g then [] else [Event.setupGhostArrays]) = [] ∧
      advancesOf (if g then [] else [Event.setupGhostArrays]) = [] ∧
      tasksOf (if g then [] else [Event.setupGhostArrays]) = [] := by
  cases g <;> exact ⟨rfl, rfl, rfl, rfl⟩

/-- The projections of the trace of a successful call. -/
theorem ExchangeHalo_projections (A : SparseMatrix α) (x : Array α) (lrt : Runtime)
    (out : ExchangeOut α) (h : ExchangeHalo A x lrt = some out) :
    waitsOf out.trace = [A.synchronizers.mine.done] ∧
      arrivalsOf out.trace = [(A.synchronizers.mine.ready, 1)] ∧
      tasksOf out.trace = tasksOf ((List.range' 0 A.sclrs.numberOfSendNeighbors.toNat).flatMap
        (neighborEvents A out.x A.synchronizers.neighbors)) ∧
      advancesOf out.trace = A.synchronizers.mine.done :: A.synchronizers.mine.ready ::
        advancesOf ((List.range' 0 A.sclrs.numberOfSendNeighbors.toNat).flatMap
          (neighborEvents A out.x A.synchronizers.neighbors)) := by
  obtain ⟨es, pulled, _, _, _, _, _, _, _, htr⟩ := ExchangeHalo_shape A x lrt out h
  have hcp := copies_projections (neighborEvents A out.x A.synchronizers.neighbors)
    A.sclrs.numberOfSendNeighbors.toNat 0 (fun j _ hj => by
      obtain ⟨_, s, d, nb, _, _, _, _, _, _, _, e⟩ :=
        ExchangeHalo_neighbor A x lrt out h j (by omega)
      exact ⟨_, _, _, e⟩)
  obtain ⟨p1, p2, p3, p4, _⟩ := projections_map_pack (List.range A.sclrs.totalToBeSent.toNat)
  obtain ⟨s1, s2, s3, s4⟩ := projections_setup x.hasGhosts
  rw [htr]
  refine ⟨?_, ?_, ?_, ?_⟩
  · simp only [waitsOf_append, s1, p1, hcp.1, waitsOf, List.nil_append, List.append_nil,
      List.singleton_append]
  · simp only [arrivalsOf_append, s2, p2, hcp.2.1, arrivalsOf, List.nil_append,
      List.append_nil, List.singleton_append]
  · simp only [tasksOf_append, s4, p4, tasksOf, List.nil_append, List.append_nil]
  · simp only [advancesOf_append, s3, p3, advancesOf, List.nil_append, List.append_nil,
      List.singleton_append, List.cons_append]

/-- The task launched for neighbor slot `n` in a successful call, and the handles
advanced for it. -/
theorem ExchangeHalo_task_at (A : SparseMatrix α) (x : Array α) (lrt : Runtime)
    (out : ExchangeOut α) (h : ExchangeHalo A x lrt = some out) (n : Nat)
    (hn : n < A.sclrs.numberOfSendNeighbors.toNat) :
    ∃ srcArray dstArray nb, A.synchronizers.neighbors[n]? = some nb ∧
      neighborEvents A out.x A.synchronizers.neighbors n =
        [Event.advance nb.ready, Event.advance nb.done,
          Event.executeTask (copyLauncher srcArray dstArray nb)] ∧
      (tasksOf out.trace)[n]? = some (copyLauncher srcArray dstArray nb) ∧
      (advancesOf out.trace)[2 + 2 * n]? = some nb.ready ∧
      (advancesOf out.trace)[2 + 2 * n + 1]? = some nb.done ∧
      out.A.synchronizers.neighbors[n]? = some (PhaseBarriers.mk
        (advance_phase_barrier nb.ready) (advance_phase_barrier nb.done)) := by
  obtain ⟨_, _, q3, q4⟩ := ExchangeHalo_projections A x lrt out h
  have hcp := copies_projections (neighborEvents A out.x A.synchronizers.neighbors)
    A.sclrs.numberOfSendNeighbors.toNat 0 (fun j _ hj => by
      obtain ⟨_, s, d, nb, _, _, _, _, _, _, _, e⟩ :=
        ExchangeHalo_neighbor A x lrt out h j (by omega)
      exact ⟨_, _, _, e⟩)
  obtain ⟨_, _, _, _, _, _, c7⟩ := hcp
  obtain ⟨_, s, d, nb, _, _, _, _, _, e6, e7, e8⟩ := ExchangeHalo_neighbor A x lrt out h n hn
  obtain ⟨t1, t2, t3⟩ := c7 n (Nat.zero_le _) (by omega) _ _ _ e8
  refine ⟨s, d, nb, e6, e8, by rw [q3]; exact t1, ?_, ?_, e7⟩
  · rw [q4, show 2 + 2 * n = (2 * (n - 0) + 1) + 1 by omega, List.getElem?_cons_succ,
      List.getElem?_cons_succ]
    exact t2
  · rw [q4, show 2 + 2 * n + 1 = (2 * (n - 0) + 1 + 1) + 1 by omega, List.getElem?_cons_succ,
      List.getElem?_cons_succ]
    exact t3

/-- In a successful call the array keeps its address and its values. -/
theorem ExchangeHalo_x (A : SparseMatrix α) (x : Array α) (lrt : Runtime)
    (out : ExchangeOut α) (h : ExchangeHalo A x lrt = some out) :
    out.x.elems = x.elems ∧ out.x.data = x.data ∧ out.x.hasGhosts = true := by
  obtain ⟨es, pulled, _, h2, _⟩ := ExchangeHalo_shape A x lrt out h
  rcases h2 with ⟨a, b, _⟩ | ⟨_, b⟩
  · rw [b]; exact ⟨rfl, rfl, a⟩
  · obtain ⟨c, d, e⟩ := SetupGhostArrays_spec A x out.x lrt out.lrt b
    exact ⟨d, c, e⟩

/-- C9: with a send list of length `totalToBeSent` whose entries index `x`, and a
pull buffer of at least that size, the pack step succeeds and leaves
`pullBuffer[i] = x[elementsToSend[i]]` for every `i < totalToBeSent`; positions at
or beyond `totalToBeSent` keep their values, the buffer keeps its size, and `x` is
read only: after the call it holds the same values at the same address.  The pull
buffer a completed `ExchangeHalo` leaves is exactly this one. -/
theorem ExchangeHalo_pack (A : SparseMatrix α) (x : Array α) (lrt : Runtime)
    (es : List Int) (hes : A.elementsToSend = some es)
    (hlen : es.length = A.sclrs.totalToBeSent.toNat)
    (hidx : ∀ e ∈ es, 0 ≤ e ∧ e.toNat < x.length)
    (hpb : A.sclrs.totalToBeSent.toNat ≤ A.pullBuffer.length) :
    ∃ pulled,
      packLoop x.elems es A.sclrs.totalToBeSent.toNat 0 A.pullBuffer.elems = some pulled ∧
      pulled.length = A.pullBuffer.length ∧
      (∀ i (hi : i < es.length),
        ∃ v, x.elems[es[i].toNat]? = some v ∧ pulled[i]? = some v) ∧
      (∀ i, A.sclrs.totalToBeSent.toNat ≤ i → pulled[i]? = A.pullBuffer.elems[i]?) ∧
      (∀ out, ExchangeHalo A x lrt = some out →
        out.A.pullBuffer.elems = pulled ∧ out.x.elems = x.elems ∧ out.x.data = x.data) := by
  obtain ⟨pulled, hp⟩ := packLoop_total x.elems es A.sclrs.totalToBeSent.toNat 0
    A.pullBuffer.elems
    (fun j _ hj => by
      have hj2 : j < es.length := by omega
      obtain ⟨a, b⟩ := hidx es[j] (List.getElem_mem _)
      exact ⟨es[j], List.getElem?_eq_getElem hj2, a, b⟩)
    (by unfold Array.length at hpb; omega)
  obtain ⟨s1, s2, s3⟩ := packLoop_spec _ _ _ _ _ _ hp
  refine ⟨pulled, hp, s1, ?_, fun i hi => s3 i (Or.inr (by omega)), ?_⟩
  · intro i hi
    obtain ⟨e, v, a1, _, a3, a4, _⟩ := s2 i (Nat.zero_le _) (by omega)
    rw [List.getElem?_eq_getElem hi] at a1
    rw [Option.some.inj a1]
    exact ⟨v, a3, a4⟩
  · intro out hout
    obtain ⟨hx1, hx2, _⟩ := ExchangeHalo_x A x lrt out hout
    obtain ⟨es1, pulled1, g1, _, _, _, g5, _, g7, _⟩ := ExchangeHalo_shape A x lrt out hout
    rw [hes] at g1
    rw [← Option.some.inj g1, hx1, hp] at g5
    rw [g7]
    exact ⟨(Option.some.inj g5).symm, hx1, hx2⟩

/-- The tasks a successful call launches, one per neighbor slot. -/
theorem ExchangeHalo_tasks (A : SparseMatrix α) (x : Array α) (lrt : Runtime)
    (out : ExchangeOut α) (h : ExchangeHalo A x lrt = some out) (tl : TaskLauncher)
    (htl : tl ∈ tasksOf out.trace) :
    ∃ n nid srcArray dstArray nb, n < A.sclrs.numberOfSendNeighbors.toNat ∧
      A.neighbors[n]? = some nid ∧ A.ghostArrays.lookup nid = some srcArray ∧
      out.x.ghosts[n]? = some dstArray ∧ A.synchronizers.neighbors[n]? = some nb ∧
      tl = copyLauncher srcArray dstArray nb := by
  obtain ⟨_, _, q3, _⟩ := ExchangeHalo_projections A x lrt out h
  have hcp := copies_projections (neighborEvents A out.x A.synchronizers.neighbors)
    A.sclrs.numberOfSendNeighbors.toNat 0 (fun j _ hj => by
      obtain ⟨_, s, d, nb, _, _, _, _, _, _, _, e⟩ :=
        ExchangeHalo_neighbor A x lrt out h j (by omega)
      exact ⟨_, _, _, e⟩)
  obtain ⟨_, _, _, _, c5, _, c7⟩ := hcp
  rw [q3] at htl
  obtain ⟨n, hn, hget⟩ := List.getElem_of_mem htl
  rw [c5] at hn
  obtain ⟨nid, s, d, nb, e1, e2, _, e4, _, e6, _, e8⟩ :=
    ExchangeHalo_neighbor A x lrt out h n hn
  obtain ⟨t1, _, _⟩ := c7 n (Nat.zero_le _) (by omega) _ _ _ e8
  refine ⟨n, nid, s, d, nb, hn, e1, e2, e4, e6, ?_⟩
  rw [Nat.sub_zero, List.getElem?_eq_getElem (by rw [c5]; exact hn), hget] at t1
  exact Option.some.inj t1

theorem ExchangeHalo_some_of_ghosts (A : SparseMatrix α) (x : Array α) (lrt : Runtime)
    (es : List local_int_t) (pulled : List α) (r : List PhaseBarriers × List Event)
    (hg : x.hasGhosts = true) (hes : A.elementsToSend = some es) (hx : x.data ≠ 0)
    (hpb : A.pullBuffer.data ≠ 0)
    (hpack : packLoop x.elems es A.sclrs.totalToBeSent.toNat 0 A.pullBuffer.elems =
      some pulled)
    (hloop : neighborLoop A x A.sclrs.numberOfSendNeighbors.toNat 0
      A.synchronizers.neighbors = some r) :
    ∃ out, ExchangeHalo A x lrt = some out := by
  unfold ExchangeHalo
  simp only [hes, hg, not_true_eq_false, if_false, hx, hpb, hpack, hloop]
  exact ⟨_, rfl⟩

/-- A call of `ExchangeHalo` on inputs that are ready completes. -/
theorem ExchangeHalo_completes (A : SparseMatrix α) (x : Array α) (lrt : Runtime)
    (hready : ExchangeReady A x) : ∃ out, ExchangeHalo A x lrt = some out := by
  obtain ⟨⟨es, hes0, hidx0⟩, hx, hpbd, hpb, hnbs, hsrc0, hg0⟩ := hready
  have hes : A.elementsToSend = some es := Option.mem_def.mp hes0
  have hidx : ∀ j, j < A.sclrs.totalToBeSent.toNat →
      ∃ e, es[j]? = some e ∧ 0 ≤ e ∧ e.toNat < x.length := fun j hj => by
    obtain ⟨e, a1, a2⟩ := hidx0 j hj
    exact ⟨e, Option.mem_def.mp a1, a2⟩
  have hsrc : ∀ n, n < A.sclrs.numberOfSendNeighbors.toNat →
      ∃ nid srcArray, A.neighbors[n]? = some nid ∧
        A.ghostArrays.lookup nid = some srcArray ∧
        srcArray.hasParentLogicalRegion = true := fun n hn => by
    obtain ⟨nid, a1, src, a2, a3⟩ := hsrc0 n hn
    exact ⟨nid, src, Option.mem_def.mp a1, Option.mem_def.mp a2, a3⟩
  have hg : if x.hasGhosts = true then
      ∀ n, n < A.sclrs.numberOfSendNeighbors.toNat →
        ∃ dstArray, x.ghosts[n]? = some dstArray ∧
          dstArray.hasParentLogicalRegion = true
    else (A.neighbors.take A.sclrs.numberOfSendNeighbors.toNat).Nodup := by
    by_cases hgh : x.hasGhosts = true
    · rw [if_pos hgh] at hg0 ⊢
      intro n hn
      obtain ⟨d, a1, a2⟩ := hg0 n hn
      exact ⟨d, Option.mem_def.mp a1, a2⟩
    · rw [if_neg hgh] at hg0 ⊢
      exact hg0
  have hloop : ∀ x1 : Array α,
      (∀ n, n < A.sclrs.numberOfSendNeighbors.toNat →
        ∃ dstArray, x1.ghosts[n]? = some dstArray ∧
          dstArray.hasParentLogicalRegion = true) →
      ∃ r, neighborLoop A x1 A.sclrs.numberOfSendNeighbors.toNat 0
        A.synchronizers.neighbors = some r := by
    intro x1 hd
    apply neighborLoop_total
    intro j _ hj
    obtain ⟨nid, src, a1, a2, a3⟩ := hsrc j (by omega)
    obtain ⟨dst, b1, b2⟩ := hd j (by omega)
    exact ⟨nid, src, dst, a1, a2, a3, b1, b2, by omega⟩
  have hpack : ∀ xv : List α, xv.length = x.length →
      ∃ pulled, packLoop xv es A.sclrs.totalToBeSent.toNat 0 A.pullBuffer.elems =
        some pulled := by
    intro xv hxv
    apply packLoop_total
    · intro j _ hj
      obtain ⟨e, a1, a2, a3⟩ := hidx j (by omega)
      exact ⟨e, a1, a2, by rw [hxv]; exact a3⟩
    · unfold Array.length at hpb
      omega
  by_cases hgh : x.hasGhosts = true
  · rw [if_pos hgh] at hg
    obtain ⟨pulled, hp⟩ := hpack x.elems rfl
    obtain ⟨r, hr⟩ := hloop x hg
    exact ExchangeHalo_some_of_ghosts A x lrt es pulled r hgh hes hx hpbd hp hr
  · rw [if_neg hgh] at hg
    have hlen : (A.neighbors.take A.sclrs.numberOfSendNeighbors.toNat).length =
        A.sclrs.numberOfSendNeighbors.toNat := by
      rw [List.length_take]
      by_cases h0 : A.sclrs.numberOfSendNeighbors.toNat = 0
      · omega
      · obtain ⟨nid, _, a1, _, _⟩ := hsrc (A.sclrs.numberOfSendNeighbors.toNat - 1) (by omega)
        have := (List.getElem?_eq_some.mp a1).1
        omega
    obtain ⟨ghosts, s1, s2, s3⟩ := setupLoop_total A lrt.nextRegion
      (A.neighbors.take A.sclrs.numberOfSendNeighbors.toNat) 0
      (fun nid hnid => by
        obtain ⟨j, hj⟩ := List.mem_iff_getElem?.mp hnid
        rw [List.getElem?_take] at hj
        by_cases hjn : j < A.sclrs.numberOfSendNeighbors.toNat
        · rw [if_pos hjn] at hj
          obtain ⟨nid1, src, a1, a2, _⟩ := hsrc j hjn
          rw [hj] at a1
          exact ⟨src, by rw [Option.some.inj a1]; exact a2⟩
        · rw [if_neg hjn] at hj
          exact absurd hj (by simp))
    have hsetup : SetupGhostArrays A x lrt =
        some ({ x with ghosts := ghosts, ghostsSet := true },
          { nextRegion := lrt.nextRegion + ghosts.length }) := by
      unfold SetupGhostArrays
      simp only [hlen, Nat.lt_irrefl, if_false, hg, not_true_eq_false, s1]
    obtain ⟨pulled, hp⟩ := hpack x.elems rfl
    obtain ⟨r, hr⟩ := hloop { x with ghosts := ghosts, ghostsSet := true } (by
      intro n hn
      have hn2 : n < ghosts.length := by rw [s2, hlen]; exact hn
      exact ⟨ghosts[n], List.getElem?_eq_getElem hn2, s3 _ (List.getElem_mem _)⟩)
    have hgf : x.hasGhosts = false := by simpa using hgh
    unfold ExchangeHalo
    simp only [hes, hgf, Bool.false_eq_true, not_false_eq_true, if_true, hsetup, hx, hpbd,
      if_false, hp, hr]
    exact ⟨_, rfl⟩

/-- A call that completes can be repeated: the second call completes too. -/
theorem ExchangeHalo_again (A : SparseMatrix α) (x : Array α) (lrt : Runtime)
    (out : ExchangeOut α) (h : ExchangeHalo A x lrt = some out) :
    ∃ out2, ExchangeHalo out.A out.x out.lrt = some out2 := by
  obtain ⟨es, pulled, g1, _, g3, g4, g5, g6, g7, _⟩ := ExchangeHalo_shape A x lrt out h
  obtain ⟨_, _, hg⟩ := ExchangeHalo_x A x lrt out h
  obtain ⟨s1, s2, _⟩ := packLoop_spec _ _ _ _ _ _ g5
  obtain ⟨n1, n2, _, _⟩ := neighborLoop_spec A out.x _ _ _ _ _ g6
  have hAn : out.A.neighbors = A.neighbors := by rw [g7]
  have hAg : out.A.ghostArrays = A.ghostArrays := by rw [g7]
  have hAs : out.A.sclrs = A.sclrs := by rw [g7]
  have hAe : out.A.elementsToSend = A.elementsToSend := by rw [g7]
  have hAp : out.A.pullBuffer.elems = pulled := by rw [g7]
  have hAd : out.A.pullBuffer.data = A.pullBuffer.data := by rw [g7]
  obtain ⟨pulled2, hp2⟩ := packLoop_total out.x.elems es A.sclrs.totalToBeSent.toNat 0 pulled
    (fun j a b => by
      obtain ⟨e, v, a1, a2, a3, _, _⟩ := s2 j a b
      exact ⟨e, a1, a2, (List.getElem?_eq_some.mp a3).1⟩)
    (by
      by_cases h0 : A.sclrs.totalToBeSent.toNat = 0
      · omega
      · obtain ⟨_, _, _, _, _, _, a5⟩ := s2 (A.sclrs.totalToBeSent.toNat - 1)
          (Nat.zero_le _) (by omega)
        omega)
  obtain ⟨r, hr⟩ := neighborLoop_total out.A out.x A.sclrs.numberOfSendNeighbors.toNat 0
    out.A.synchronizers.neighbors
    (fun j a b => by
      obtain ⟨nid, s, d, nb, e1, e2, e3, e4, e5, e6, _⟩ := n2 j a b
      refine ⟨nid, s, d, by rw [hAn]; exact e1, by rw [hAg]; exact e2, e3, e4, e5, ?_⟩
      rw [n1]
      exact (List.getElem?_eq_some.mp e6).1)
  exact ExchangeHalo_some_of_ghosts out.A out.x out.lrt es pulled2 r hg
    (by rw [hAe]; exact g1) g3 (by rw [hAd]; exact g4)
    (by rw [hAs, hAp]; exact hp2) (by rw [hAs]; exact hr)

theorem SetupGhostArrays_nodup (A : SparseMatrix α) (x x1 : Array α) (lrt lrt1 : Runtime)
    (h : SetupGhostArrays A x lrt = some (x1, lrt1)) :
    (A.neighbors.take A.sclrs.numberOfSendNeighbors.toNat).Nodup := by
  unfold SetupGhostArrays at h
  simp only at h
  split at h
  · exact absurd h (by simp)
  · split at h
    · exact absurd h (by simp)
    · rename_i hnd
      exact not_not.mp hnd

/-- A call of `ExchangeHalo` completes only on a ready input. -/
theorem ExchangeReady_of_completed (A : SparseMatrix α) (x : Array α) (lrt : Runtime)
    (out : ExchangeOut α) (h : ExchangeHalo A x lrt = some out) : ExchangeReady A x := by
  obtain ⟨es, pulled, g1, g2, g3, g4, g5, g6, _, _⟩ := ExchangeHalo_shape A x lrt out h
  obtain ⟨hx1, hx2, _⟩ := ExchangeHalo_x A x lrt out h
  obtain ⟨_, s2, _⟩ := packLoop_spec _ _ _ _ _ _ g5
  obtain ⟨_, n2, _, _⟩ := neighborLoop_spec A out.x _ _ _ _ _ g6
  refine ⟨⟨es, Option.mem_def.mpr g1, ?_⟩, by rw [← hx2]; exact g3, g4, ?_, ?_, ?_, ?_⟩
  · intro j hj
    obtain ⟨e, v, a1, a2, a3, _, _⟩ := s2 j (Nat.zero_le _) (by omega)
    refine ⟨e, Option.mem_def.mpr a1, a2, ?_⟩
    rw [hx1] at a3
    exact (List.getElem?_eq_some.mp a3).1
  · by_cases h0 : A.sclrs.totalToBeSent.toNat = 0
    · omega
    · obtain ⟨_, _, _, _, _, _, a5⟩ := s2 (A.sclrs.totalToBeSent.toNat - 1)
        (Nat.zero_le _) (by omega)
      unfold Array.length
      omega
  · by_cases h0 : A.sclrs.numberOfSendNeighbors.toNat = 0
    · omega
    · obtain ⟨_, _, _, nb, _, _, _, _, _, e6, _⟩ :=
        n2 (A.sclrs.numberOfSendNeighbors.toNat - 1) (Nat.zero_le _) (by omega)
      have := (List.getElem?_eq_some.mp e6).1
      omega
  · intro n hn
    obtain ⟨nid, s, _, _, e1, e2, e3, _⟩ := n2 n (Nat.zero_le _) (by omega)
    exact ⟨nid, Option.mem_def.mpr e1, s, Option.mem_def.mpr e2, e3⟩
  · rcases g2 with ⟨a, b, _⟩ | ⟨a, b⟩
    · rw [if_pos a]
      intro n hn
      obtain ⟨_, _, d, _, _, _, _, e4, e5, _⟩ := n2 n (Nat.zero_le _) (by omega)
      rw [b] at e4
      exact ⟨d, Option.mem_def.mpr e4, e5⟩
    · rw [if_neg (by rw [a]; simp)]
      exact SetupGhostArrays_nodup A x out.x lrt out.lrt b

/-- After a completed call the matrix and the array are ready for the next call,
whatever values of a size the send list indexes the caller stores in the array. -/
theorem ExchangeReady_next (A : SparseMatrix α) (x : Array α) (lrt : Runtime)
    (out : ExchangeOut α) (h : ExchangeHalo A x lrt = some out) (v : List α)
    (hr : ExchangeReady A { x with elems := v }) :
    ExchangeReady out.A { out.x with elems := v } := by
  obtain ⟨⟨es, hes, hidx⟩, _, hpbd, hpb, hnbs, hsrc, _⟩ := hr
  obtain ⟨_, pulled, _, _, g3, _, g5, g6, hA, _⟩ := ExchangeHalo_shape A x lrt out h
  obtain ⟨_, _, hg⟩ := ExchangeHalo_x A x lrt out h
  obtain ⟨s1, _, _⟩ := packLoop_spec _ _ _ _ _ _ g5
  obtain ⟨n1, n2, _, _⟩ := neighborLoop_spec A out.x _ _ _ _ _ g6
  have hAe : out.A.elementsToSend = A.elementsToSend := by rw [hA]
  have hAs : out.A.sclrs = A.sclrs := by rw [hA]
  have hAn : out.A.neighbors = A.neighbors := by rw [hA]
  have hAg : out.A.ghostArrays = A.ghostArrays := by rw [hA]
  have hAd : out.A.pullBuffer.data = A.pullBuffer.data := by rw [hA]
  have hAp : out.A.pullBuffer.elems = pulled := by rw [hA]
  refine ⟨⟨es, by rw [hAe]; exact hes, by rw [hAs]; exact hidx⟩, g3, by rw [hAd]; exact hpbd,
    ?_, by rw [hAs, n1]; exact hnbs, by rw [hAs, hAn, hAg]; exact hsrc, ?_⟩
  · unfold Array.length at hpb ⊢
    rw [hAs, hAp, s1]
    exact hpb
  · rw [if_pos (show (Array.mk out.x.data v out.x.ghosts out.x.ghostsSet).hasGhosts = true
      from hg), hAs]
    intro n hn
    obtain ⟨_, _, d, _, _, _, _, e4, e5, _⟩ := n2 n (Nat.zero_le _) (by omega)
    exact ⟨d, Option.mem_def.mpr e4, e5⟩

/-- Successive calls complete when every round's values are of a size the send
list indexes and the first call is ready. -/
theorem exchangeRounds_completes :
    ∀ (vals : List (List α)) (A : SparseMatrix α) (x : Array α) (lrt : Runtime),
      (∀ v ∈ vals, ExchangeReady A { x with elems := v }) →
      ∃ r, exchangeRounds A x lrt vals = some r
  | [], A, x, lrt, _ => ⟨_, rfl⟩
  | v :: rest, A, x, lrt, hr => by
    obtain ⟨out, hout⟩ := ExchangeHalo_completes A { x with elems := v } lrt
      (hr v (List.mem_cons_self _ _))
    obtain ⟨r, hrest⟩ := exchangeRounds_completes rest out.A out.x out.lrt
      (fun w hw => ExchangeReady_next A { x with elems := v } lrt out hout w
        (hr w (List.mem_cons_of_mem _ hw)))
    obtain ⟨A1, x1, lrt1, traces⟩ := r
    exact ⟨(A1, x1, lrt1, out.trace :: traces), by
      simp only [exchangeRounds, hout, hrest]⟩

/-- C10: a call of `ExchangeHalo` on a ready input completes and does, in this order: (ghost setup
when the array has no ghosts,) wait on mine.done, advance mine.done, the stores
into the pull buffer for `i = 0 .. totalToBeSent-1`, one arrival on mine.ready,
advance mine.ready, and then for each neighbor slot in turn: advance its ready
handle, advance its done handle, launch one copy task that waits on the neighbor's
(advanced) ready handle and arrives at its done handle.  Exactly `nNeighbors`
tasks are launched and each barrier handle is advanced exactly once. -/
theorem ExchangeHalo_order (A : SparseMatrix α) (x : Array α) (lrt : Runtime)
    (hready : ExchangeReady A x) :
    ∃ out, ExchangeHalo A x lrt = some out ∧
    out.trace = (if x.hasGhosts then [] else [Event.setupGhostArrays]) ++
        [Event.wait A.synchronizers.mine.done, Event.advance A.synchronizers.mine.done] ++
        (List.range A.sclrs.totalToBeSent.toNat).map Event.pack ++
        [Event.arrive A.synchronizers.mine.ready 1,
          Event.advance A.synchronizers.mine.ready] ++
        (List.range A.sclrs.numberOfSendNeighbors.toNat).flatMap
          (neighborEvents A out.x A.synchronizers.neighbors) ∧
      (∀ n, n < A.sclrs.numberOfSendNeighbors.toNat →
        ∃ srcArray dstArray nb, A.synchronizers.neighbors[n]? = some nb ∧
          neighborEvents A out.x A.synchronizers.neighbors n =
            [Event.advance nb.ready, Event.advance nb.done,
              Event.executeTask (copyLauncher srcArray dstArray nb)] ∧
          (tasksOf out.trace)[n]? = some (copyLauncher srcArray dstArray nb) ∧
          (copyLauncher srcArray dstArray nb).waitBarriers =
            [advance_phase_barrier nb.ready] ∧
          (copyLauncher srcArray dstArray nb).arrivalBarriers = [nb.done] ∧
          (advancesOf out.trace)[2 + 2 * n]? = some nb.ready ∧
          (advancesOf out.trace)[2 + 2 * n + 1]? = some nb.done ∧
          out.A.synchronizers.neighbors[n]? = some (PhaseBarriers.mk
            (advance_phase_barrier nb.ready) (advance_phase_barrier nb.done))) ∧
      (tasksOf out.trace).length = A.sclrs.numberOfSendNeighbors.toNat ∧
      waitsOf out.trace = [A.synchronizers.mine.done] ∧
      arrivalsOf out.trace = [(A.synchronizers.mine.ready, 1)] ∧
      (advancesOf out.trace).length = 2 + 2 * A.sclrs.numberOfSendNeighbors.toNat ∧
      (advancesOf out.trace)[0]? = some A.synchronizers.mine.done ∧
      (advancesOf out.trace)[1]? = some A.synchronizers.mine.ready ∧
      out.A.synchronizers.mine = PhaseBarriers.mk
        (advance_phase_barrier A.synchronizers.mine.ready)
        (advance_phase_barrier A.synchronizers.mine.done) := by
  obtain ⟨out, h⟩ := ExchangeHalo_completes A x lrt hready
  refine ⟨out, h, ?_⟩
  obtain ⟨es, pulled, _, _, _, _, _, _, hA, htr⟩ := ExchangeHalo_shape A x lrt out h
  obtain ⟨q1, q2, q3, q4⟩ := ExchangeHalo_projections A x lrt out h
  have hcp := copies_projections (neighborEvents A out.x A.synchronizers.neighbors)
    A.sclrs.numberOfSendNeighbors.toNat 0 (fun j _ hj => by
      obtain ⟨_, s, d, nb, _, _, _, _, _, _, _, e⟩ :=
        ExchangeHalo_neighbor A x lrt out h j (by omega)
      exact ⟨_, _, _, e⟩)
  obtain ⟨_, _, _, _, c5, c6, _⟩ := hcp
  refine ⟨by rw [htr, ← List.range_eq_range'], ?_,
    by rw [q3, c5], q1, q2,
    by rw [q4]; simp [c6]; omega, by rw [q4]; simp, by rw [q4]; simp, by rw [hA]⟩
  intro n hn
  obtain ⟨s, d, nb, e1, e2, e3, e4, e5, e6⟩ := ExchangeHalo_task_at A x lrt out h n hn
  exact ⟨s, d, nb, e1, e2, e3, rfl, rfl, e4, e5, e6⟩

/-- C7: `ExchangeHalo` runs the ghost setup exactly when `x.hasGhosts()` is false,
once and before every barrier or pack step; on an array that already has ghosts
it leaves the array, its shadow containers and the region allocator as they were.
A call on a ready input completes; after it the array has ghosts, so a second
call completes without setup and with identical shadow containers (identities and
sizes). -/
theorem ExchangeHalo_ghosts_idempotent (A : SparseMatrix α) (x : Array α) (lrt : Runtime)
    (hready : ExchangeReady A x) :
    ∃ out, ExchangeHalo A x lrt = some out ∧
    (x.hasGhosts = false →
        ∃ rest, out.trace = Event.setupGhostArrays :: rest ∧
          Event.setupGhostArrays ∉ rest) ∧
      (x.hasGhosts = true →
        Event.setupGhostArrays ∉ out.trace ∧ out.x = x ∧ out.lrt = lrt) ∧
      out.x.hasGhosts = true ∧
      ∃ out2, ExchangeHalo out.A out.x out.lrt = some out2 ∧
        Event.setupGhostArrays ∉ out2.trace ∧ out2.x = out.x ∧
        out2.x.ghosts = out.x.ghosts ∧ out2.lrt = out.lrt := by
  obtain ⟨out, h⟩ := ExchangeHalo_completes A x lrt hready
  refine ⟨out, h, ?_⟩
  have key : ∀ (A : SparseMatrix α) (x : Array α) (lrt : Runtime) (out : ExchangeOut α),
      ExchangeHalo A x lrt = some out →
      ∃ rest, out.trace = (if x.hasGhosts then [] else [Event.setupGhostArrays]) ++ rest ∧
        Event.setupGhostArrays ∉ rest := by
    intro A x lrt out h
    obtain ⟨es, pulled, _, _, _, _, _, _, _, htr⟩ := ExchangeHalo_shape A x lrt out h
    have hcp := copies_projections (neighborEvents A out.x A.synchronizers.neighbors)
      A.sclrs.numberOfSendNeighbors.toNat 0 (fun j _ hj => by
        obtain ⟨_, s, d, nb, _, _, _, _, _, _, _, e⟩ :=
          ExchangeHalo_neighbor A x lrt out h j (by omega)
        exact ⟨_, _, _, e⟩)
    obtain ⟨_, _, _, _, p5⟩ := projections_map_pack (List.range A.sclrs.totalToBeSent.toNat)
    refine ⟨[Event.wait A.synchronizers.mine.done, Event.advance A.synchronizers.mine.done] ++
        ((List.range A.sclrs.totalToBeSent.toNat).map Event.pack ++
          ([Event.arrive A.synchronizers.mine.ready 1,
              Event.advance A.synchronizers.mine.ready] ++
            (List.range' 0 A.sclrs.numberOfSendNeighbors.toNat).flatMap
              (neighborEvents A out.x A.synchronizers.neighbors))),
      by rw [htr]; simp only [List.append_assoc], ?_⟩
    simp only [List.mem_append, List.mem_cons, List.not_mem_nil, or_false, not_or]
    exact ⟨⟨by simp, by simp⟩, p5, ⟨by simp, by simp⟩, hcp.2.2.1⟩
  obtain ⟨hx1, hx2, hg⟩ := ExchangeHalo_x A x lrt out h
  obtain ⟨rest, hr1, hr2⟩ := key A x lrt out h
  obtain ⟨out2, h2⟩ := ExchangeHalo_again A x lrt out h
  obtain ⟨rest2, hr3, hr4⟩ := key out.A out.x out.lrt out2 h2
  obtain ⟨_, _, _, g2, _⟩ := ExchangeHalo_shape A x lrt out h
  obtain ⟨_, _, _, k2, _⟩ := ExchangeHalo_shape out.A out.x out.lrt out2 h2
  have hsame : out2.x = out.x ∧ out2.lrt = out.lrt := by
    rcases k2 with ⟨_, b, c⟩ | ⟨a, _⟩
    · exact ⟨b, c⟩
    · rw [hg] at a; exact absurd a (by simp)
  refine ⟨?_, ?_, hg, out2, h2, ?_, hsame.1, by rw [hsame.1], hsame.2⟩
  · intro hf
    rw [hf] at hr1
    exact ⟨rest, by simpa using hr1, hr2⟩
  · intro ht
    rw [ht] at hr1
    refine ⟨by rw [hr1]; simpa using hr2, ?_⟩
    rcases g2 with ⟨_, b, c⟩ | ⟨a, _⟩
    · exact ⟨b, c⟩
    · rw [ht] at a; exact absurd a (by simp)
  · rw [hr3, hg]
    simpa using hr4

theorem advanceBy_zero (pb : PhaseBarrier) : advanceBy 0 pb = pb := by
  simp [advanceBy]

theorem advanceBy_succ (j : Nat) (pb : PhaseBarrier) :
    advanceBy j (advance_phase_barrier pb) = advanceBy (j + 1) pb := by
  simp only [advanceBy, advance_phase_barrier, PhaseBarrier.mk.injEq, true_and]
  push_cast
  ring

theorem advance_advanceBy (j : Nat) (pb : PhaseBarrier) :
    advance_phase_barrier (advanceBy j pb) = advanceBy (j + 1) pb := by
  simp only [advanceBy, advance_phase_barrier, PhaseBarrier.mk.injEq, true_and]
  push_cast
  ring

/-- Round `k` of successive calls: the call made, its trace, and the barrier
handles it starts from, each advanced `k` times. -/
theorem exchangeRounds_round :
    ∀ (vals : List (List α)) (A : SparseMatrix α) (x : Array α) (lrt : Runtime)
      (A1 : SparseMatrix α) (x1 : Array α) (lrt1 : Runtime) (trs : List (List Event)),
      exchangeRounds A x lrt vals = some (A1, x1, lrt1, trs) →
      ∀ k, k < vals.length →
        ∃ (Ak : SparseMatrix α) (xk : Array α) (lrtk : Runtime) (outk : ExchangeOut α),
          ExchangeHalo Ak xk lrtk = some outk ∧
          trs[k]? = some outk.trace ∧ Ak.sclrs = A.sclrs ∧
          Ak.synchronizers.mine = PhaseBarriers.mk
            (advanceBy k A.synchronizers.mine.ready)
            (advanceBy k A.synchronizers.mine.done) ∧
          ∀ n nb, n < A.sclrs.numberOfSendNeighbors.toNat →
            A.synchronizers.neighbors[n]? = some nb →
            Ak.synchronizers.neighbors[n]? = some (PhaseBarriers.mk
              (advanceBy k nb.ready) (advanceBy k nb.done))
  | [], _, _, _, _, _, _, _, _, k, hk => by simp at hk
  | v :: rest, A, x, lrt, A1, x1, lrt1, trs, h, k, hk => by
    unfold exchangeRounds at h
    split at h
    · exact absurd h (by simp)
    · rename_i out hout
      split at h
      · exact absurd h (by simp)
      · rename_i A2 x2 lrt2 traces hrec
        simp only [Option.some.injEq, Prod.mk.injEq] at h
        obtain ⟨_, _, _, rfl⟩ := h
        cases k with
        | zero =>
          refine ⟨A, _, lrt, out, hout, by simp, rfl, ?_, ?_⟩
          · simp only [advanceBy_zero]
          · intro n nb _ hnb
            simp only [advanceBy_zero]
            exact hnb
        | succ k =>
          obtain ⟨Ak, xk, lrtk, outk, e1, e2, e3, e4, e5⟩ :=
            exchangeRounds_round rest out.A out.x out.lrt _ _ _ _ hrec k
              (by simpa using hk)
          obtain ⟨_, _, _, _, _, _, _, _, hA, _⟩ := ExchangeHalo_shape A _ lrt out hout
          have hs : out.A.sclrs = A.sclrs := by rw [hA]
          have hm : out.A.synchronizers.mine = PhaseBarriers.mk
              (advance_phase_barrier A.synchronizers.mine.ready)
              (advance_phase_barrier A.synchronizers.mine.done) := by rw [hA]
          refine ⟨Ak, xk, lrtk, outk, e1, by simpa using e2, by rw [e3, hs], ?_, ?_⟩
          · rw [e4, hm]
            simp only [advanceBy_succ]
          · intro n nb hn hnb
            obtain ⟨_, _, _, nb1, _, _, _, _, _, f6, f7, _⟩ :=
              ExchangeHalo_neighbor A _ lrt out hout n hn
            rw [hnb] at f6
            rw [← Option.some.inj f6] at f7
            have := e5 n _ (by rw [hs]; exact hn) f7
            simpa only [advanceBy_succ] using this

/-- C5: successive calls on ready inputs complete, and the done handle a reader's copy task arrives at in
round `k` names exactly the generation the owner's `mine.done.wait()` of round
`k+1` waits for, and no store into the pull buffer precedes that wait in round
`k+1`; the ready handle the copy task waits on in round `k` is for exactly the
generation the owner arrives at in round `k`, and no store into the pull buffer
follows that arrival in round `k`.  Here the reader's slot `n` holds the owner's
handles, as set up before the first round. -/
theorem ExchangeHalo_generations (AP AQ : SparseMatrix α) (xP xQ : Array α)
    (lrtP lrtQ : Runtime) (valsP valsQ : List (List α)) (n k : Nat)
    (hreadyP : ∀ v ∈ valsP, ExchangeReady AP { xP with elems := v })
    (hreadyQ : ∀ v ∈ valsQ, ExchangeReady AQ { xQ with elems := v })
    (hn : n < AQ.sclrs.numberOfSendNeighbors.toNat)
    (hwire : AQ.synchronizers.neighbors[n]? = some AP.synchronizers.mine)
    (hkP : k + 1 < valsP.length) (hkQ : k < valsQ.length) :
    ∃ AP1 xP1 lrtP1 trsP AQ1 xQ1 lrtQ1 trsQ,
      exchangeRounds AP xP lrtP valsP = some (AP1, xP1, lrtP1, trsP) ∧
      exchangeRounds AQ xQ lrtQ valsQ = some (AQ1, xQ1, lrtQ1, trsQ) ∧
    ∃ trP trP1 trQ tl a w r m pre post pre1 post1,
      trsP[k]? = some trP ∧ trsP[k + 1]? = some trP1 ∧ trsQ[k]? = some trQ ∧
      (tasksOf trQ)[n]? = some tl ∧
      tl.arrivalBarriers = [a] ∧ waitsOf trP1 = [w] ∧
      a.id = w.id ∧ a.arrivalGeneration = w.awaitedGeneration ∧
      w = advance_phase_barrier a ∧
      trP1 = pre ++ Event.wait w :: post ∧ (∀ i, Event.pack i ∉ pre) ∧
      tl.waitBarriers = [r] ∧ arrivalsOf trP = [(m, 1)] ∧
      r.id = m.id ∧ r.awaitedGeneration = m.arrivalGeneration ∧
      r = advance_phase_barrier m ∧
      trP = pre1 ++ Event.arrive m 1 :: post1 ∧ (∀ i, Event.pack i ∉ post1) := by
  obtain ⟨⟨AP1, xP1, lrtP1, trsP⟩, hP⟩ := exchangeRounds_completes valsP AP xP lrtP hreadyP
  obtain ⟨⟨AQ1, xQ1, lrtQ1, trsQ⟩, hQ⟩ := exchangeRounds_completes valsQ AQ xQ lrtQ hreadyQ
  refine ⟨AP1, xP1, lrtP1, trsP, AQ1, xQ1, lrtQ1, trsQ, hP, hQ, ?_⟩
  obtain ⟨Pk, xPk, lPk, oPk, p1, p2, _, p4, _⟩ :=
    exchangeRounds_round valsP AP xP lrtP _ _ _ _ hP k (by omega)
  obtain ⟨Pk1, xPk1, lPk1, oPk1, q1, q2, _, q4, _⟩ :=
    exchangeRounds_round valsP AP xP lrtP _ _ _ _ hP (k + 1) hkP
  obtain ⟨Qk, xQk, lQk, oQk, r1, r2, r3, _, r5⟩ :=
    exchangeRounds_round valsQ AQ xQ lrtQ _ _ _ _ hQ k hkQ
  have hnb := r5 n _ hn hwire
  obtain ⟨s, d, nb, g1, _, g3, _⟩ := ExchangeHalo_task_at Qk xQk lQk oQk r1 n
    (by rw [r3]; exact hn)
  rw [hnb] at g1
  have hnbeq := Option.some.inj g1
  obtain ⟨_, _, _, _, _, _, _, _, _, htr1⟩ := ExchangeHalo_shape Pk1 xPk1 lPk1 oPk1 q1
  obtain ⟨_, _, _, _, _, _, _, _, _, htr⟩ := ExchangeHalo_shape Pk xPk lPk oPk p1
  obtain ⟨hw1, _, _, _⟩ := ExchangeHalo_projections Pk1 xPk1 lPk1 oPk1 q1
  obtain ⟨_, ha, _, _⟩ := ExchangeHalo_projections Pk xPk lPk oPk p1
  have hcp := copies_projections (neighborEvents Pk oPk.x Pk.synchronizers.neighbors)
    Pk.sclrs.numberOfSendNeighbors.toNat 0 (fun j _ hj => by
      obtain ⟨_, s, d, nb, _, _, _, _, _, _, _, e⟩ :=
        ExchangeHalo_neighbor Pk xPk lPk oPk p1 j (by omega)
      exact ⟨_, _, _, e⟩)
  refine ⟨oPk.trace, oPk1.trace, oQk.trace, _, nb.done, Pk1.synchronizers.mine.done,
    advance_phase_barrier nb.ready, Pk.synchronizers.mine.ready,
    (if xPk1.hasGhosts then [] else [Event.setupGhostArrays]),
    Event.advance Pk1.synchronizers.mine.done ::
      ((List.range Pk1.sclrs.totalToBeSent.toNat).map Event.pack ++
        ([Event.arrive Pk1.synchronizers.mine.ready 1,
            Event.advance Pk1.synchronizers.mine.ready] ++
          (List.range' 0 Pk1.sclrs.numberOfSendNeighbors.toNat).flatMap
            (neighborEvents Pk1 oPk1.x Pk1.synchronizers.neighbors))),
    (if xPk.hasGhosts then [] else [Event.setupGhostArrays]) ++
      [Event.wait Pk.synchronizers.mine.done, Event.advance Pk.synchronizers.mine.done] ++
      (List.range Pk.sclrs.totalToBeSent.toNat).map Event.pack,
    Event.advance Pk.synchronizers.mine.ready ::
      (List.range' 0 Pk.sclrs.numberOfSendNeighbors.toNat).flatMap
        (neighborEvents Pk oPk.x Pk.synchronizers.neighbors),
    p2, q2, r2, g3, rfl, hw1, ?_, ?_, ?_, ?_, ?_, rfl, ha, ?_, ?_, ?_, ?_, ?_⟩
  · rw [← hnbeq, q4]; rfl
  · rw [← hnbeq, q4]
    simp only [PhaseBarrier.arrivalGeneration, PhaseBarrier.awaitedGeneration, advanceBy]
    push_cast
    ring
  · rw [← hnbeq, q4]
    simp only [advance_advanceBy]
  · rw [htr1]
    simp only [List.append_assoc, List.cons_append, List.nil_append]
  · intro i
    cases xPk1.hasGhosts <;> simp
  · rw [← hnbeq, p4]; rfl
  · rw [← hnbeq, p4]
    simp [PhaseBarrier.arrivalGeneration, PhaseBarrier.awaitedGeneration, advanceBy,
      advance_phase_barrier]
  · rw [← hnbeq, p4]
  · rw [htr]
    simp only [List.append_assoc, List.cons_append, List.nil_append]
  · intro i hi
    rcases List.mem_cons.mp hi with hi | hi
    · exact absurd hi (by simp)
    · exact hcp.2.2.2.1 i hi

/-- C10 on partition 0 of the two-partition ring: the whole trace of its first
exchange. -/
theorem ExchangeHalo_order_witness :
    ExchangeReady Example.A0 Example.xi ∧
      ∃ out, ExchangeHalo Example.A0 Example.xi Example.lrt0 = some out ∧
        out = Example.out0 ∧
        out.trace =
          [Event.setupGhostArrays,
           Event.wait { id := 1, gen := 1 }, Event.advance { id := 1, gen := 1 },
           Event.pack 0, Event.pack 1,
           Event.arrive { id := 0, gen := 1 } 1, Event.advance { id := 0, gen := 1 },
           Event.advance { id := 2, gen := 1 }, Event.advance { id := 3, gen := 1 },
           Event.executeTask Example.task0] ∧
        (tasksOf out.trace).length = 1 :=
  ⟨by decide, by
    obtain ⟨out, h, h1, _, h3, _⟩ :=
      ExchangeHalo_order Example.A0 Example.xi Example.lrt0 (by decide)
    have he : out = Example.out0 := Option.some.inj (h.symm.trans (by decide))
    subst he
    exact ⟨_, h, rfl, h1.trans (by decide), h3.trans (by decide)⟩⟩

/-- C9 on partition 0 of the ring: it owns `[1, 2, 3, 4]`, its send list is `[2, 3]`
and its pull buffer ends up as `[3, 4]`. -/
theorem ExchangeHalo_pack_witness :
    (Example.A0.elementsToSend = some [2, 3] ∧
      ([2, 3] : List Int).length = Example.A0.sclrs.totalToBeSent.toNat ∧
      (∀ e ∈ ([2, 3] : List Int), 0 ≤ e ∧ e.toNat < Example.xi.length) ∧
      Example.A0.sclrs.totalToBeSent.toNat ≤ Example.A0.pullBuffer.length) ∧
    (∃ pulled,
      packLoop Example.xi.elems [2, 3] Example.A0.sclrs.totalToBeSent.toNat 0
          Example.A0.pullBuffer.elems = some pulled ∧
      pulled.length = Example.A0.pullBuffer.length ∧
      (∀ i (hi : i < ([2, 3] : List Int).length),
        ∃ v, Example.xi.elems[(([2, 3] : List Int)[i]).toNat]? = some v ∧
          pulled[i]? = some v) ∧
      (∀ i, Example.A0.sclrs.totalToBeSent.toNat ≤ i →
        pulled[i]? = Example.A0.pullBuffer.elems[i]?) ∧
      (∀ out, ExchangeHalo Example.A0 Example.xi Example.lrt0 = some out →
        out.A.pullBuffer.elems = pulled ∧ out.x.elems = Example.xi.elems ∧
          out.x.data = Example.xi.data)) ∧
    packLoop Example.xi.elems [2, 3] 2 0 [0, 0] = some [3, 4] :=
  ⟨⟨by decide, by decide, by decide, by decide⟩,
    ExchangeHalo_pack Example.A0 Example.xi Example.lrt0 [2, 3] (by decide) (by decide)
      (by decide) (by decide),
    by decide⟩

/-- C7 on partition 0 of the ring: its first exchange creates the shadow container,
and a second exchange leaves it as it is. -/
theorem ExchangeHalo_ghosts_idempotent_witness :
    ExchangeReady Example.A0 Example.xi ∧
      ∃ out, ExchangeHalo Example.A0 Example.xi Example.lrt0 = some out ∧
        out = Example.out0 ∧ out.x.ghosts = [Example.ghost0] ∧
        ∃ out2, ExchangeHalo out.A out.x out.lrt = some out2 ∧
          Event.setupGhostArrays ∉ out2.trace ∧ out2.x = out.x ∧
          out2.x.ghosts = out.x.ghosts ∧ out2.lrt = out.lrt :=
  ⟨by decide, by
    obtain ⟨out, h, _, _, _, h4⟩ :=
      ExchangeHalo_ghosts_idempotent Example.A0 Example.xi Example.lrt0 (by decide)
    have he : out = Example.out0 := Option.some.inj (h.symm.trans (by decide))
    subst he
    exact ⟨_, h, rfl, by decide, h4⟩⟩

/-- C5 on the ring, partition 0 owning the pull buffer and partition 1 reading it:
in round 0 the reader's task arrives at done generation 1 and waits for ready
generation 1; the owner arrives at ready generation 1 in round 0 and its wait of
round 1 is on the done handle of generation 2, that is for generation 1. -/
theorem ExchangeHalo_generations_witness :
    ((∀ v ∈ Example.vals0, ExchangeReady Example.A0 { Example.xi with elems := v }) ∧
      (∀ v ∈ Example.vals1, ExchangeReady Example.A1 { Example.yi with elems := v }) ∧
      (0 : Nat) < Example.A1.sclrs.numberOfSendNeighbors.toNat ∧
      Example.A1.synchronizers.neighbors[0]? = some Example.A0.synchronizers.mine ∧
      0 + 1 < Example.vals0.length ∧ 0 < Example.vals1.length) ∧
    (∃ AP1 xP1 lrtP1 trsP AQ1 xQ1 lrtQ1 trsQ,
      exchangeRounds Example.A0 Example.xi Example.lrt0 Example.vals0 =
        some (AP1, xP1, lrtP1, trsP) ∧
      exchangeRounds Example.A1 Example.yi Example.lrt0 Example.vals1 =
        some (AQ1, xQ1, lrtQ1, trsQ) ∧
      ∃ trP trP1 trQ tl a w r m pre post pre1 post1,
        trsP[0]? = some trP ∧ trsP[0 + 1]? = some trP1 ∧ trsQ[0]? = some trQ ∧
        (tasksOf trQ)[0]? = some tl ∧
        tl.arrivalBarriers = [a] ∧ waitsOf trP1 = [w] ∧
        a.id = w.id ∧ a.arrivalGeneration = w.awaitedGeneration ∧
        w = advance_phase_barrier a ∧
        trP1 = pre ++ Event.wait w :: post ∧ (∀ i, Event.pack i ∉ pre) ∧
        tl.waitBarriers = [r] ∧ arrivalsOf trP = [(m, 1)] ∧
        r.id = m.id ∧ r.awaitedGeneration = m.arrivalGeneration ∧
        r = advance_phase_barrier m ∧
        trP = pre1 ++ Event.arrive m 1 :: post1 ∧ (∀ i, Event.pack i ∉ post1)) ∧
    (exchangeRounds Example.A0 Example.xi Example.lrt0 Example.vals0).map
        (fun s => s.2.2.2.map waitsOf) =
      some [[{ id := 1, gen := 1 }], [{ id := 1, gen := 2 }]] ∧
    (exchangeRounds Example.A1 Example.yi Example.lrt0 Example.vals1).map
        (fun s => s.2.2.2.map (fun t => (tasksOf t).map TaskLauncher.arrivalBarriers)) =
      some [[[{ id := 1, gen := 1 }]]] :=
  ⟨⟨by decide, by decide, by decide, by decide, by decide, by decide⟩,
    ExchangeHalo_generations Example.A0 Example.A1 Example.xi Example.yi Example.lrt0
      Example.lrt0 Example.vals0 Example.vals1 0 0 (by decide) (by decide) (by decide)
      (by decide) (by decide) (by decide),
    by decide, by decide⟩

end ExchangeProofs
end CODY

namespace CODY

/-! ## Properties of an exchange round -/

section RoundProofs

variable {α : Type}

theorem step_parts_of_run (sys sys1 : System α) (i : Nat)
    (h : step sys (Action.run i) = some sys1) :
    ∃ tl srcrr dstrr seg owner,
      sys.pending[i]? = some tl ∧ tl.waitBarriers.all (triggered sys.arrivals) = true ∧
      tl.regionRequirements = [srcrr, dstrr] ∧
      sys.segments.lookup srcrr.region = some seg ∧ sys.parts[seg.owner]? = some owner ∧
      sys1 = { sys with
        shadows := (dstrr.region,
          (owner.A.pullBuffer.elems.drop seg.offset).take seg.length) :: sys.shadows
        arrivals := sys.arrivals ++ tl.arrivalBarriers.map (fun pb => (pb, 1))
        pending := sys.pending.eraseIdx i } := by
  simp only [step] at h
  split at h
  · exact absurd h (by simp)
  · rename_i tl htl
    split at h
    · rename_i hw
      split at h
      · exact absurd h (by simp)
      · rename_i sys2 hcopy
        unfold regionToRegionCopy at hcopy
        split at hcopy
        · rename_i srcrr dstrr hrr
          split at hcopy
          · exact absurd hcopy (by simp)
          · rename_i seg hseg
            split at hcopy
            · exact absurd hcopy (by simp)
            · rename_i owner howner
              refine ⟨tl, srcrr, dstrr, seg, owner, htl, hw, hrr, hseg, howner, ?_⟩
              rw [← Option.some.inj h, ← Option.some.inj hcopy]
        · exact absurd hcopy (by simp)
    · exact absurd h (by simp)

theorem step_parts_of_call (sys sys1 : System α) (p : Nat)
    (h : step sys (Action.call p) = some sys1) :
    ∃ part out, sys.parts[p]? = some part ∧
      ExchangeHalo part.A part.x sys.lrt = some out ∧
      sys1 = { sys with
        parts := sys.parts.set p { A := out.A, x := out.x }
        lrt := out.lrt
        arrivals := sys.arrivals ++ arrivalsOf out.trace
        pending := sys.pending ++ tasksOf out.trace } := by
  simp only [step] at h
  split at h
  · exact absurd h (by simp)
  · rename_i part hpart
    split at h
    · exact absurd h (by simp)
    · rename_i out hout
      exact ⟨part, out, hpart, hout, (Option.some.inj h).symm⟩

/-- A partition that does not call keeps its state through a schedule. -/
theorem runSchedule_frame :
    ∀ (acts : List Action) (sys sys1 : System α) (p : Nat),
      runSchedule sys acts = some sys1 → p ∉ callsOf acts →
      sys1.parts[p]? = sys.parts[p]?
  | [], sys, sys1, p, h, _ => by
    simp only [runSchedule, Option.some.injEq] at h
    rw [h]
  | a :: acts, sys, sys1, p, h, hp => by
    unfold runSchedule at h
    split at h
    · exact absurd h (by simp)
    · rename_i sys2 hstep
      cases a with
      | call q =>
        simp only [callsOf, List.mem_cons, not_or] at hp
        obtain ⟨part, out, _, _, rfl⟩ := step_parts_of_call sys sys2 q hstep
        rw [runSchedule_frame acts _ sys1 p h hp.2]
        simp only
        rw [List.getElem?_set_ne (fun e => hp.1 e.symm)]
      | run i =>
        simp only [callsOf] at hp
        obtain ⟨_, _, _, _, _, _, _, _, _, _, rfl⟩ := step_parts_of_run sys sys2 i hstep
        rw [runSchedule_frame acts _ sys1 p h hp]

/-- A schedule never changes the values or the address of a partition's vector. -/
theorem runSchedule_elems :
    ∀ (acts : List Action) (sys sys1 : System α) (p : Nat) (part : Partition α),
      runSchedule sys acts = some sys1 → sys.parts[p]? = some part →
      ∃ part1, sys1.parts[p]? = some part1 ∧ part1.x.elems = part.x.elems ∧
        part1.x.data = part.x.data
  | [], sys, sys1, p, part, h, hp => by
    simp only [runSchedule, Option.some.injEq] at h
    subst h
    exact ⟨part, hp, rfl, rfl⟩
  | a :: acts, sys, sys1, p, part, h, hp => by
    unfold runSchedule at h
    split at h
    · exact absurd h (by simp)
    · rename_i sys2 hstep
      cases a with
      | call q =>
        obtain ⟨pt, out, hpt, hout, rfl⟩ := step_parts_of_call sys sys2 q hstep
        by_cases hqp : q = p
        · subst hqp
          rw [hp] at hpt
          have e := Option.some.inj hpt
          subst e
          obtain ⟨x1, x2, _⟩ := ExchangeHalo_x _ _ _ _ hout
          obtain ⟨part1, g1, g2, g3⟩ := runSchedule_elems acts _ sys1 q
            { A := out.A, x := out.x } h
            (List.getElem?_set_self (List.getElem?_eq_some.mp hp).1)
          exact ⟨part1, g1, by rw [g2]; exact x1, by rw [g3]; exact x2⟩
        · exact runSchedule_elems acts _ sys1 p part h
            (by simp only; rw [List.getElem?_set_ne hqp]; exact hp)
      | run i =>
        obtain ⟨_, _, _, _, _, _, _, _, _, _, rfl⟩ := step_parts_of_run sys sys2 i hstep
        exact runSchedule_elems acts _ sys1 p part h hp

/-- C6: on a matrix and a vector satisfying the preconditions `ExchangeHalo`
completes and leaves every entry of the vector as it was, at the same address;
every task it launches reads a region of a neighbor's pull buffer and writes
(write-discard) exactly one region, a shadow container of the vector; and however
the calls and the launched tasks of a round are scheduled, every partition's
vector keeps its values. -/
theorem ExchangeHalo_frame (A : SparseMatrix α) (x : Array α) (lrt : Runtime)
    (hready : ExchangeReady A x) :
    ∃ out, ExchangeHalo A x lrt = some out ∧
    out.x.elems = x.elems ∧ out.x.data = x.data ∧
      (∀ i : Nat, out.x.elems[i]? = x.elems[i]?) ∧
      (∀ (sys sys1 : System α) (acts : List Action) (p : Nat) (part : Partition α),
        runSchedule sys acts = some sys1 → sys.parts[p]? = some part →
        ∃ part1, sys1.parts[p]? = some part1 ∧ part1.x.elems = part.x.elems ∧
          part1.x.data = part.x.data) ∧
      ∀ tl ∈ tasksOf out.trace, ∃ srcArray dstArray,
        srcArray ∈ A.ghostArrays.map Prod.snd ∧ dstArray ∈ out.x.ghosts ∧
        tl.regionRequirements =
          [{ region := srcArray.logicalRegion, privilege := Privilege.READ_ONLY,
             coherence := Coherence.EXCLUSIVE, parent := srcArray.parentLogicalRegion,
             fields := [srcArray.fid] },
           { region := dstArray.logicalRegion, privilege := Privilege.WRITE_DISCARD,
             coherence := Coherence.EXCLUSIVE, parent := dstArray.parentLogicalRegion,
             fields := [dstArray.fid] }] := by
  obtain ⟨out, h⟩ := ExchangeHalo_completes A x lrt hready
  refine ⟨out, h, ?_⟩
  obtain ⟨hx1, hx2, _⟩ := ExchangeHalo_x A x lrt out h
  refine ⟨hx1, hx2, ?_, ?_, ?_⟩
  · intro i
    rw [hx1]
  · intro sys sys1 acts p part hrun hp
    exact runSchedule_elems acts sys sys1 p part hrun hp
  intro tl htl
  obtain ⟨n, nid, s, d, nb, _, _, e2, e4, _, rfl⟩ := ExchangeHalo_tasks A x lrt out h tl htl
  have hd : d ∈ out.x.ghosts := by
    obtain ⟨hlt, heq⟩ := List.getElem?_eq_some.mp e4
    rw [← heq]
    exact List.getElem_mem _
  refine ⟨s, d, ?_, hd, rfl⟩
  rw [List.mem_map]
  exact ⟨(nid, s), lookup_mem _ _ _ e2, rfl⟩

/-- C6 on partition 0 of the ring: the vector still holds `[1, 2, 3, 4]` after its
call, and after the whole round. -/
theorem ExchangeHalo_frame_witness :
    ExchangeReady Example.A0 Example.xi ∧
      (∃ out, ExchangeHalo Example.A0 Example.xi Example.lrt0 = some out ∧
        out = Example.out0 ∧ out.x.elems = [1, 2, 3, 4] ∧ out.x.data = Example.xi.data) ∧
      Example.ringAfter.parts.map (fun p => p.x.elems) = [[1, 2, 3, 4], [5, 6, 7, 8]] :=
  ⟨by decide, by
    obtain ⟨out, h, h1, h2, _⟩ :=
      ExchangeHalo_frame Example.A0 Example.xi Example.lrt0 (by decide)
    have he : out = Example.out0 := Option.some.inj (h.symm.trans (by decide))
    exact ⟨out, h, he, h1, h2⟩,
    by decide⟩

theorem mem_of_getElem? {β : Type} (l : List β) (i : Nat) (a : β) (h : l[i]? = some a) :
    a ∈ l := by
  obtain ⟨hlt, heq⟩ := List.getElem?_eq_some.mp h
  rw [← heq]
  exact List.getElem_mem _

theorem index_eq_of_nodup_map {β γ : Type} (f : β → γ) (l : List β)
    (hnd : (l.map f).Nodup) (i j : Nat) (a b : β) (hi : l[i]? = some a) (hj : l[j]? = some b)
    (hf : f a = f b) : i = j := by
  obtain ⟨hi1, hi2⟩ := List.getElem?_eq_some.mp hi
  obtain ⟨hj1, hj2⟩ := List.getElem?_eq_some.mp hj
  have h1 : i < (l.map f).length := by simpa using hi1
  have h2 : j < (l.map f).length := by simpa using hj1
  have : (l.map f)[i] = (l.map f)[j] := by
    simp only [List.getElem_map, hi2, hj2, hf]
  exact (List.Nodup.getElem_inj_iff hnd).mp this

/-- What a call fixes about the neighbor slots of its partition. -/
theorem ExchangeHalo_slots (part0 : Partition α) (lrt : Runtime) (out : ExchangeOut α)
    (h : ExchangeHalo part0.A part0.x lrt = some out) :
    out.A.sclrs = part0.A.sclrs ∧ out.A.neighbors = part0.A.neighbors ∧
      out.A.ghostArrays = part0.A.ghostArrays ∧
      arrivalsOf out.trace = [(part0.A.synchronizers.mine.ready, 1)] ∧
      (∀ tl ∈ tasksOf out.trace, ∃ n, n < part0.A.sclrs.numberOfSendNeighbors.toNat ∧
        slotLauncher part0 { A := out.A, x := out.x } n = some tl) ∧
      (∀ n, n < part0.A.sclrs.numberOfSendNeighbors.toNat →
        ∃ tl dstArray, slotLauncher part0 { A := out.A, x := out.x } n = some tl ∧
          tl ∈ tasksOf out.trace ∧ out.x.ghosts[n]? = some dstArray) := by
  obtain ⟨_, _, _, _, _, _, _, _, hA, _⟩ := ExchangeHalo_shape _ _ _ _ h
  obtain ⟨_, ha, _, _⟩ := ExchangeHalo_projections _ _ _ _ h
  refine ⟨by rw [hA], by rw [hA], by rw [hA], ha, ?_, ?_⟩
  · intro tl htl
    obtain ⟨n, nid, s, d, nb, hn, e1, e2, e4, e6, rfl⟩ := ExchangeHalo_tasks _ _ _ _ h tl htl
    exact ⟨n, hn, by simp only [slotLauncher, e1, e4, e6, e2]⟩
  · intro n hn
    obtain ⟨nid, s, d, nb, e1, e2, _, e4, _, e6, _, e8⟩ := ExchangeHalo_neighbor _ _ _ _ h n hn
    obtain ⟨s1, d1, nb1, _, f2, f3, _⟩ := ExchangeHalo_task_at _ _ _ _ h n hn
    rw [e8] at f2
    simp only [List.cons.injEq, Event.executeTask.injEq, and_true, true_and] at f2
    refine ⟨copyLauncher s d nb, d, by simp only [slotLauncher, e1, e4, e6, e2], ?_, e4⟩
    rw [f2.2.2]
    exact mem_of_getElem? _ _ _ f3

/-- What the wiring of a slot provides. -/
theorem slotWired_spec (sys : System α) (part : Partition α) (n : Nat)
    (h : slotWired sys part n = true) :
    ∃ nid nb owner srcArray seg, part.A.neighbors[n]? = some nid ∧
      part.A.synchronizers.neighbors[n]? = some nb ∧
      sys.parts[nid.toNat]? = some owner ∧ part.A.ghostArrays.lookup nid = some srcArray ∧
      sys.segments.lookup srcArray.logicalRegion = some seg ∧
      nb.ready = owner.A.synchronizers.mine.ready ∧ seg.owner = nid.toNat ∧
      slotSegment sys.segments part.A n = some seg := by
  unfold slotWired at h
  split at h
  · rename_i nid nb h1 h2
    split at h
    · rename_i owner src h3 h4
      split at h
      · rename_i seg h5
        simp only [Bool.and_eq_true, decide_eq_true_eq] at h
        exact ⟨nid, nb, owner, src, seg, h1, h2, h3, h4, h5, h.1.2, h.2, by
          simp only [slotSegment, h1, h4, h5]⟩
      · exact absurd h (by simp)
    · exact absurd h (by simp)
  · exact absurd h (by simp)

/-- The parts of a slot's launcher. -/
theorem slotLauncher_spec (part0 part : Partition α) (n : Nat) (tl : TaskLauncher)
    (h : slotLauncher part0 part n = some tl) :
    ∃ nid srcArray dstArray nb, part0.A.neighbors[n]? = some nid ∧
      part0.A.ghostArrays.lookup nid = some srcArray ∧
      part.x.ghosts[n]? = some dstArray ∧
      part0.A.synchronizers.neighbors[n]? = some nb ∧
      tl = copyLauncher srcArray dstArray nb := by
  unfold slotLauncher at h
  split at h
  · rename_i nid dst nb h1 h2 h3
    split at h
    · rename_i src h4
      exact ⟨nid, src, dst, nb, h1, h4, h2, h3, (Option.some.inj h).symm⟩
    · exact absurd h (by simp)
  · exact absurd h (by simp)

theorem segmentValues_congr (s s1 : System α) (seg : Segment)
    (h : s1.parts[seg.owner]? = s.parts[seg.owner]?) :
    segmentValues s1 seg = segmentValues s seg := by
  unfold segmentValues
  rw [h]

/-- The invariant survives a call of a partition that has not called yet. -/
theorem RoundInv_call (sys0 s s1 : System α) (called : List Nat) (p : Nat)
    (hw : Wired sys0) (hinv : RoundInv sys0 s called)
    (hstep : step s (Action.call p) = some s1) (hp : p ∉ called) :
    RoundInv sys0 s1 (p :: called) := by
  obtain ⟨_, _, hnd, _, hslots⟩ := hw
  obtain ⟨ia, ic, id, ie, if_, ig⟩ := hinv
  obtain ⟨part, out, hpart, hout, rfl⟩ := step_parts_of_call s s1 p hstep
  have hpart0 : sys0.parts[p]? = some part := by rw [← ic p hp]; exact hpart
  have hplt : p < s.parts.length := (List.getElem?_eq_some.mp hpart).1
  have hself : (s.parts.set p { A := out.A, x := out.x })[p]? =
      some { A := out.A, x := out.x } := List.getElem?_set_self hplt
  have hother : ∀ q, q ≠ p → (s.parts.set p { A := out.A, x := out.x })[q]? = s.parts[q]? :=
    fun q hq => List.getElem?_set_ne (fun e => hq e.symm)
  have hne : ∀ q, q ∈ called → q ≠ p := fun q hq e => hp (e ▸ hq)
  obtain ⟨_, _, _, harr, htasks, hslot⟩ := ExchangeHalo_slots part s.lrt out hout
  refine ⟨ia, ?_, ?_, ?_, ?_, ?_⟩
  · intro q hq
    simp only [List.mem_cons, not_or] at hq
    simp only
    rw [hother q hq.1]
    exact ic q hq.2
  · intro q hq
    rcases List.mem_cons.mp hq with rfl | hq
    · exact ⟨part, s.lrt, out, hpart0, hout, hself⟩
    · obtain ⟨part0, lrt, o, e1, e2, e3⟩ := id q hq
      exact ⟨part0, lrt, o, e1, e2, by simp only; rw [hother q (hne q hq)]; exact e3⟩
  · intro a ha q part0 hq hid
    simp only at ha
    rcases List.mem_append.mp ha with ha | ha
    · exact List.mem_cons_of_mem _ (ie a ha q part0 hq hid)
    · rw [harr] at ha
      simp only [List.mem_singleton] at ha
      subst ha
      have : q = p := index_eq_of_nodup_map _ _ hnd q p part0 part hq hpart0 hid.symm
      rw [this]
      exact List.mem_cons_self _ _
  · intro tl htl
    simp only at htl
    rcases List.mem_append.mp htl with htl | htl
    · obtain ⟨q, part0, pt, n, e1, e2, e3, e4, e5⟩ := if_ tl htl
      exact ⟨q, part0, pt, n, List.mem_cons_of_mem _ e1, e2,
        by simp only; rw [hother q (hne q e1)]; exact e3, e4, e5⟩
    · obtain ⟨n, hn, hl⟩ := htasks tl htl
      exact ⟨p, part, _, n, List.mem_cons_self _ _, hpart0, hself, hn, hl⟩
  · intro q hq part0 pt hq0 hqs n hn
    simp only at hqs
    rcases List.mem_cons.mp hq with rfl | hq
    · rw [hpart0] at hq0
      have e0 := Option.some.inj hq0
      subst e0
      rw [hself] at hqs
      have e1 := Option.some.inj hqs
      subst e1
      obtain ⟨tl, dst, h1, h2, h3⟩ := hslot n hn
      obtain ⟨_, _, _, _, seg, _, _, _, _, _, _, _, h4⟩ :=
        slotWired_spec sys0 part n (hslots part (mem_of_getElem? _ _ _ hpart0) n hn)
      exact ⟨tl, dst, seg, h1, h3, h4, Or.inl (List.mem_append_right _ h2)⟩
    · rw [hother q (hne q hq)] at hqs
      obtain ⟨tl, dst, seg, h1, h2, h3, h4⟩ := ig q hq part0 pt hq0 hqs n hn
      refine ⟨tl, dst, seg, h1, h2, h3, ?_⟩
      rcases h4 with h4 | ⟨h5, h6, h7⟩
      · exact Or.inl (List.mem_append_left _ h4)
      · refine Or.inr ⟨List.mem_cons_of_mem _ h5, h6, ?_⟩
        rw [h7]
        exact (segmentValues_congr _ _ seg (hother _ (hne _ h5))).symm

theorem eq_of_mem_not_mem_eraseIdx {β : Type} (l : List β) (i : Nat) (a b : β)
    (hi : l[i]? = some a) (hb : b ∈ l) (hnb : b ∉ l.eraseIdx i) : b = a := by
  obtain ⟨j, hj⟩ := List.mem_iff_getElem?.mp hb
  by_cases hji : j = i
  · subst hji
    rw [hi] at hj
    exact (Option.some.inj hj).symm
  · exact absurd (List.mem_eraseIdx_iff_getElem?.mpr ⟨j, hji, hj⟩) hnb

theorem lookup_cons_self {β : Type} (k : Nat) (v : β) (l : List (Nat × β)) :
    List.lookup k ((k, v) :: l) = some v := by
  simp [List.lookup_cons]

theorem lookup_cons_ne {β : Type} (k k1 : Nat) (v : β) (l : List (Nat × β)) (h : k ≠ k1) :
    List.lookup k ((k1, v) :: l) = List.lookup k l := by
  have : (k == k1) = false := by simpa using h
  simp [List.lookup_cons, this]

/-- The invariant survives the run of a pending task, the shadow containers of the
partitions that have called being distinct regions. -/
theorem RoundInv_run (sys0 s s1 : System α) (called : List Nat) (i : Nat)
    (hw : Wired sys0) (hinv : RoundInv sys0 s called)
    (hstep : step s (Action.run i) = some s1)
    (hdist : ∀ (q q1 : Nat) (part part1 : Partition α) (n n1 : Nat) (d d1 : LogicalArray),
      q ∈ called → q1 ∈ called →
      s.parts[q]? = some part → s.parts[q1]? = some part1 →
      n < part.A.sclrs.numberOfSendNeighbors.toNat →
      n1 < part1.A.sclrs.numberOfSendNeighbors.toNat →
      part.x.ghosts[n]? = some d → part1.x.ghosts[n1]? = some d1 →
      d.logicalRegion = d1.logicalRegion → q = q1 ∧ n = n1) :
    RoundInv sys0 s1 called := by
  obtain ⟨_, _, _, hdone, hslots⟩ := hw
  obtain ⟨ia, ic, id, ie, if_, ig⟩ := hinv
  obtain ⟨tl, srcrr, dstrr, seg, owner, hpend, hwait, hrr, hseg, howner, rfl⟩ :=
    step_parts_of_run s s1 i hstep
  have htl : tl ∈ s.pending := mem_of_getElem? _ _ _ hpend
  obtain ⟨q, part0, part, n, hq, hq0, hqs, hn, hl⟩ := if_ tl htl
  obtain ⟨nid, src, dst, nb, l1, l2, l3, l4, rfl⟩ := slotLauncher_spec part0 part n tl hl
  have hmem0 : part0 ∈ sys0.parts := mem_of_getElem? _ _ _ hq0
  obtain ⟨nid1, nb1, owner0, src1, seg1, w1, w2, w3, w4, w5, w6, w7, w8⟩ :=
    slotWired_spec sys0 part0 n (hslots part0 hmem0 n hn)
  rw [l1] at w1
  have e1 := Option.some.inj w1
  subst e1
  rw [l4] at w2
  have e2 := Option.some.inj w2
  subst e2
  rw [l2] at w4
  have e3 := Option.some.inj w4
  subst e3
  simp only [copyLauncher, List.cons.injEq, and_true] at hrr
  obtain ⟨rfl, rfl⟩ := hrr
  simp only at hseg
  rw [ia, w5] at hseg
  have e4 := Option.some.inj hseg
  subst e4
  -- the owner has called
  have hcalled : seg1.owner ∈ called := by
    simp only [copyLauncher, List.all_cons, List.all_nil, Bool.and_true] at hwait
    unfold triggered at hwait
    obtain ⟨a, ha, hcond⟩ := List.any_eq_true.mp hwait
    simp only [Bool.and_eq_true, beq_iff_eq, decide_eq_true_eq, advance_phase_barrier] at hcond
    rw [w7]
    exact ie a ha nid.toNat owner0 w3 (by rw [hcond.1.1, w6])
  have hsv : segmentValues s seg1 =
      some ((owner.A.pullBuffer.elems.drop seg1.offset).take seg1.length) := by
    simp only [segmentValues, howner]
  have hpsclrs : part.A.sclrs = part0.A.sclrs := by
    obtain ⟨p0, lrt, o, e1, e2, e3⟩ := id q hq
    rw [hq0] at e1
    rw [hqs] at e3
    rw [Option.some.inj e3, Option.some.inj e1]
    exact (ExchangeHalo_slots _ _ _ e2).1
  refine ⟨ia, ic, id, ?_, ?_, ?_⟩
  · intro a ha p p0 hp0 hid
    simp only at ha
    rcases List.mem_append.mp ha with ha | ha
    · exact ie a ha p p0 hp0 hid
    · simp only [copyLauncher, List.map_cons, List.map_nil, List.mem_singleton] at ha
      subst ha
      exact absurd hid (hdone part0 hmem0 nb (mem_of_getElem? _ _ _ l4) p0
        (mem_of_getElem? _ _ _ hp0))
  · intro t ht
    exact if_ t (List.mem_of_mem_eraseIdx ht)
  · intro q1 hq1 p0 pt hp0 hpt n1 hn1
    obtain ⟨t, d1, sg, g1, g2, g3, g4⟩ := ig q1 hq1 p0 pt hp0 hpt n1 hn1
    refine ⟨t, d1, sg, g1, g2, g3, ?_⟩
    have hptsclrs : pt.A.sclrs = p0.A.sclrs := by
      obtain ⟨p0', lrt, o, e1, e2, e3⟩ := id q1 hq1
      rw [hp0] at e1
      simp only at hpt
      rw [hpt] at e3
      rw [Option.some.inj e3, Option.some.inj e1]
      exact (ExchangeHalo_slots _ _ _ e2).1
    have hsame : q1 = q → n1 = n → sg = seg1 := by
      intro hq hn
      subst hq
      subst hn
      rw [hq0] at hp0
      rw [← Option.some.inj hp0, w8] at g3
      exact (Option.some.inj g3).symm
    have hhit : sg = seg1 → d1.logicalRegion = dst.logicalRegion →
        seg1.owner ∈ called ∧
          (List.lookup d1.logicalRegion ((dst.logicalRegion,
            (owner.A.pullBuffer.elems.drop seg1.offset).take seg1.length) ::
              s.shadows)).isSome = true ∧
          List.lookup d1.logicalRegion ((dst.logicalRegion,
            (owner.A.pullBuffer.elems.drop seg1.offset).take seg1.length) :: s.shadows) =
            segmentValues s seg1 := by
      intro _ hd
      rw [hd, lookup_cons_self, hsv]
      exact ⟨hcalled, rfl, rfl⟩
    simp only
    rcases g4 with g4 | ⟨g5, g6, g7⟩
    · by_cases hin : t ∈ s.pending.eraseIdx i
      · exact Or.inl hin
      · have ht := eq_of_mem_not_mem_eraseIdx _ _ _ _ hpend g4 hin
        obtain ⟨nid2, src2, dst2, nb2, m1, m2, m3, m4, m5⟩ := slotLauncher_spec p0 pt n1 t g1
        rw [m3] at g2
        have e5 := Option.some.inj g2
        subst e5
        rw [m5] at ht
        simp only [copyLauncher, TaskLauncher.mk.injEq, List.cons.injEq,
          RegionRequirement.mk.injEq, and_true, true_and] at ht
        have hsg : sg = seg1 := by
          simp only [slotSegment, m1, m2] at g3
          rw [ht.1.1.1, w5] at g3
          exact (Option.some.inj g3).symm
        right
        rw [hsg]
        have := hhit hsg ht.1.2.1
        exact ⟨this.1, this.2.1, by rw [this.2.2]; exact segmentValues_congr _ _ _ rfl⟩
    · right
      by_cases hd : d1.logicalRegion = dst.logicalRegion
      · have hqn := hdist q1 q pt part n1 n d1 dst hq1 hq hpt hqs (by rw [hptsclrs]; exact hn1)
          (by rw [hpsclrs]; exact hn) g2 l3 hd
        have hsg := hsame hqn.1 hqn.2
        rw [hsg]
        have := hhit hsg hd
        exact ⟨this.1, this.2.1, by rw [this.2.2]; exact segmentValues_congr _ _ _ rfl⟩
      · rw [lookup_cons_ne _ _ _ _ hd]
        exact ⟨g5, g6, by rw [g7]; exact segmentValues_congr _ _ _ rfl⟩

/-- Distinct regions of the shadow containers in use: a region determines the
partition and the slot. -/
theorem distinct_of_nodup (sys : System α) (h : (shadowRegions sys).Nodup) :
    ∀ (q q1 : Nat) (part part1 : Partition α) (n n1 : Nat) (d d1 : LogicalArray),
      sys.parts[q]? = some part → sys.parts[q1]? = some part1 →
      n < part.A.sclrs.numberOfSendNeighbors.toNat →
      n1 < part1.A.sclrs.numberOfSendNeighbors.toNat →
      part.x.ghosts[n]? = some d → part1.x.ghosts[n1]? = some d1 →
      d.logicalRegion = d1.logicalRegion → q = q1 ∧ n = n1 := by
  intro q q1 part part1 n n1 d d1 hq hq1 hn hn1 hd hd1 hreg
  unfold shadowRegions at h
  obtain ⟨h1, h2⟩ := List.nodup_flatMap.mp h
  have hmem : ∀ (pt : Partition α) (m : Nat) (g : LogicalArray),
      m < pt.A.sclrs.numberOfSendNeighbors.toNat → pt.x.ghosts[m]? = some g →
      (pt.x.ghosts.take pt.A.sclrs.numberOfSendNeighbors.toNat)[m]? = some g := by
    intro pt m g hm hg
    rw [List.getElem?_take, if_pos hm, hg]
  have hin : ∀ (pt : Partition α) (m : Nat) (g : LogicalArray),
      m < pt.A.sclrs.numberOfSendNeighbors.toNat → pt.x.ghosts[m]? = some g →
      g.logicalRegion ∈ (pt.x.ghosts.take pt.A.sclrs.numberOfSendNeighbors.toNat).map
        (fun g : LogicalArray => g.logicalRegion) :=
    fun pt m g hm hg => List.mem_map.mpr ⟨g, mem_of_getElem? _ _ _ (hmem pt m g hm hg), rfl⟩
  obtain ⟨hqlt, hqe⟩ := List.getElem?_eq_some.mp hq
  obtain ⟨hq1lt, hq1e⟩ := List.getElem?_eq_some.mp hq1
  have hpw := List.pairwise_iff_getElem.mp h2
  have hqq : q = q1 := by
    by_contra hne
    rcases Nat.lt_or_gt_of_ne hne with hlt | hgt
    · have := hpw q q1 hqlt hq1lt hlt
      rw [hqe, hq1e] at this
      exact this (hin part n d hn hd) (hreg ▸ hin part1 n1 d1 hn1 hd1)
    · have := hpw q1 q hq1lt hqlt hgt
      rw [hqe, hq1e] at this
      exact this (hin part1 n1 d1 hn1 hd1) (hreg ▸ hin part n d hn hd)
  subst hqq
  rw [hq] at hq1
  have e := Option.some.inj hq1
  subst e
  exact ⟨rfl, index_eq_of_nodup_map _ _ (h1 part (mem_of_getElem? _ _ _ hq)) n n1 d d1
    (hmem part n d hn hd) (hmem part n1 d1 hn1 hd1) hreg⟩

/-- The invariant holds at the end of every schedule in which no partition calls
twice. -/
theorem RoundInv_schedule (sys0 sys1 : System α) (hw : Wired sys0)
    (hnd : (shadowRegions sys1).Nodup) :
    ∀ (acts : List Action) (s : System α) (called : List Nat),
      RoundInv sys0 s called → runSchedule s acts = some sys1 →
      (callsOf acts).Nodup → (∀ p ∈ callsOf acts, p ∉ called) →
      ∃ called1, (∀ p, p ∈ called1 ↔ p ∈ called ∨ p ∈ callsOf acts) ∧
        RoundInv sys0 sys1 called1
  | [], s, called, hinv, hrun, _, _ => by
    simp only [runSchedule, Option.some.injEq] at hrun
    subst hrun
    exact ⟨called, by simp [callsOf], hinv⟩
  | a :: acts, s, called, hinv, hrun, hnodup, hdisj => by
    have hrun0 := hrun
    unfold runSchedule at hrun
    split at hrun
    · exact absurd hrun (by simp)
    · rename_i s2 hstep
      cases a with
      | call p =>
        simp only [callsOf, List.nodup_cons] at hnodup
        have hp : p ∉ called := hdisj p (by simp [callsOf])
        obtain ⟨called1, h1, h2⟩ := RoundInv_schedule sys0 sys1 hw hnd acts s2 (p :: called)
          (RoundInv_call sys0 s s2 called p hw hinv hstep hp) hrun hnodup.2
          (fun r hr hmem => by
            rcases List.mem_cons.mp hmem with rfl | hmem
            · exact hnodup.1 hr
            · exact hdisj r (by simp [callsOf, hr]) hmem)
        refine ⟨called1, fun r => ?_, h2⟩
        rw [h1 r]
        simp only [callsOf, List.mem_cons]
        tauto
      | run i =>
        simp only [callsOf] at hnodup hdisj
        have hdist := distinct_of_nodup sys1 hnd
        have hfr : ∀ q, q ∈ called → sys1.parts[q]? = s.parts[q]? := fun q hq =>
          runSchedule_frame (Action.run i :: acts) s sys1 q hrun0
            (fun hmem => hdisj q (by simpa [callsOf] using hmem) hq)
        obtain ⟨called1, h1, h2⟩ := RoundInv_schedule sys0 sys1 hw hnd acts s2 called
          (RoundInv_run sys0 s s2 called i hw hinv hstep
            (fun q q1 part part1 n n1 d d1 hq hq1 hp hp1 =>
              hdist q q1 part part1 n n1 d d1 (by rw [hfr q hq]; exact hp)
                (by rw [hfr q1 hq1]; exact hp1)))
          hrun hnodup hdisj
        exact ⟨called1, fun r => by rw [h1 r]; simp [callsOf], h2⟩

/-- The state setup leaves satisfies the invariant, nobody having called. -/
theorem RoundInv_init (sys0 : System α) (hw : Wired sys0) : RoundInv sys0 sys0 [] := by
  obtain ⟨h1, h2, _⟩ := hw
  refine ⟨rfl, fun _ _ => rfl, fun p hp => absurd hp (List.not_mem_nil _), ?_, ?_,
    fun q hq => absurd hq (List.not_mem_nil _)⟩
  · intro a ha
    rw [h2] at ha
    exact absurd ha (List.not_mem_nil _)
  · intro tl htl
    rw [h1] at htl
    exact absurd htl (List.not_mem_nil _)

/-- After a completed call the pull buffer holds `x[elementsToSend[j]]` at every
position `j < totalToBeSent`. -/
theorem ExchangeHalo_packed (A : SparseMatrix α) (x : Array α) (lrt : Runtime)
    (out : ExchangeOut α) (h : ExchangeHalo A x lrt = some out) :
    ∃ es, out.A.elementsToSend = some es ∧
      ∀ j, j < out.A.sclrs.totalToBeSent.toNat →
        ∃ e v, es[j]? = some e ∧ out.x.elems[e.toNat]? = some v ∧
          out.A.pullBuffer.elems[j]? = some v := by
  obtain ⟨es, pulled, g1, _, _, _, g5, _, g7, _⟩ := ExchangeHalo_shape A x lrt out h
  obtain ⟨_, s2, _⟩ := packLoop_spec _ _ _ _ _ _ g5
  refine ⟨es, by rw [g7]; exact g1, ?_⟩
  intro j hj
  have hj2 : j < A.sclrs.totalToBeSent.toNat := by rw [g7] at hj; exact hj
  obtain ⟨e, v, a1, _, a3, a4, _⟩ := s2 j (Nat.zero_le _) (by omega)
  exact ⟨e, v, a1, a3, by rw [g7]; exact a4⟩

theorem setupLoop_regions (A : SparseMatrix α) (nextRegion : Nat) :
    ∀ (nids : List Int) (n : Nat) (ghosts : List LogicalArray),
      setupLoop A nextRegion nids n = some ghosts →
      ghosts.map (fun g => g.logicalRegion) = List.range' (nextRegion + n) nids.length
  | [], n, ghosts, h => by
    simp only [setupLoop, Option.some.injEq] at h
    subst h
    rfl
  | nid :: nids, n, ghosts, h => by
    unfold setupLoop at h
    split at h
    · exact absurd h (by simp)
    · rename_i src hsrc
      split at h
      · exact absurd h (by simp)
      · rename_i gs hgs
        have ih := setupLoop_regions A nextRegion nids (n + 1) gs hgs
        rw [← Option.some.inj h]
        simp only [List.map_cons, List.length_cons, List.range'_succ, ih]
        rfl

/-- The regions a call leaves its partition with: those it had, or the block of
fresh regions the setup allocated. -/
theorem ExchangeHalo_regions (part : Partition α) (lrt : Runtime) (out : ExchangeOut α)
    (h : ExchangeHalo part.A part.x lrt = some out) :
    (ghostRegions { A := out.A, x := out.x } = ghostRegions part ∧ out.lrt = lrt ∧
        part.x.hasGhosts = true) ∨
      (ghostRegions part = [] ∧
        ghostRegions { A := out.A, x := out.x } =
          List.range' lrt.nextRegion part.A.sclrs.numberOfSendNeighbors.toNat ∧
        out.lrt.nextRegion = lrt.nextRegion + part.A.sclrs.numberOfSendNeighbors.toNat) := by
  obtain ⟨_, _, _, h2, _, _, _, _, hA, _⟩ := ExchangeHalo_shape _ _ _ _ h
  obtain ⟨_, _, hg⟩ := ExchangeHalo_x _ _ _ _ h
  have hs : out.A.sclrs = part.A.sclrs := by rw [hA]
  rcases h2 with ⟨a, b, c⟩ | ⟨a, b⟩
  · left
    refine ⟨?_, c, a⟩
    simp only [ghostRegions, b, hs, a, if_true]
  · right
    unfold SetupGhostArrays at b
    simp only at b
    split at b
    · exact absurd b (by simp)
    · rename_i hlen
      split at b
      · exact absurd b (by simp)
      · split at b
        · exact absurd b (by simp)
        · rename_i ghosts hloop
          simp only [Option.some.injEq, Prod.mk.injEq] at b
          obtain ⟨b1, b2⟩ := b
          have hreg := setupLoop_regions _ _ _ _ _ hloop
          have hl : (part.A.neighbors.take part.A.sclrs.numberOfSendNeighbors.toNat).length =
              part.A.sclrs.numberOfSendNeighbors.toNat := by
            have := List.length_take_le part.A.sclrs.numberOfSendNeighbors.toNat
              part.A.neighbors
            omega
          have hgl : ghosts.length = part.A.sclrs.numberOfSendNeighbors.toNat := by
            have := congrArg List.length hreg
            simpa [hl] using this
          refine ⟨by simp [ghostRegions, a], ?_, ?_⟩
          · simp only [ghostRegions, hg, if_true, hs]
            rw [← b1]
            simp only
            rw [List.take_of_length_le (by omega), hreg, hl]
            rfl
          · rw [← b2]
            simp only [hgl]

theorem flatMap_set {β γ : Type} (f : β → List γ) (l : List β) (p : Nat) (a b : β)
    (h : l[p]? = some a) :
    ∃ F1 F2, l.flatMap f = F1 ++ f a ++ F2 ∧ (l.set p b).flatMap f = F1 ++ f b ++ F2 := by
  obtain ⟨hp, ha⟩ := List.getElem?_eq_some.mp h
  refine ⟨(l.take p).flatMap f, (l.drop (p + 1)).flatMap f, ?_, ?_⟩
  · conv_lhs => rw [← List.take_append_drop p l, List.drop_eq_getElem_cons hp, ha]
    simp only [List.flatMap_append, List.flatMap_cons, List.append_assoc]
  · rw [List.set_eq_take_cons_drop b hp]
    simp only [List.flatMap_append, List.flatMap_cons, List.append_assoc]

/-- Freshness survives every step: a call allocates regions from the next unused
region on, a task allocates none. -/
theorem Fresh_step (s s1 : System α) (a : Action) (hf : Fresh s)
    (hstep : step s a = some s1) : Fresh s1 := by
  cases a with
  | run i =>
    obtain ⟨_, _, _, _, _, _, _, _, _, _, rfl⟩ := step_parts_of_run s s1 i hstep
    exact hf
  | call p =>
    obtain ⟨part, out, hpart, hout, rfl⟩ := step_parts_of_call s s1 p hstep
    obtain ⟨F1, F2, e1, e2⟩ := flatMap_set ghostRegions s.parts p part
      { A := out.A, x := out.x } hpart
    obtain ⟨hnd, hlt⟩ := hf
    rw [e1] at hnd hlt
    unfold Fresh
    simp only
    rw [e2]
    rcases ExchangeHalo_regions part s.lrt out hout with ⟨r1, r2, _⟩ | ⟨r1, r2, r3⟩
    · rw [r1, r2]
      exact ⟨hnd, hlt⟩
    · rw [r1] at hnd hlt
      rw [r2, r3]
      simp only [List.append_nil, List.nodup_append, List.mem_append] at hnd hlt
      obtain ⟨n1, n2, n3⟩ := hnd
      have hR : ∀ r ∈ List.range' s.lrt.nextRegion part.A.sclrs.numberOfSendNeighbors.toNat,
          s.lrt.nextRegion ≤ r ∧
            r < s.lrt.nextRegion + part.A.sclrs.numberOfSendNeighbors.toNat :=
        fun r hr => List.mem_range'_1.mp hr
      refine ⟨?_, ?_⟩
      · simp only [List.nodup_append]
        refine ⟨⟨n1, List.nodup_range' _ _, ?_⟩, n2, ?_⟩
        · intro r h1 h2
          have := hlt r (Or.inl h1)
          have := (hR r h2).1
          omega
        · intro r h1 h2
          rcases List.mem_append.mp h1 with h1 | h1
          · exact n3 h1 h2
          · have := hlt r (Or.inr h2)
            have := (hR r h1).1
            omega
      · intro r hr
        simp only [List.mem_append] at hr
        rcases hr with (hr | hr) | hr
        · have := hlt r (Or.inl hr)
          omega
        · exact (hR r hr).2
        · have := hlt r (Or.inr hr)
          omega

theorem Fresh_schedule :
    ∀ (acts : List Action) (s s1 : System α), Fresh s → runSchedule s acts = some s1 →
      Fresh s1
  | [], s, s1, hf, h => by
    simp only [runSchedule, Option.some.injEq] at h
    rw [← h]
    exact hf
  | a :: acts, s, s1, hf, h => by
    unfold runSchedule at h
    split at h
    · exact absurd h (by simp)
    · rename_i s2 hstep
      exact Fresh_schedule acts s2 s1 (Fresh_step s s2 a hf hstep) h

/-- After a schedule, a partition that called in it, or had ghosts before it, has
ghosts. -/
theorem runSchedule_ghosts :
    ∀ (acts : List Action) (s s1 : System α) (p : Nat) (part : Partition α),
      runSchedule s acts = some s1 → s.parts[p]? = some part →
      (p ∈ callsOf acts ∨ part.x.hasGhosts = true) →
      ∃ part1, s1.parts[p]? = some part1 ∧ part1.x.hasGhosts = true
  | [], s, s1, p, part, h, hp, hor => by
    simp only [runSchedule, Option.some.injEq] at h
    subst h
    rcases hor with hc | hg
    · exact absurd hc (by simp [callsOf])
    · exact ⟨part, hp, hg⟩
  | a :: acts, s, s1, p, part, h, hp, hor => by
    unfold runSchedule at h
    split at h
    · exact absurd h (by simp)
    · rename_i s2 hstep
      cases a with
      | call q =>
        obtain ⟨pt, out, hpt, hout, rfl⟩ := step_parts_of_call s s2 q hstep
        by_cases hqp : q = p
        · subst hqp
          obtain ⟨_, _, hg⟩ := ExchangeHalo_x _ _ _ _ hout
          exact runSchedule_ghosts acts _ s1 q { A := out.A, x := out.x } h
            (List.getElem?_set_self (List.getElem?_eq_some.mp hp).1) (Or.inr hg)
        · refine runSchedule_ghosts acts _ s1 p part h
            (by simp only; rw [List.getElem?_set_ne hqp]; exact hp) ?_
          rcases hor with hc | hg
          · simp only [callsOf, List.mem_cons] at hc
            rcases hc with hc | hc
            · exact absurd hc.symm hqp
            · exact Or.inl hc
          · exact Or.inr hg
      | run i =>
        obtain ⟨_, _, _, _, _, _, _, _, _, _, rfl⟩ := step_parts_of_run s s2 i hstep
        exact runSchedule_ghosts acts _ s1 p part h hp (by simpa [callsOf] using hor)

theorem runSchedule_length :
    ∀ (acts : List Action) (s s1 : System α), runSchedule s acts = some s1 →
      s1.parts.length = s.parts.length
  | [], s, s1, h => by
    simp only [runSchedule, Option.some.injEq] at h
    rw [h]
  | a :: acts, s, s1, h => by
    unfold runSchedule at h
    split at h
    · exact absurd h (by simp)
    · rename_i s2 hstep
      rw [runSchedule_length acts s2 s1 h]
      cases a with
      | call q =>
        obtain ⟨_, _, _, _, rfl⟩ := step_parts_of_call s s2 q hstep
        simp
      | run i =>
        obtain ⟨_, _, _, _, _, _, _, _, _, _, rfl⟩ := step_parts_of_run s s2 i hstep
        rfl

/-- Once every partition has called, the shadow containers in use are distinct
regions. -/
theorem shadowRegions_nodup (sys0 sys1 : System α) (acts : List Action)
    (hf : Fresh sys0) (hrun : runSchedule sys0 acts = some sys1)
    (hall : ∀ p, p < sys0.parts.length → p ∈ callsOf acts) :
    (shadowRegions sys1).Nodup := by
  have h1 := (Fresh_schedule acts sys0 sys1 hf hrun).1
  have hlen := runSchedule_length acts sys0 sys1 hrun
  have : shadowRegions sys1 = sys1.parts.flatMap ghostRegions := by
    unfold shadowRegions
    apply flatMap_congr_mem
    intro part hpart
    obtain ⟨p, hp⟩ := List.mem_iff_getElem?.mp hpart
    have hplt : p < sys0.parts.length := by
      rw [← hlen]
      exact (List.getElem?_eq_some.mp hp).1
    obtain ⟨part1, g1, g2⟩ := runSchedule_ghosts acts sys0 sys1 p sys0.parts[p] hrun
      (List.getElem?_eq_getElem hplt) (Or.inl (hall p hplt))
    rw [hp] at g1
    rw [Option.some.inj g1]
    simp only [ghostRegions, g2, if_true]
  rw [this]
  exact h1

theorem slotSegment_congr (segments : List (Nat × Segment)) (A A1 : SparseMatrix α)
    (n : Nat) (h1 : A1.neighbors = A.neighbors) (h2 : A1.ghostArrays = A.ghostArrays) :
    slotSegment segments A1 n = slotSegment segments A n := by
  unfold slotSegment
  rw [h1, h2]

theorem triggered_append (a b : List (PhaseBarrier × Nat)) (h : PhaseBarrier)
    (ht : triggered a h = true) : triggered (a ++ b) h = true := by
  unfold triggered at ht ⊢
  rw [List.any_append, ht]
  rfl

theorem runSchedule_append :
    ∀ (as bs : List Action) (s : System α),
      runSchedule s (as ++ bs) = (runSchedule s as).bind (fun s1 => runSchedule s1 bs)
  | [], _, _ => rfl
  | a :: as, bs, s => by
    simp only [List.cons_append, runSchedule]
    cases step s a with
    | none => rfl
    | some s1 => exact runSchedule_append as bs s1

theorem callsOf_append (as bs : List Action) :
    callsOf (as ++ bs) = callsOf as ++ callsOf bs := by
  induction as with
  | nil => rfl
  | cons a as ih => cases a <;> simp [callsOf, ih]

theorem callsOf_calls (l : List Nat) : callsOf (l.map Action.call) = l := by
  induction l with
  | nil => rfl
  | cons p l ih => simp [callsOf, ih]

theorem callsOf_runs (n i : Nat) : callsOf (List.replicate n (Action.run i)) = [] := by
  induction n with
  | zero => rfl
  | succ n ih => simp [List.replicate_succ, callsOf, ih]

/-- A pending task whose barrier has triggered and whose source region resolves
runs. -/
theorem step_run_ok (s : System α) (i : Nat) (tl : TaskLauncher)
    (srcrr dstrr : RegionRequirement) (seg : Segment)
    (hp : s.pending[i]? = some tl)
    (hwait : tl.waitBarriers.all (triggered s.arrivals) = true)
    (hreq : tl.regionRequirements = [srcrr, dstrr])
    (hseg : s.segments.lookup srcrr.region = some seg)
    (hown : seg.owner < s.parts.length) :
    ∃ s1, step s (Action.run i) = some s1 ∧ s1.segments = s.segments ∧
      s1.parts = s.parts ∧ s1.pending = s.pending.eraseIdx i ∧
      s1.arrivals = s.arrivals ++ tl.arrivalBarriers.map (fun pb => (pb, 1)) := by
  simp only [step, hp, hwait, if_true, regionToRegionCopy, hreq, hseg,
    List.getElem?_eq_getElem hown]
  exact ⟨_, rfl, rfl, rfl, rfl, rfl⟩

/-- When every pending task can run, running them one after the other empties the
queue. -/
theorem runSchedule_drain :
    ∀ (n : Nat) (s : System α), s.pending.length = n →
      (∀ tl ∈ s.pending, tl.waitBarriers.all (triggered s.arrivals) = true ∧
        ∃ srcrr dstrr seg, tl.regionRequirements = [srcrr, dstrr] ∧
          s.segments.lookup srcrr.region = some seg ∧ seg.owner < s.parts.length) →
      ∃ s1, runSchedule s (List.replicate n (Action.run 0)) = some s1 ∧ s1.pending = []
  | 0, s, hlen, _ => ⟨s, rfl, List.length_eq_zero.mp hlen⟩
  | n + 1, s, hlen, hrun => by
    obtain ⟨tl, rest, hpend⟩ := List.exists_cons_of_length_eq_add_one hlen
    obtain ⟨hwait, srcrr, dstrr, seg, hreq, hseg, hown⟩ :=
      hrun tl (by rw [hpend]; exact List.mem_cons_self _ _)
    obtain ⟨s1, hstep, e1, e2, e3, e4⟩ := step_run_ok s 0 tl srcrr dstrr seg
      (by rw [hpend]; exact List.getElem?_cons_zero) hwait hreq hseg hown
    have hrest : s1.pending = rest := by rw [e3, hpend]; rfl
    obtain ⟨s2, h2, h3⟩ := runSchedule_drain n s1
      (by rw [hrest]; rw [hpend] at hlen; simpa using hlen)
      (fun tl1 htl1 => by
        obtain ⟨w, sr, ds, sg, a1, a2, a3⟩ := hrun tl1 (by
          rw [hpend]; rw [hrest] at htl1; exact List.mem_cons_of_mem _ htl1)
        refine ⟨?_, sr, ds, sg, a1, by rw [e1]; exact a2, by rw [e2]; exact a3⟩
        rw [e4, List.all_eq_true]
        intro pb hpb
        exact triggered_append _ _ _ (List.all_eq_true.mp w pb hpb))
    exact ⟨s2, by simp only [List.replicate_succ, runSchedule, hstep]; exact h2, h3⟩

/-- The partitions `0 .. k-1` call one after the other: every call completes, the
callers' arrivals on their ready barriers are registered, and the pending tasks are
copy tasks of neighbor slots. -/
theorem runSchedule_calls (sys0 : System α) (hw : Wired sys0)
    (hready : ∀ part ∈ sys0.parts, ExchangeReady part.A part.x) :
    ∀ k, k ≤ sys0.parts.length →
      ∃ s, runSchedule sys0 ((List.range k).map Action.call) = some s ∧
        s.segments = sys0.segments ∧ s.parts.length = sys0.parts.length ∧
        (∀ p, k ≤ p → s.parts[p]? = sys0.parts[p]?) ∧
        (∀ p part0, p < k → sys0.parts[p]? = some part0 →
          (part0.A.synchronizers.mine.ready, 1) ∈ s.arrivals) ∧
        (∀ tl ∈ s.pending, ∃ part0 n nid srcArray dstArray nb, part0 ∈ sys0.parts ∧
          n < part0.A.sclrs.numberOfSendNeighbors.toNat ∧
          part0.A.neighbors[n]? = some nid ∧
          part0.A.ghostArrays.lookup nid = some srcArray ∧
          part0.A.synchronizers.neighbors[n]? = some nb ∧
          tl = copyLauncher srcArray dstArray nb)
  | 0, _ => by
    refine ⟨sys0, rfl, rfl, rfl, fun _ _ => rfl, fun p _ hp => by omega, ?_⟩
    rw [hw.1]
    intro tl htl
    exact absurd htl (List.not_mem_nil _)
  | k + 1, hk => by
    obtain ⟨s, h1, h2, h3, h4, h5, h6⟩ := runSchedule_calls sys0 hw hready k (by omega)
    have hk0 : k < sys0.parts.length := by omega
    have hpart0 : sys0.parts[k]? = some sys0.parts[k] := List.getElem?_eq_getElem hk0
    have hpart : s.parts[k]? = some sys0.parts[k] := by
      rw [h4 k (Nat.le_refl _)]; exact hpart0
    obtain ⟨out, hout⟩ := ExchangeHalo_completes sys0.parts[k].A sys0.parts[k].x s.lrt
      (hready _ (List.getElem_mem _))
    obtain ⟨_, q2, _, _⟩ := ExchangeHalo_projections _ _ _ _ hout
    refine ⟨{ s with
        parts := s.parts.set k { A := out.A, x := out.x }
        lrt := out.lrt
        arrivals := s.arrivals ++ arrivalsOf out.trace
        pending := s.pending ++ tasksOf out.trace }, ?_, h2, ?_, ?_, ?_, ?_⟩
    · rw [List.range_succ, List.map_append, runSchedule_append, h1]
      simp only [Option.some_bind, List.map_cons, List.map_nil, runSchedule, step, hpart, hout]
    · simp only [List.length_set]
      exact h3
    · intro p hp
      simp only
      rw [List.getElem?_set_ne (by omega)]
      exact h4 p (by omega)
    · intro p part0 hp hp0
      simp only
      by_cases hpk : p < k
      · exact List.mem_append_left _ (h5 p part0 hpk hp0)
      · have hpe : p = k := by omega
        subst hpe
        rw [hpart0] at hp0
        rw [← Option.some.inj hp0, q2]
        exact List.mem_append_right _ (List.mem_singleton.mpr rfl)
    · intro tl htl
      simp only at htl
      rcases List.mem_append.mp htl with htl | htl
      · exact h6 tl htl
      · obtain ⟨n, nid, sa, d, nb, hn, e1, e2, _, e6, e7⟩ :=
          ExchangeHalo_tasks _ _ _ _ hout tl htl
        exact ⟨sys0.parts[k], n, nid, sa, d, nb, List.getElem_mem _, hn, e1, e2, e6, e7⟩

/-- A round can be completed: from the state setup leaves, with every partition
ready, the partitions call in turn and the copy tasks then run one after the
other, which leaves no task pending. -/
theorem exchange_round_completes (sys0 : System α) (hw : Wired sys0)
    (hready : ∀ part ∈ sys0.parts, ExchangeReady part.A part.x) :
    ∃ acts sys1, runSchedule sys0 acts = some sys1 ∧
      callsOf acts = List.range sys0.parts.length ∧ sys1.pending = [] := by
  obtain ⟨s, h1, h2, h3, _, h5, h6⟩ :=
    runSchedule_calls sys0 hw hready sys0.parts.length (Nat.le_refl _)
  obtain ⟨s1, d1, d2⟩ := runSchedule_drain s.pending.length s rfl (fun tl htl => by
    obtain ⟨part0, n, nid, sa, d, nb, m, hn, e1, e2, e3, rfl⟩ := h6 tl htl
    obtain ⟨nid1, nb1, owner, src1, seg, w1, w2, w3, w4, w5, w6, w7, _⟩ :=
      slotWired_spec sys0 part0 n (hw.2.2.2.2 part0 m n hn)
    rw [e1] at w1
    have hnid := Option.some.inj w1
    subst hnid
    rw [e3] at w2
    have hnb := Option.some.inj w2
    subst hnb
    rw [e2] at w4
    have hsrc := Option.some.inj w4
    subst hsrc
    have hlt : nid.toNat < sys0.parts.length := (List.getElem?_eq_some.mp w3).1
    have harr := h5 nid.toNat owner hlt w3
    refine ⟨?_, _, _, seg, rfl, by rw [h2]; exact w5, by rw [w7, h3]; exact hlt⟩
    simp only [copyLauncher, List.all_cons, List.all_nil, Bool.and_true]
    unfold triggered
    rw [List.any_eq_true]
    refine ⟨_, harr, ?_⟩
    simp [w6, advance_phase_barrier, PhaseBarrier.arrivalGeneration,
      PhaseBarrier.awaitedGeneration])
  refine ⟨(List.range sys0.parts.length).map Action.call ++
    List.replicate s.pending.length (Action.run 0), s1, ?_, ?_, d2⟩
  · rw [runSchedule_append, h1]
    exact d1
  · rw [callsOf_append, callsOf_calls, callsOf_runs, List.append_nil]

/-- C2: start from the state setup leaves (no task pending, no arrival registered,
every neighbor slot wired to its owner, existing shadow containers distinct), every
partition ready for its call.  The round can be completed: there is a schedule in
which every partition calls `ExchangeHalo` once and every copy task runs.  And
however every partition calls `ExchangeHalo` once, in any order, the runtime
running each copy task at any time after the barrier it waits on has triggered:
when all tasks have run, the shadow container of every partition for every
neighbor slot holds exactly the values that neighbor exposes to it from its pull
buffer, and that pull buffer holds `x[elementsToSend[j]]` of the neighbor at every
position `j`. -/
theorem exchange_convergence (sys0 : System α) (hw : Wired sys0) (hf : Fresh sys0)
    (hready : ∀ part ∈ sys0.parts, ExchangeReady part.A part.x) :
    (∃ acts sys1, runSchedule sys0 acts = some sys1 ∧ (callsOf acts).Nodup ∧
      (∀ p, p < sys0.parts.length → p ∈ callsOf acts) ∧ sys1.pending = []) ∧
    ∀ (acts : List Action) (sys1 : System α), runSchedule sys0 acts = some sys1 →
      (callsOf acts).Nodup → (∀ p, p < sys0.parts.length → p ∈ callsOf acts) →
      sys1.pending = [] →
    ∀ (q : Nat) (part : Partition α) (n : Nat), sys1.parts[q]? = some part →
      n < part.A.sclrs.numberOfSendNeighbors.toNat →
      ∃ nid dstArray seg owner es,
        part.A.neighbors[n]? = some nid ∧ seg.owner = nid.toNat ∧
        part.x.ghosts[n]? = some dstArray ∧
        slotSegment sys1.segments part.A n = some seg ∧
        sys1.parts[seg.owner]? = some owner ∧
        sys1.shadows.lookup dstArray.logicalRegion =
          some ((owner.A.pullBuffer.elems.drop seg.offset).take seg.length) ∧
        owner.A.elementsToSend = some es ∧
        ∀ j, j < owner.A.sclrs.totalToBeSent.toNat →
          ∃ e v, es[j]? = some e ∧ owner.x.elems[e.toNat]? = some v ∧
            owner.A.pullBuffer.elems[j]? = some v := by
  refine ⟨?_, ?_⟩
  · obtain ⟨acts, sys1, h1, h2, h3⟩ := exchange_round_completes sys0 hw hready
    exact ⟨acts, sys1, h1, by rw [h2]; exact List.nodup_range _,
      fun p hp => by rw [h2]; exact List.mem_range.mpr hp, h3⟩
  intro acts sys1 hrun honce hall hdone
  have hnd := shadowRegions_nodup sys0 sys1 acts hf hrun hall
  obtain ⟨called, hc, hinv⟩ := RoundInv_schedule sys0 sys1 hw hnd acts sys0 []
    (RoundInv_init sys0 hw) hrun honce (fun _ _ h => absurd h (List.not_mem_nil _))
  obtain ⟨ia, ic, id, _, _, ig⟩ := hinv
  have hcalled : ∀ p pt, sys1.parts[p]? = some pt → p ∈ called := by
    intro p pt hp
    by_contra hn
    have h0 : sys0.parts[p]? = some pt := by rw [← ic p hn]; exact hp
    exact hn ((hc p).mpr (Or.inr (hall p (List.getElem?_eq_some.mp h0).1)))
  intro q part n hq hn
  have hqc := hcalled q part hq
  obtain ⟨part0, lrt, out, e1, e2, e3⟩ := id q hqc
  rw [hq] at e3
  have hpart := Option.some.inj e3
  obtain ⟨s1, s2, s3, _⟩ := ExchangeHalo_slots part0 lrt out e2
  have hn0 : n < part0.A.sclrs.numberOfSendNeighbors.toNat := by
    rw [hpart] at hn
    simpa only [s1] using hn
  obtain ⟨tl, dst, seg, g1, g2, g3, g4⟩ := ig q hqc part0 part e1 hq n hn0
  obtain ⟨_, _, _, _, hslots⟩ := hw
  obtain ⟨nid, _, _, _, seg1, w1, _, _, _, _, _, w7, w8⟩ :=
    slotWired_spec sys0 part0 n (hslots part0 (mem_of_getElem? _ _ _ e1) n hn0)
  rw [g3] at w8
  have hseg := Option.some.inj w8
  rcases g4 with g4 | ⟨g5, g6, g7⟩
  · rw [hdone] at g4
    exact absurd g4 (List.not_mem_nil _)
  · rw [g7] at g6
    unfold segmentValues at g6 g7
    split at g6
    · exact absurd g6 (by simp)
    · rename_i owner howner
      rw [howner] at g7
      obtain ⟨o0, lrt1, out1, f1, f2, f3⟩ := id seg.owner g5
      rw [howner] at f3
      have hown := Option.some.inj f3
      obtain ⟨es, p1, p2⟩ := ExchangeHalo_packed _ _ _ _ f2
      refine ⟨nid, dst, seg, owner, es, ?_, by rw [hseg]; exact w7, g2, ?_, howner, g7, ?_, ?_⟩
      · rw [hpart]
        simp only [s2]
        exact w1
      · rw [ia, hpart]
        rw [slotSegment_congr _ part0.A out.A n s2 s3]
        exact g3
      · rw [hown]
        exact p1
      · rw [hown]
        exact p2

/-- C2 on the two-partition ring: partition 0 owns `[1, 2, 3, 4]` and sends `[3, 4]`
to partition 1; after the exchange the shadow container of partition 1 for
partition 0 (region 1001) holds `[3, 4]`. -/
theorem exchange_convergence_witness :
    (Wired Example.ring ∧ Fresh Example.ring ∧
      ∀ part ∈ Example.ring.parts, ExchangeReady part.A part.x) ∧
    (runSchedule Example.ring Example.ringSchedule = some Example.ringAfter ∧
      (callsOf Example.ringSchedule).Nodup ∧
      (∀ p, p < Example.ring.parts.length → p ∈ callsOf Example.ringSchedule) ∧
      Example.ringAfter.pending = []) ∧
    (∀ (q : Nat) (part : Partition Int) (n : Nat),
      Example.ringAfter.parts[q]? = some part →
      n < part.A.sclrs.numberOfSendNeighbors.toNat →
      ∃ nid dstArray seg owner es,
        part.A.neighbors[n]? = some nid ∧ seg.owner = nid.toNat ∧
        part.x.ghosts[n]? = some dstArray ∧
        slotSegment Example.ringAfter.segments part.A n = some seg ∧
        Example.ringAfter.parts[seg.owner]? = some owner ∧
        Example.ringAfter.shadows.lookup dstArray.logicalRegion =
          some ((owner.A.pullBuffer.elems.drop seg.offset).take seg.length) ∧
        owner.A.elementsToSend = some es ∧
        ∀ j, j < owner.A.sclrs.totalToBeSent.toNat →
          ∃ e v, es[j]? = some e ∧ owner.x.elems[e.toNat]? = some v ∧
            owner.A.pullBuffer.elems[j]? = some v) ∧
    Example.ringAfter.shadows.lookup 1001 = some [3, 4] ∧
    Example.ringAfter.parts.map (fun p => p.x.ghosts.map (fun g => g.logicalRegion)) =
      [[1000], [1001]] :=
  ⟨⟨by decide, by decide, by decide⟩, ⟨by decide, by decide, by decide, by decide⟩,
    (exchange_convergence Example.ring (by decide) (by decide) (by decide)).2
      Example.ringSchedule Example.ringAfter (by decide) (by decide) (by decide) (by decide),
    by decide, by decide⟩

end RoundProofs

end CODY
